import Mathlib

/-!
# The copy-back cache of `bread` (`src/cache/cache.go`)

A shallow embedding of the cache dispatcher.  The dispatcher goroutine
(`cacheRequests`) owns the line map and the recency list and handles one
message at a time, so each handler is a function from the cache state to the
next state together with the channel sends it performs, in order.

* the map `lines` is an association list with one pair per key;
* `container/list` is a list of elements, front first; an element pointer is
  modelled by a number that is allocated when the element is pushed;
* `time.Now()` is the reading `now` handed to the handler;
* a handler returns `none` where the Go code dereferences a nil pointer.
-/

namespace BreadCache

/-! ## Data model -/

/-- An entry of the cache, `Entry` in the source: anything with a `Key()`.
The shape is the one of `testEntry` in `cache_test.go`. -/
structure Entry where
  key : String
  value : String
deriving DecidableEq, Repr

/-- The method `Key()` of an entry. -/
@[reducible] def Entry.Key (e : Entry) : String := e.key

/-- An augmented entry within the cache, `line` in the source.  `waiting`
holds the reply channels, each named by a number; `lruEntry` names the
element of the recency list. -/
structure Line where
  payload : Option Entry
  empty : Bool
  waiting : List Nat
  lruEntry : Nat
  lastUse : Int
deriving DecidableEq, Repr

/-- An element of `container/list`: its identity and its value. -/
structure Element where
  id : Nat
  Value : String
deriving DecidableEq, Repr

/-- A cache lookup request, `lookup` in the source. -/
structure Lookup where
  key : String
  resCh : Nat
deriving DecidableEq, Repr

/-- A create request, `create` in the source. -/
structure Create where
  entry : Entry
  resCh : Nat
deriving DecidableEq, Repr

/-- The dispatcher state of `Cache`: the fields the handlers read and write.
`nextElem` is the allocator of list elements. -/
structure Cache where
  lines : List (String × Line)
  size : Int
  ttl : Int
  lruList : List Element
  nextElem : Nat
deriving DecidableEq, Repr

/-- A channel send performed by the dispatcher. -/
inductive Event where
  /-- A send of `result{value, ok}` on the reply channel `resCh`. -/
  | result (resCh : Nat) (value : Option Entry) (ok : Bool)
  /-- A send of `key` on `getCh`: a load request. -/
  | getCh (key : String)
  /-- A send of `payload` on `cpCh`: a copy-back request. -/
  | cpCh (payload : Option Entry)
  /-- A send of the outcome of `createEntry` on the reply channel of a create. -/
  | created (resCh : Nat) (ok : Bool)
deriving DecidableEq, Repr

/-! ## The map `lines` -/

/-- The map read `c.lines[k]`. -/
def getLine : List (String × Line) → String → Option Line
  | [], _ => none
  | (k', ln) :: rest, k => if k' = k then some ln else getLine rest k

/-- The map deletion `delete(c.lines, k)`. -/
def deleteLine (m : List (String × Line)) (k : String) : List (String × Line) :=
  m.filter (fun p => decide (p.1 ≠ k))

/-- The map write `c.lines[k] = line`. -/
def setLine (m : List (String × Line)) (k : String) (ln : Line) : List (String × Line) :=
  (k, ln) :: deleteLine m k

/-- A write through the line pointer stored under `k`. -/
def modifyLine (m : List (String × Line)) (k : String) (f : Line → Line) :
    List (String × Line) :=
  m.map (fun p => if p.1 = k then (p.1, f p.2) else p)

/-! ## The recency list (`container/list`) -/

/-- The call `l.Back()`. -/
def Back (l : List Element) : Option Element := l.getLast?

/-- The call `l.Remove(e)`, which does nothing when `e` is not in the list. -/
def Remove (l : List Element) (e : Nat) : List Element :=
  l.filter (fun x => decide (x.id ≠ e))

/-- The call `l.MoveToFront(e)`, which does nothing when `e` is not in the list. -/
def MoveToFront (l : List Element) (e : Nat) : List Element :=
  match l.find? (fun x => decide (x.id = e)) with
  | none => l
  | some x => x :: Remove l e

/-! ## The handlers -/

/-- The state that `New` builds. -/
def New (size : Int) (ttl : Int) : Cache :=
  { lines := [], size := size, ttl := ttl, lruList := [], nextElem := 0 }

/-- Remove a line from the cache, `removeLine`.  A key without a line makes
the Go code read `line.empty` through a nil pointer. -/
def removeLine (c : Cache) (key : String) : Option (Cache × List Event) :=
  match getLine c.lines key with
  | none => none
  | some line =>
    let c1 := { c with lruList := Remove c.lruList line.lruEntry,
                       lines := deleteLine c.lines key }
    if line.empty then some (c1, []) else some (c1, [Event.cpCh line.payload])

/-- Remove the least recently used line, `removeLRU`.  An empty list makes the
Go code read `oldest.Value` through a nil pointer. -/
def removeLRU (c : Cache) : Option (Cache × List Event) :=
  match Back c.lruList with
  | none => none
  | some oldest => removeLine c oldest.Value

/-- Create a new cache line with the given key, `newLine`.  The new line is
the one stored under `k` in the returned state. -/
def newLine (c : Cache) (now : Int) (k : String) : Option (Cache × List Event) :=
  let line : Line := { payload := none, empty := true, waiting := [], lruEntry := 0,
                       lastUse := now }
  (if (c.lines.length : Int) ≥ c.size then removeLRU c else some (c, [])).map
    (fun r =>
      ({ r.1 with lruList := { id := r.1.nextElem, Value := k } :: r.1.lruList,
                  nextElem := r.1.nextElem + 1,
                  lines := setLine r.1.lines k { line with lruEntry := r.1.nextElem } },
       r.2))

/-- Update the LRU entry of the line stored under `k`, `updateLRU`. -/
def updateLRU (c : Cache) (now : Int) (k : String) (l : Line) : Cache :=
  { c with lines := modifyLine c.lines k (fun ln => { ln with lastUse := now }),
           lruList := MoveToFront c.lruList l.lruEntry }

/-- Lookup an entry synchronously, `syncLookup`. -/
def syncLookup (c : Cache) (now : Int) (l : Lookup) : Option (Cache × List Event) :=
  match getLine c.lines l.key with
  | none =>
    (newLine c now l.key).map (fun r =>
      ({ r.1 with lines := modifyLine r.1.lines l.key
                    (fun ln => { ln with waiting := ln.waiting ++ [l.resCh] }) },
       r.2 ++ [Event.getCh l.key]))
  | some line =>
    if line.empty then
      some ({ c with lines := modifyLine c.lines l.key
                       (fun ln => { ln with waiting := ln.waiting ++ [l.resCh] }) }, [])
    else
      some (updateLRU c now l.key line, [Event.result l.resCh line.payload true])

/-- Lookup an entry asynchronously, `asyncLookup`. -/
def asyncLookup (c : Cache) (now : Int) (l : Lookup) : Option (Cache × List Event) :=
  match getLine c.lines l.key with
  | none =>
    (newLine c now l.key).map (fun r =>
      (r.1, r.2 ++ [Event.result l.resCh none false, Event.getCh l.key]))
  | some line =>
    if line.empty then
      some (c, [Event.result l.resCh none false])
    else
      some (updateLRU c now l.key line, [Event.result l.resCh line.payload true])

/-- Put a value into the cache, `putEntry`. -/
def putEntry (c : Cache) (now : Int) (e : Entry) : Option (Cache × List Event) :=
  match getLine c.lines e.Key with
  | none =>
    (newLine c now e.Key).map (fun r =>
      ({ r.1 with lines := modifyLine r.1.lines e.Key
                    (fun ln => { ln with payload := some e, empty := false }) },
       r.2))
  | some line =>
    some ({ c with lines := modifyLine c.lines e.Key
                     (fun ln => { ln with payload := some e, empty := false }) },
          line.waiting.map (fun ch => Event.result ch (some e) true))

/-- Create a new entry in the cache, `createEntry`; the Boolean is the value
the Go function returns. -/
def createEntry (c : Cache) (now : Int) (e : Entry) : Option ((Cache × List Event) × Bool) :=
  match getLine c.lines e.Key with
  | some _ => some ((c, []), false)
  | none =>
    (newLine c now e.Key).map (fun r =>
      (({ r.1 with lines := modifyLine r.1.lines e.Key
                     (fun ln => { ln with payload := some e, empty := false }) },
        r.2), true))

/-- Indicate that an entry requested by the cache was not found, `keyNotFound`. -/
def keyNotFound (c : Cache) (k : String) : Option (Cache × List Event) :=
  match getLine c.lines k with
  | none => some (c, [])
  | some line =>
    (removeLine c k).map (fun r =>
      (r.1, (if line.empty then line.waiting.map (fun ch => Event.result ch none false)
             else []) ++ r.2))

/-- The loop of `timeout`: one iteration per unit of fuel, `evs` the sends so
far.  `none` stands for fuel that ran out before the loop ended. -/
def timeoutLoop : Nat → Cache → Int → List Event → Option (Cache × List Event)
  | 0, c, _, evs =>
    match Back c.lruList with
    | none => some (c, evs)
    | some _ => none
  | fuel + 1, c, limit, evs =>
    match Back c.lruList with
    | none => some (c, evs)
    | some lru =>
      match getLine c.lines lru.Value with
      | some line =>
        if line.lastUse < limit then
          match removeLine c lru.Value with
          | none => none
          | some r => timeoutLoop fuel r.1 limit (evs ++ r.2)
        else some (c, evs)
      | none => timeoutLoop fuel { c with lruList := Remove c.lruList lru.id } limit evs

/-- Remove entries from the cache that have exceeded the ttl, `timeout`.  Each
iteration of the loop removes a line or a list element, so the fuel suffices. -/
def timeout (c : Cache) (now : Int) : Option (Cache × List Event) :=
  timeoutLoop (c.lines.length + c.lruList.length) c (now - c.ttl) []

/-- A message taken by the `select` of `cacheRequests`. -/
inductive Msg where
  | lookupSync (l : Lookup)
  | lookupAsync (l : Lookup)
  | put (e : Entry)
  | createCh (cr : Create)
  | notFound (k : String)
  | ttlPoll
deriving DecidableEq, Repr

/-- One iteration of `cacheRequests`: handle the message `m` at time `now`. -/
def cacheRequests (c : Cache) (now : Int) (m : Msg) : Option (Cache × List Event) :=
  match m with
  | Msg.lookupSync ls => syncLookup c now ls
  | Msg.lookupAsync as => asyncLookup c now as
  | Msg.put p => putEntry c now p
  | Msg.createCh cr =>
    (createEntry c now cr.entry).map (fun r => (r.1.1, r.1.2 ++ [Event.created cr.resCh r.2]))
  | Msg.notFound n => keyNotFound c n
  | Msg.ttlPoll => timeout c now

/-- Handle the messages of `ms` one after another, each with its clock
reading, and collect the sends. -/
def run : Cache → List (Int × Msg) → Option (Cache × List Event)
  | c, [] => some (c, [])
  | c, (now, m) :: rest =>
    match cacheRequests c now m with
    | none => none
    | some r =>
      match run r.1 rest with
      | none => none
      | some r2 => some (r2.1, r.2 ++ r2.2)

/-! ## Consistency of a cache state -/

/-- The recency list and the line map describe each other: one pair per key,
one element per pointer, every line's `lruEntry` is in the list holding the
line's key, every element belongs to the line of its key, and the allocator is
ahead of every element.  Every state the dispatcher reaches from `New` with a
size of at least 1 is consistent (`Reachable.inv`). -/
structure Consistent (c : Cache) : Prop where
  keysNodup : (c.lines.map Prod.fst).Nodup
  idsNodup : (c.lruList.map Element.id).Nodup
  handle : ∀ k ln, getLine c.lines k = some ln →
    ({ id := ln.lruEntry, Value := k } : Element) ∈ c.lruList
  owner : ∀ el ∈ c.lruList, ∃ ln, getLine c.lines el.Value = some ln ∧ ln.lruEntry = el.id
  fresh : ∀ el ∈ c.lruList, el.id < c.nextElem

/-- The line of key `k` is pending: it exists and is a placeholder. -/
def isPending (c : Cache) (k : String) : Bool :=
  match getLine c.lines k with
  | some ln => ln.empty
  | none => false

/-- The `lastUse` of the line stored under `k`, if there is one. -/
def lastUseOf (m : List (String × Line)) (k : String) : Option Int :=
  (getLine m k).map Line.lastUse

/-- Recency is ordered by use: read from front to back, the `lastUse` of the
lines of the recency list does not increase. -/
def Ordered (c : Cache) : Prop :=
  c.lruList.Pairwise (fun a b => ∀ ta tb, lastUseOf c.lines a.Value = some ta →
    lastUseOf c.lines b.Value = some tb → tb ≤ ta)

/-! ## The two halves of `newLine`, as states -/

/-- The state after the removal of the line `line` stored under `key`. -/
def dropLine (c : Cache) (key : String) (line : Line) : Cache :=
  { c with lruList := Remove c.lruList line.lruEntry, lines := deleteLine c.lines key }

/-- The state after a fresh placeholder line for `k` is pushed. -/
def pushLine (c : Cache) (now : Int) (k : String) : Cache :=
  { c with lruList := { id := c.nextElem, Value := k } :: c.lruList,
           nextElem := c.nextElem + 1,
           lines := setLine c.lines k
             { payload := none, empty := true, waiting := [], lruEntry := c.nextElem,
               lastUse := now } }

/-- The copy-back that `removeLine` sends for a line. -/
def copyBackOf (line : Line) : List Event :=
  if line.empty then [] else [Event.cpCh line.payload]

/-! ## Observations on the sends of a handler -/

/-- The keys of the load requests among the sends. -/
def loadsOf (evs : List Event) : List String :=
  evs.filterMap (fun ev => match ev with
    | Event.getCh k => some k
    | _ => none)

/-- The lookup replies among the sends: channel, value and found flag. -/
def repliesOf (evs : List Event) : List (Nat × Option Entry × Bool) :=
  evs.filterMap (fun ev => match ev with
    | Event.result ch v ok => some (ch, v, ok)
    | _ => none)

/-- The payloads of the copy-back requests among the sends. -/
def copyBacksOf (evs : List Event) : List (Option Entry) :=
  evs.filterMap (fun ev => match ev with
    | Event.cpCh p => some p
    | _ => none)

/-! ## Example states -/

/-- A cache of capacity 2 in which the line of "a" is pending with the
waiters 4 and 5. -/
def pendingExample : Cache :=
  { lines := [("a", { payload := none, empty := true, waiting := [4, 5], lruEntry := 0,
                      lastUse := 0 })],
    size := 2, ttl := 20, lruList := [{ id := 0, Value := "a" }], nextElem := 1 }

/-! ## Lines that a step removes -/

/-- The payloads of the resolved lines of `c` whose key has no line in `c1`:
the resolved lines that a step from `c` to `c1` removed from the line map. -/
def removedResolved (c c1 : Cache) : List (Option Entry) :=
  (c.lines.filter (fun p => !p.2.empty && (getLine c1.lines p.1).isNone)).map
    (fun p => p.2.payload)

/-- What `newLine` does before it pushes the new line: nothing when the cache
is below its size, the removal of the line of the back element `oldest`
otherwise.  `c1` is the state and `cb` the sends after that part. -/
def Admit (c c1 : Cache) (cb : List Event) : Prop :=
  ((c.lines.length : Int) < c.size ∧ c1 = c ∧ cb = []) ∨
  (∃ oldest line, c.size ≤ (c.lines.length : Int) ∧ Back c.lruList = some oldest ∧
    getLine c.lines oldest.Value = some line ∧ line.lruEntry = oldest.id ∧
    c1 = dropLine c oldest.Value line ∧ cb = copyBackOf line)

/-- The state in which a handler leaves the line it has just made with
`newLine` in `c`: the pushed line of `k`, written through with `f`. -/
def installed (c : Cache) (now : Int) (k : String) (f : Line → Line) : Cache :=
  { pushLine c now k with lines := modifyLine (pushLine c now k).lines k f }

/-- The write of `syncLookup` that registers the reply channel `ch`. -/
def addWaiter (ch : Nat) (ln : Line) : Line :=
  { ln with waiting := ln.waiting ++ [ch] }

/-- The write of `putEntry` and `createEntry` that stores `e`. -/
def store (e : Entry) (ln : Line) : Line :=
  { ln with payload := some e, empty := false }

/-- A full cache of capacity 1 that holds the resolved line of "a". -/
def resolvedExample : Cache :=
  { lines := [("a", { payload := some { key := "a", value := "pass" }, empty := false,
                      waiting := [], lruEntry := 0, lastUse := 0 })],
    size := 1, ttl := 20, lruList := [{ id := 0, Value := "a" }], nextElem := 1 }

/-! ## Reachable states -/

/-- No line of `c` was used after the clock reading `t`. -/
def Bounded (c : Cache) (t : Int) : Prop :=
  ∀ k ln, getLine c.lines k = some ln → ln.lastUse ≤ t

/-- The states the dispatcher reaches from `New size ttl`, each with the last
reading of the clock.  The dispatcher takes any message; the clock does not
go backwards from one message to the next. -/
inductive Reachable (size ttl : Int) : Cache → Int → Prop where
  | init (t0 : Int) : Reachable size ttl (New size ttl) t0
  | step {c : Cache} {t : Int} (now : Int) (m : Msg) (c1 : Cache) (evs : List Event) :
      Reachable size ttl c t → t ≤ now → cacheRequests c now m = some (c1, evs) →
      Reachable size ttl c1 now

/-- The test of `timeout` on a line, negated: the line was last used at or
after `limit`, the sweep time minus the ttl. -/
def isFresh (limit : Int) (ln : Line) : Bool :=
  !decide (ln.lastUse < limit)

/-- The element of the recency list holds the key of a line that `isFresh`. -/
def holdsFresh (c : Cache) (limit : Int) (el : Element) : Bool :=
  match getLine c.lines el.Value with
  | some ln => isFresh limit ln
  | none => false

/-- The cache of capacity 2 and ttl 20 after `Get("x")` at time 0 and the
`Put` of its entry at time 1. -/
def sweptExample : Cache :=
  { lines := [("x", { payload := some { key := "x", value := "pass" }, empty := false,
                      waiting := [1], lruEntry := 0, lastUse := 0 })],
    size := 2, ttl := 20, lruList := [{ id := 0, Value := "x" }], nextElem := 1 }

/-- The clock readings of the messages `ms` do not go backwards, starting
from the reading `t`. -/
def clockOk : Int → List (Int × Msg) → Bool
  | _, [] => true
  | t, (now, _) :: rest => decide (t ≤ now) && clockOk now rest

/-- The last clock reading after the messages `ms`, `t` if there is none. -/
def lastClock : Int → List (Int × Msg) → Int
  | t, [] => t
  | _, (now, _) :: rest => lastClock now rest

/-! ## The claim on eviction order, in the words of the specification -/

/-- The line of `k` is resolved: it exists and holds a payload. -/
def isResolved (c : Cache) (k : String) : Bool :=
  match getLine c.lines k with
  | some ln => !ln.empty
  | none => false

/-- Whether the message `m`, handled in state `c`, is a successful Get of `k`
(a lookup that finds the resolved line of `k`) or a Put of `k` (a payload for
`k` is installed). -/
def isGetOrPut (c : Cache) (m : Msg) (k : String) : Bool :=
  match m with
  | Msg.lookupSync l => decide (l.key = k) && isResolved c k
  | Msg.lookupAsync l => decide (l.key = k) && isResolved c k
  | Msg.put e => decide (e.Key = k)
  | _ => false

/-- The time of the most recent successful Get or Put of `k` while the
messages `ms` are handled from state `c`, as the specification words the
recency of a key. -/
def lastGetPut : Cache → List (Int × Msg) → String → Option Int
  | _, [], _ => none
  | c, (now, m) :: rest, k =>
    let here : Option Int := if isGetOrPut c m k then some now else none
    match cacheRequests c now m with
    | none => here
    | some r =>
      match lastGetPut r.1 rest k with
      | some t => some t
      | none => here

/-- A run on a cache of capacity 2: "y" is loaded, "x" is requested, "y" is
read again, and then the load of "x" is answered. -/
def evictTrace : List (Int × Msg) :=
  [(0, Msg.lookupSync { key := "y", resCh := 1 }),
   (1, Msg.put { key := "y", value := "pass" }),
   (2, Msg.lookupSync { key := "x", resCh := 2 }),
   (3, Msg.lookupSync { key := "y", resCh := 3 }),
   (4, Msg.put { key := "x", value := "pass" })]

/-- The state that `evictTrace` leaves on a cache of capacity 2. -/
def evictExample : Cache :=
  { lines := [("x", { payload := some { key := "x", value := "pass" }, empty := false,
                      waiting := [2], lruEntry := 1, lastUse := 2 }),
              ("y", { payload := some { key := "y", value := "pass" }, empty := false,
                      waiting := [1], lruEntry := 0, lastUse := 3 })],
    size := 2, ttl := 20,
    lruList := [{ id := 0, Value := "y" }, { id := 1, Value := "x" }], nextElem := 2 }

/-! ## Outstanding load requests -/

/-- A run on a cache of capacity 1: `Get("a")` by caller 1 and `Get("b")` by
caller 2 arrive before the loads are answered, then `getRequests` answers the
two loads in order. -/
def strandedTrace : List (Int × Msg) :=
  [(0, Msg.lookupSync { key := "a", resCh := 1 }),
   (1, Msg.lookupSync { key := "b", resCh := 2 }),
   (2, Msg.put { key := "a", value := "pass" }),
   (3, Msg.put { key := "b", value := "pass" })]

/-- A run on a cache of capacity 2 and ttl 2: `Get("a")` by caller 1, a sweep
at time 3 before the load is answered, then the answer. -/
def sweptPendingTrace : List (Int × Msg) :=
  [(0, Msg.lookupSync { key := "a", resCh := 1 }),
   (3, Msg.ttlPoll),
   (4, Msg.put { key := "a", value := "pass" })]

/-- A run on a cache of capacity 2 in which `getRequests` answers the loads
in the order they were sent: the line of "a" is evicted while pending and
made again for caller 4, and the second answer for "a" finds the line
resolved with caller 4 still in `waiting`. -/
def repliedTwiceTrace : List (Int × Msg) :=
  [(0, Msg.lookupSync { key := "a", resCh := 1 }),
   (1, Msg.lookupSync { key := "b", resCh := 2 }),
   (2, Msg.lookupSync { key := "c", resCh := 3 }),
   (3, Msg.lookupSync { key := "a", resCh := 4 }),
   (4, Msg.put { key := "a", value := "pass" }),
   (5, Msg.put { key := "b", value := "pass" }),
   (6, Msg.lookupSync { key := "a", resCh := 5 }),
   (7, Msg.put { key := "c", value := "pass" }),
   (8, Msg.put { key := "a", value := "pass" })]

/-- The loader of the test suite: for every key an entry with the value
"pass". -/
def passLoader (key : String) : Entry := { key := key, value := "pass" }

/-- The eviction scenario of the specification on a cache of capacity 2:
`Get("a")` by caller 1 and the `Put` of the loader's answer, the same for
"b" and caller 2, and for "c" and caller 3. -/
def scenarioTrace : List (Int × Msg) :=
  [(0, Msg.lookupSync { key := "a", resCh := 1 }), (1, Msg.put (passLoader "a")),
   (2, Msg.lookupSync { key := "b", resCh := 2 }), (3, Msg.put (passLoader "b")),
   (4, Msg.lookupSync { key := "c", resCh := 3 }), (5, Msg.put (passLoader "c"))]

/-- The key for which a message asks `newLine` when the key has no line:
the key of a lookup, of a Put and of a Create. -/
def admittedKey (m : Msg) : Option String :=
  match m with
  | Msg.lookupSync l => some l.key
  | Msg.lookupAsync l => some l.key
  | Msg.put e => some e.Key
  | Msg.createCh cr => some cr.entry.Key
  | _ => none

/-- The first two messages of the Get of "a" by caller 1 on a cache of
capacity 2: the lookup and the `Put` of the loader's answer. -/
def getPutTrace : List (Int × Msg) :=
  [(0, Msg.lookupSync { key := "a", resCh := 1 }), (1, Msg.put (passLoader "a"))]

/-- A line of `c` that is in `c1` too has kept what it held: it is not a
placeholder in `c1` if it was none in `c`, and holds a payload in `c1` if it
held one in `c`. -/
def KeepsResolved (c c1 : Cache) : Prop :=
  ∀ K ln ln1, getLine c.lines K = some ln → getLine c1.lines K = some ln1 →
    (ln.empty = false → ln1.empty = false) ∧ (ln.payload ≠ none → ln1.payload ≠ none)

/-- A run on a cache of capacity 1: `Get("a")` by caller 1, the `Put` of the
loader's answer, and then a `NotFound` message for "a". -/
def notFoundTrace : List (Int × Msg) :=
  [(0, Msg.lookupSync { key := "a", resCh := 1 }), (1, Msg.put (passLoader "a")),
   (2, Msg.notFound "a")]

/-- A run on a cache of capacity 2: `Get("a")` at time 0, the `Put` of the
loader's answer at time 1, and a second `Put` for "a" at time 5. -/
def putAgainTrace : List (Int × Msg) :=
  [(0, Msg.lookupSync { key := "a", resCh := 1 }), (1, Msg.put (passLoader "a")),
   (5, Msg.put { key := "a", value := "new" })]

/-- The recency list holds exactly the keys of the line map: a key is the
value of an element of `lruList` if and only if it has a line. -/
def HoldsKeys (c : Cache) : Prop :=
  ∀ k, k ∈ c.lruList.map Element.Value ↔ k ∈ c.lines.map Prod.fst

/-- A cache of capacity 1 whose recency list holds the key of its one line
under a handle that is not the one of the line. -/
def strayHandleExample : Cache :=
  { lines := [("a", { payload := none, empty := true, waiting := [], lruEntry := 7,
                      lastUse := 0 })],
    size := 1, ttl := 20, lruList := [{ id := 0, Value := "a" }], nextElem := 1 }

end BreadCache

/-! # The word list of the classifier (`src/bread/nbc/nbc.go`)

Go strings are taken as sequences of runes; `len` of a string is the length
of its UTF-8 encoding.  The case mapping of `unicode` is a parameter. -/

namespace BreadNbc

/-- The punctuation that will be removed, `punctuation` in `nbc.go`. -/
def punctuation : String := "()?'[]`,:-!’‘\""

/-- The regular expression `isNumber`, `^[0-9$,.]+$`, matched against a
string: at least one character, and every character a digit, a dollar sign,
a comma or a full stop. -/
def isNumber (w : String) : Bool :=
  !w.data.isEmpty && w.data.all (fun r => r.isDigit || r = '$' || r = ',' || r = '.')

/-- The loop of `strings.Split(text, " ")` over the runes of the text, `cur`
the runes of the current token in reverse. -/
def splitLoop : List Char → List Char → List String
  | [], cur => [String.mk cur.reverse]
  | r :: rest, cur =>
    if r = ' ' then String.mk cur.reverse :: splitLoop rest [] else splitLoop rest (r :: cur)

/-- The call `strings.Split(text, " ")`. -/
def Split (text : String) : List String := splitLoop text.data []

/-- The call `strings.ToUpper(w)`, which maps every rune with
`unicode.ToUpper`, here the parameter `upper`. -/
def ToUpper (upper : Char → Char) (w : String) : String := String.mk (w.data.map upper)

/-- The call `strings.ToLower(w)`, which maps every rune with
`unicode.ToLower`, here the parameter `lower`. -/
def ToLower (lower : Char → Char) (w : String) : String := String.mk (w.data.map lower)

/-- Remove punctuation from a word, `removePunctuation`: the word and a
Boolean indicating if the word is still valid. -/
def removePunctuation (word : String) : String × Bool :=
  let ret := word.data.filter (fun r => !punctuation.data.contains r)
  if ret.length = 0 then ("", false)
  else if ret.getLast? = some '.' then (String.mk ret.dropLast, true)
  else (String.mk ret, true)

/-- The loop of `Wordlist` over the words, `ret` the slice built so far. -/
def wordlistLoop (upper lower : Char → Char) : List String → List String → List String
  | [], ret => ret
  | w :: words, ret =>
    if w.utf8ByteSize < 2 then wordlistLoop upper lower words ret
    else if w.utf8ByteSize < 5 ∧ ToUpper upper w ≠ w then wordlistLoop upper lower words ret
    else if isNumber w then wordlistLoop upper lower words ret
    else if (removePunctuation w).2 then
      wordlistLoop upper lower words (ret ++ [ToLower lower (removePunctuation w).1])
    else wordlistLoop upper lower words ret

/-- Separate a string into a slice of words, `Wordlist`. -/
def Wordlist (upper lower : Char → Char) (text : String) : List String :=
  wordlistLoop upper lower (Split text) []

/-! ## The word list in the words of the claim -/

/-- The token is made only of the characters `0-9 $ , .`. -/
def onlyNumberChars (w : String) : Bool :=
  w.data.all (fun r => r.isDigit || r = '$' || r = ',' || r = '.')

/-- The token without its punctuation characters. -/
def deletePunctuation (w : String) : String :=
  String.mk (w.data.filter (fun r => !punctuation.data.contains r))

/-- The token without one trailing full stop. -/
def cutTrailingStop (w : String) : String :=
  if w.data.getLast? = some '.' then String.mk w.data.dropLast else w

/-- The word list as the claim words it: split on single spaces; drop the
tokens shorter than 2 bytes, those shorter than 5 bytes that differ from
their upper-casing, and those made only of number characters; then delete
the punctuation of each remaining token, drop it if nothing remains, cut one
trailing full stop and lower-case it. -/
def WordlistSpec (upper lower : Char → Char) (text : String) : List String :=
  ((((Split text).filter (fun w => !decide (w.utf8ByteSize < 2))).filter
      (fun w => !decide (w.utf8ByteSize < 5 ∧ ToUpper upper w ≠ w))).filter
      (fun w => !onlyNumberChars w)).filterMap
    (fun w =>
      if deletePunctuation w = "" then none
      else some (ToLower lower (cutTrailingStop (deletePunctuation w))))

/-! ## The classifier -/

/-- The arithmetic of `float64` that the classifier uses, as a parameter:
the conversion `float64(n)` of an integer (which also gives the constants
`0`, `1`, `2.0` and `-500`), `+`, `/`, `math.Log2` and the comparison `<`. -/
structure Floats (F : Type) where
  ofInt : Int → F
  add : F → F → F
  div : F → F → F
  log2 : F → F
  lt : F → F → Bool

/-- A class that an item is classified into, `Class` in the source.  The map
`Vocabulary` is a list of pairs, read with `vocabGet` and written with
`vocabSet`. -/
structure Class (F : Type) where
  Count : Int
  Prior : F
  Vocabulary : List (String × Int)
deriving DecidableEq

/-- A classifier, `Classifier` in the source. -/
structure Classifier (F : Type) where
  Classes : List (Class F)
  Total : Int
  Words : Int
deriving DecidableEq

/-- The map read `vocab[w]`, 0 for a word that is not in the map. -/
def vocabGet : List (String × Int) → String → Int
  | [], _ => 0
  | (k, v) :: rest, w => if k = w then v else vocabGet rest w

/-- The map write `vocab[w] = count`. -/
def vocabSet (vocab : List (String × Int)) (w : String) (count : Int) : List (String × Int) :=
  (w, count) :: vocab.filter (fun p => decide (p.1 ≠ w))

/-- Create a classifier, `New`.  Fewer than two classes end the program with
`log.Fatal`. -/
def New {F : Type} (fl : Floats F) (priors : List F) : Option (Classifier F) :=
  if priors.length < 2 then none
  else some { Classes := priors.map (fun p => { Count := 0, Prior := fl.log2 p,
                                                 Vocabulary := [] }),
              Total := 0, Words := 0 }

/-- Update the given vocabulary with the given wordlist, `updateVocabulary`. -/
def updateVocabulary : List (String × Int) → List String → List (String × Int)
  | vocab, [] => vocab
  | vocab, w :: words => updateVocabulary (vocabSet vocab w (vocabGet vocab w + 1)) words

/-- Train the classifier, `Train`: the given wordlist belongs to the given
class.  An index that is not one of `Classes` makes the Go code panic. -/
def Train {F : Type} (c : Classifier F) (words : List String) (cls : Int) :
    Option (Classifier F) :=
  if cls < 0 then none
  else
    match c.Classes[cls.toNat]? with
    | none => none
    | some tc =>
      some { Classes := c.Classes.set cls.toNat
                          { tc with Count := tc.Count + 1,
                                    Vocabulary := updateVocabulary tc.Vocabulary words },
             Total := c.Total + 1,
             Words := c.Words + words.length }

/-- A sequence of `Train` calls, each with its wordlist and class. -/
def trainAll {F : Type} : Classifier F → List (List String × Int) → Option (Classifier F)
  | c, [] => some c
  | c, (words, cls) :: rest =>
    match Train c words cls with
    | none => none
    | some c1 => trainAll c1 rest

/-- The loop of `weight` over the words, `ll` the log likelihood so far and
`k` the number of words in the training set. -/
def weightLoop {F : Type} (fl : Floats F) (cl : Class F) (k : F) : List String → F → F
  | [], ll => ll
  | w :: words, ll =>
    weightLoop fl cl k words
      (fl.add ll (fl.log2 (fl.div (fl.add (fl.ofInt (vocabGet cl.Vocabulary w)) (fl.ofInt 1))
        (fl.add (fl.ofInt cl.Count) k))))

/-- Calculate the weight of the given wordlist for the given class, `weight`. -/
def weight {F : Type} (fl : Floats F) (c : Classifier F) (cl : Class F)
    (words : List String) : F :=
  if c.Total = 0 then fl.ofInt 0
  else if cl.Count = 0 then fl.ofInt (-500)
  else weightLoop fl cl (fl.ofInt c.Words) words cl.Prior

/-- The loop of `ambiguityMeasure` over the classes: the max word frequency
and the total. -/
def ambiguityLoop {F : Type} (word : String) : List (Class F) → Int → Int → Int × Int
  | [], max, total => (max, total)
  | cl :: rest, max, total =>
    ambiguityLoop word rest
      (if vocabGet cl.Vocabulary word > max then vocabGet cl.Vocabulary word else max)
      (total + vocabGet cl.Vocabulary word)

/-- Measure the ambiguity of a word, `ambiguityMeasure`. -/
def ambiguityMeasure {F : Type} (fl : Floats F) (c : Classifier F) (word : String) : F × Int :=
  let r := ambiguityLoop word c.Classes 0 0
  (if r.2 > 0 then fl.div (fl.ofInt r.1) (fl.ofInt r.2) else fl.ofInt 0, r.2)

/-- Get the cutoff value for prefiltering, `cutoff`. -/
def cutoff {F : Type} (fl : Floats F) (c : Classifier F) : F :=
  fl.div (fl.ofInt 2) (fl.ofInt ((c.Classes.length : Int) + 1))

/-- Prefilter the given list of words, `Prefilter`. -/
def Prefilter {F : Type} (fl : Floats F) (c : Classifier F) (words : List String) :
    List String :=
  words.filter (fun w => fl.lt (cutoff fl c) (ambiguityMeasure fl c w).1)

/-- The loop of `Classify` that finds the heaviest class: `j` the index of
the next weight, `h` the heaviest class so far and `hw` its weight. -/
def heaviestLoop {F : Type} (fl : Floats F) : List F → Nat → Nat → F → Nat
  | [], _, h, _ => h
  | w :: rest, j, h, hw =>
    if fl.lt hw w then heaviestLoop fl rest (j + 1) j w
    else heaviestLoop fl rest (j + 1) h hw

/-- Classify the given word list, `Classify`: the id of the class.  Without a
class the read of `weights[0]` makes the Go code panic. -/
def Classify {F : Type} (fl : Floats F) (c : Classifier F) (words : List String) :
    Option Nat :=
  match c.Classes.map (fun cl => weight fl c cl (Prefilter fl c words)) with
  | [] => none
  | hw :: rest => some (heaviestLoop fl (hw :: rest) 0 0 hw)

/-! ## Exact arithmetic for the example runs -/

/-- The number of halvings that take `n` below 2, at most `fuel`. -/
def halvings : Nat → Nat → Int
  | 0, _ => 0
  | fuel + 1, n => if n < 2 then 0 else 1 + halvings fuel (n / 2)

/-- A fraction of two integers, not reduced to lowest terms. -/
structure Frac where
  num : Int
  den : Nat
deriving DecidableEq, Repr

/-- Exact arithmetic on fractions in the place of `float64`, for the example
runs.  `log2` is exact on the powers of two, as `math.Log2` is; the example
runs take it of 1/4 and 1/2 and divide by 3 only. -/
def fracFloats : Floats Frac :=
  { ofInt := fun n => { num := n, den := 1 },
    add := fun a b => { num := a.num * b.den + b.num * a.den, den := a.den * b.den },
    div := fun a b => { num := a.num * b.den * Int.sign b.num, den := a.den * b.num.natAbs },
    log2 := fun q => { num := halvings q.num.natAbs q.num.natAbs - halvings q.den q.den,
                       den := 1 },
    lt := fun a b => decide (a.num * b.den < b.num * a.den) }

/-- The training of the session test: the first story is interesting, the
second is not. -/
def trainingExample : List (List String × Int) :=
  [(["fox", "jumped", "cat"], 0), (["cow", "jumped", "moon"], 1)]

/-- The classifier after `New` with the priors 1/4 and 1/2 and the training
`trainingExample`. -/
def trainedExample : Classifier Frac :=
  { Classes := [{ Count := 1, Prior := { num := -2, den := 1 },
                  Vocabulary := [("cat", 1), ("jumped", 1), ("fox", 1)] },
                { Count := 1, Prior := { num := -1, den := 1 },
                  Vocabulary := [("moon", 1), ("jumped", 1), ("cow", 1)] }],
    Total := 2, Words := 6 }

/-- The counters of a classifier agree with its classes, and every
vocabulary is a map: no word has two entries. -/
structure Counted {F : Type} (c : Classifier F) : Prop where
  total : c.Total = (c.Classes.map Class.Count).sum
  words : c.Words = (c.Classes.map (fun cl => (cl.Vocabulary.map Prod.snd).sum)).sum
  keys : ∀ cl ∈ c.Classes, (cl.Vocabulary.map Prod.fst).Nodup

end BreadNbc

/-! # The story fifo of the session package (`src/bread/session/fifo.go`)

The slice `index` is a list together with its capacity; a story pointer is the
story it points to. -/

namespace BreadSession

/-- A story of the feed, `rss.Story`. -/
structure RssStory where
  Id : String
  Title : String
  Link : String
  Comments : String
  Summary : String
deriving DecidableEq, Repr

/-- A story, `story.Story`. -/
structure Story where
  Id : Int
  Rss : RssStory
  Wordlist : List String
deriving DecidableEq, Repr

/-- A fifo type that holds stories, `fifo`.  `capacity` is `cap(f.index)`,
and `end_` is the field `end`. -/
structure Fifo where
  index : List Story
  capacity : Nat
  start : Int
  end_ : Int
  head : Nat
deriving DecidableEq, Repr

/-- Create a new fifo, `newFifo`. -/
def newFifo (capacity : Nat) : Fifo :=
  { index := [], capacity := capacity, start := 0, end_ := 0, head := 0 }

/-- Add a story to the fifo, `add`; `none` where the Go code panics.  The
first `append` to a slice of capacity 0 makes a slice of capacity 1; the
other appends stay within the capacity. -/
def add (f : Fifo) (s : Story) : Option Fifo :=
  if s.Id < f.end_ then none
  else if f.index.length = 0 then
    some { f with start := s.Id, index := f.index ++ [s], capacity := max f.capacity 1,
                  end_ := s.Id }
  else if f.index.length = f.capacity then
    if f.head < f.index.length then
      match (f.index.set f.head s)[(f.head + 1) % f.capacity]? with
      | none => none
      | some oldest =>
        some { f with index := f.index.set f.head s,
                      head := (f.head + 1) % f.capacity,
                      start := oldest.Id, end_ := s.Id }
    else none
  else some { f with index := f.index ++ [s], end_ := s.Id }

/-- Add the stories of `ss` one after another. -/
def addAll : Fifo → List Story → Option Fifo
  | f, [] => some f
  | f, s :: rest =>
    match add f s with
    | none => none
    | some f1 => addAll f1 rest

/-! ## The claim on the ring buffer, in its words -/

/-- The stories the fifo holds, the oldest first: the ring read from `head`. -/
def held (f : Fifo) : List Story :=
  f.index.drop f.head ++ f.index.take f.head

/-- The ids of the stories do not decrease, and none is below `lo`. -/
def idsFrom : Int → List Story → Bool
  | _, [] => true
  | lo, s :: rest => decide (lo ≤ s.Id) && idsFrom s.Id rest

/-- The stories are in non-decreasing id order. -/
def nonDecreasing : List Story → Bool
  | [] => true
  | s :: rest => idsFrom s.Id rest

/-- A story with the id `i` and nothing else. -/
def storyOf (i : Int) : Story :=
  { Id := i, Rss := { Id := "", Title := "", Link := "", Comments := "", Summary := "" },
    Wordlist := [] }

/-- What holds of a fifo of capacity `c` after the stories `seen` were added:
the ring is within the capacity and is read from the front until it is full,
it holds the last `c` stories seen, `end_` is the id of the last story and
`start` the id of the oldest story held. -/
structure Filled (c : Nat) (f : Fifo) (seen : List Story) : Prop where
  cap : f.capacity = c
  len : f.index.length = min seen.length c
  headLt : f.head < c
  headZero : f.index.length < c → f.head = 0
  holds : held f = seen.drop (seen.length - c)
  endId : some f.end_ = seen.getLast?.map Story.Id
  startId : some f.start = (held f).head?.map Story.Id

/-- The value of a Go `int64` or `int` after an operation whose exact result
is `n`: the result wraps around in two's complement.  `int` is taken as 64
bits wide. -/
def wrap64 (n : Int) : Int := (n + 2 ^ 63) % 2 ^ 64 - 2 ^ 63

/-- Get the given story from the fifo, `get`; `none` where the Go code panics
on an index out of range.  The subtraction `story - f.start` and the addition
of `f.head` wrap around, the operator `%` of Go truncates towards zero, and
an index below zero panics like one beyond the end. -/
def get (f : Fifo) (story : Int) : Option (Option Story × Bool) :=
  if f.index.length = 0 ∨ story < f.start ∨ story > f.end_ then some (none, false)
  else if story = f.start then
    match f.index[f.head]? with
    | none => none
    | some s => some (some s, true)
  else
    if Int.tmod (wrap64 ((f.head : Int) + wrap64 (story - f.start))) f.index.length < 0 then
      none
    else
      match f.index[(Int.tmod (wrap64 ((f.head : Int) + wrap64 (story - f.start)))
                      f.index.length).toNat]? with
      | none => none
      | some s => some (some s, true)

/-- The ids of the stories are `i`, `i + 1`, `i + 2` and so on. -/
def consecutiveFrom : Int → List Story → Bool
  | _, [] => true
  | i, s :: rest => decide (s.Id = i) && consecutiveFrom (i + 1) rest

/-- The ids of the stories are consecutive integers in increasing order. -/
def consecutive : List Story → Bool
  | [] => true
  | s :: rest => consecutiveFrom (s.Id + 1) rest

/-- The ids of the stories are strictly increasing. -/
def increasing : List Story → Bool
  | [] => true
  | [_] => true
  | s :: s2 :: rest => decide (s.Id < s2.Id) && increasing (s2 :: rest)

/-- The fifo of capacity 3 after the stories 1, 2, 3 and 4 of `TestFifoAdd`
were added. -/
def testFifo : Fifo :=
  { index := [storyOf 4, storyOf 2, storyOf 3], capacity := 3, start := 2, end_ := 4,
    head := 1 }

/-! ## The sorted list of scores (`src/bread/session/sorted.go`) -/

/-- A story id and its score, `score` in the source.  The type `F` stands for
`float64`. -/
structure score (F : Type) where
  storyid : Int
  score : F
deriving DecidableEq, Repr

/-- The loop of `insertScore` over the elements of the list, from the front:
the new score is put after the back element when the loop reaches it, and
before the first other element with a lower score. -/
def insertLoop {F : Type} (lt : F → F → Bool) (s : score F) : List (score F) → List (score F)
  | [] => []
  | [e] => [e, s]
  | e :: e2 :: rest =>
    if lt e.score s.score then s :: e :: e2 :: rest
    else e :: insertLoop lt s (e2 :: rest)

/-- Insert the given score into the given list, `insertScore`.  The removal
of the back element of an empty list makes the Go code panic. -/
def insertScore {F : Type} (lt : F → F → Bool) (scores : List (score F)) (length : Int)
    (s : score F) : Option (List (score F)) :=
  if ((insertLoop lt s scores).length : Int) > length then
    match insertLoop lt s scores with
    | [] => none
    | e :: rest => some (e :: rest).dropLast
  else some (insertLoop lt s scores)

/-- Add the given story id and score to the given list, `addIfHigh`. -/
def addIfHigh {F : Type} (lt : F → F → Bool) (scores : List (score F)) (length : Int)
    (storyid : Int) (k : F) : Option (List (score F)) :=
  match scores.getLast? with
  | none => some (scores ++ [{ storyid := storyid, score := k }])
  | some lowest =>
    if (scores.length : Int) < length then
      insertScore lt scores length { storyid := storyid, score := k }
    else if lt k lowest.score then some scores
    else insertScore lt scores length { storyid := storyid, score := k }

/-- The list is sorted by descending score: no score is less than the one
after it. -/
def descending {F : Type} (lt : F → F → Bool) : List (score F) → Bool
  | [] => true
  | [_] => true
  | a :: b :: rest => !lt a.score b.score && descending lt (b :: rest)

/-- The comparison `<` of scores that are whole numbers. -/
def intLt (a b : Int) : Bool := decide (a < b)

end BreadSession

/-! # The story ids of the feed (`src/bread/rss/rss.go`) -/

namespace BreadRss

/-- The regular expression `idRe`, "id=" and then one or more digits, matched
at the start of the runes `s`: the text of the group `(\d+)`, which takes as
many digits as there are. -/
def matchHere (s : List Char) : Option (List Char) :=
  if s.take 3 = ['i', 'd', '='] ∧ (s.drop 3).takeWhile Char.isDigit ≠ [] then
    some ((s.drop 3).takeWhile Char.isDigit)
  else none

/-- The search of `idRe` through the runes `s`: the group of the leftmost
match. -/
def findGroup : List Char → Option (List Char)
  | [] => none
  | r :: rest =>
    match matchHere (r :: rest) with
    | some m => some m
    | none => findGroup rest

/-- The call `idRe.FindStringSubmatch(link)`: the whole match and the group,
or `none` for the nil slice. -/
def FindStringSubmatch (link : String) : Option (List String) :=
  (findGroup link.data).map (fun m => [String.mk (['i', 'd', '='] ++ m), String.mk m])

/-- Extract the id of a story from a comment link, `extractId`. -/
def extractId (link : String) : String :=
  match FindStringSubmatch link with
  | none => "unknownHN"
  | some ms => ms.getD 1 "" ++ "HN"

/-! ## The claim on `extractId`, in its words -/

/-- At position `i` of the runes `s` stands "id=" followed by at least one
decimal digit. -/
def occursAt (s : List Char) (i : Nat) : Bool :=
  decide ((s.drop i).take 3 = ['i', 'd', '=']) &&
    match s.drop (i + 3) with
    | d :: _ => d.isDigit
    | [] => false

/-- The maximal run of decimal digits at the start of the runes `s`. -/
def digitRun (s : List Char) : List Char := s.takeWhile Char.isDigit

end BreadRss

/-! # Lemmas and theorems -/

namespace BreadCache

/-! ## Lemmas on the map -/

theorem getLine_eq_none_iff (m : List (String × Line)) (k : String) :
    getLine m k = none ↔ k ∉ m.map Prod.fst := by
  induction m with
  | nil => simp [getLine]
  | cons p rest ih =>
    obtain ⟨k', ln⟩ := p
    by_cases h : k' = k
    · simp [getLine, h]
    · simp [getLine, h, ih, Ne.symm h]

theorem getLine_mem {m : List (String × Line)} {k : String} {ln : Line}
    (h : getLine m k = some ln) : (k, ln) ∈ m := by
  induction m with
  | nil => simp [getLine] at h
  | cons p rest ih =>
    obtain ⟨k', ln'⟩ := p
    by_cases hk : k' = k
    · simp [getLine, hk] at h
      simp [hk, h]
    · simp [getLine, hk] at h
      exact List.mem_cons_of_mem _ (ih h)

theorem getLine_of_mem {m : List (String × Line)} {k : String} {ln : Line}
    (hn : (m.map Prod.fst).Nodup) (h : (k, ln) ∈ m) : getLine m k = some ln := by
  induction m with
  | nil => simp at h
  | cons p rest ih =>
    obtain ⟨k', ln'⟩ := p
    simp only [List.map_cons, List.nodup_cons] at hn
    rcases List.mem_cons.mp h with h1 | h1
    · injection h1 with h2 h3
      simp [getLine, h2, h3]
    · have hne : k' ≠ k := by
        intro he
        apply hn.1
        rw [he]
        exact List.mem_map_of_mem Prod.fst h1
      simp [getLine, hne, ih hn.2 h1]

theorem deleteLine_cons (k2 : String) (ln : Line) (rest : List (String × Line)) (k : String) :
    deleteLine ((k2, ln) :: rest) k =
      if k2 = k then deleteLine rest k else (k2, ln) :: deleteLine rest k := by
  by_cases h : k2 = k <;> simp [deleteLine, List.filter_cons, h]

theorem modifyLine_cons (k2 : String) (ln : Line) (rest : List (String × Line)) (k : String)
    (f : Line → Line) :
    modifyLine ((k2, ln) :: rest) k f =
      (if k2 = k then (k2, f ln) else (k2, ln)) :: modifyLine rest k f := by
  simp [modifyLine]

theorem getLine_cons (k2 : String) (ln : Line) (rest : List (String × Line)) (k : String) :
    getLine ((k2, ln) :: rest) k = if k2 = k then some ln else getLine rest k := rfl

theorem getLine_deleteLine_self (m : List (String × Line)) (k : String) :
    getLine (deleteLine m k) k = none := by
  rw [getLine_eq_none_iff]
  simp [deleteLine, List.mem_filter]

theorem getLine_deleteLine_ne (m : List (String × Line)) {k k' : String} (h : k' ≠ k) :
    getLine (deleteLine m k) k' = getLine m k' := by
  induction m with
  | nil => simp [deleteLine, getLine]
  | cons p rest ih =>
    obtain ⟨k2, ln⟩ := p
    rw [deleteLine_cons, getLine_cons]
    by_cases h2 : k2 = k
    · have h3 : k2 ≠ k' := by rw [h2]; exact Ne.symm h
      rw [if_pos h2, if_neg h3, ih]
    · rw [if_neg h2, getLine_cons, ih]

theorem getLine_setLine_self (m : List (String × Line)) (k : String) (ln : Line) :
    getLine (setLine m k ln) k = some ln := by
  simp [setLine, getLine]

theorem getLine_setLine_ne (m : List (String × Line)) {k k' : String} (ln : Line)
    (h : k' ≠ k) : getLine (setLine m k ln) k' = getLine m k' := by
  simp [setLine, getLine, Ne.symm h, getLine_deleteLine_ne m h]

theorem getLine_modifyLine_self (m : List (String × Line)) (k : String) (f : Line → Line) :
    getLine (modifyLine m k f) k = (getLine m k).map f := by
  induction m with
  | nil => simp [modifyLine, getLine]
  | cons p rest ih =>
    obtain ⟨k2, ln⟩ := p
    by_cases h2 : k2 = k
    · rw [modifyLine_cons, if_pos h2, getLine_cons, if_pos h2, getLine_cons, if_pos h2]
      rfl
    · rw [modifyLine_cons, if_neg h2, getLine_cons, if_neg h2, getLine_cons, if_neg h2, ih]

theorem getLine_modifyLine_ne (m : List (String × Line)) {k k' : String} (f : Line → Line)
    (h : k' ≠ k) : getLine (modifyLine m k f) k' = getLine m k' := by
  induction m with
  | nil => simp [modifyLine, getLine]
  | cons p rest ih =>
    obtain ⟨k2, ln⟩ := p
    by_cases h2 : k2 = k
    · have h3 : k2 ≠ k' := by rw [h2]; exact Ne.symm h
      rw [modifyLine_cons, if_pos h2, getLine_cons, if_neg h3, getLine_cons, if_neg h3, ih]
    · rw [modifyLine_cons, if_neg h2, getLine_cons, getLine_cons, ih]

theorem keys_modifyLine (m : List (String × Line)) (k : String) (f : Line → Line) :
    (modifyLine m k f).map Prod.fst = m.map Prod.fst := by
  induction m with
  | nil => simp [modifyLine]
  | cons p rest ih =>
    obtain ⟨k2, ln⟩ := p
    rw [modifyLine_cons, List.map_cons, List.map_cons, ih]
    by_cases h2 : k2 = k
    · rw [if_pos h2]
    · rw [if_neg h2]

theorem modifyLine_of_none (m : List (String × Line)) (k : String) (f : Line → Line)
    (h : getLine m k = none) : modifyLine m k f = m := by
  induction m with
  | nil => simp [modifyLine]
  | cons p rest ih =>
    obtain ⟨k2, ln⟩ := p
    rw [getLine_cons] at h
    by_cases h2 : k2 = k
    · rw [if_pos h2] at h
      exact absurd h (by simp)
    · rw [if_neg h2] at h
      rw [modifyLine_cons, if_neg h2, ih h]

theorem deleteLine_of_none (m : List (String × Line)) (k : String)
    (h : getLine m k = none) : deleteLine m k = m := by
  rw [getLine_eq_none_iff] at h
  unfold deleteLine
  rw [List.filter_eq_self]
  intro p hp
  have : p.1 ≠ k := by
    intro he
    apply h
    rw [← he]
    exact List.mem_map_of_mem Prod.fst hp
  simpa using this

theorem keys_deleteLine_nodup {m : List (String × Line)} (k : String)
    (h : (m.map Prod.fst).Nodup) : ((deleteLine m k).map Prod.fst).Nodup := by
  unfold deleteLine
  exact h.sublist ((List.filter_sublist m).map Prod.fst)

/-! ## Lemmas on the recency list -/

theorem mem_Remove {l : List Element} {e : Nat} {x : Element} :
    x ∈ Remove l e ↔ x ∈ l ∧ x.id ≠ e := by
  simp [Remove, List.mem_filter]

theorem ids_Remove_nodup {l : List Element} (e : Nat) (h : (l.map Element.id).Nodup) :
    ((Remove l e).map Element.id).Nodup :=
  h.sublist ((List.filter_sublist l).map Element.id)

theorem eq_of_id_eq {l : List Element} (h : (l.map Element.id).Nodup) {x y : Element}
    (hx : x ∈ l) (hy : y ∈ l) (hxy : x.id = y.id) : x = y :=
  List.inj_on_of_nodup_map h hx hy hxy

theorem mem_MoveToFront {l : List Element} (h : (l.map Element.id).Nodup) {e : Nat}
    {x : Element} : x ∈ MoveToFront l e ↔ x ∈ l := by
  unfold MoveToFront
  cases hf : l.find? (fun x => decide (x.id = e)) with
  | none => simp
  | some y =>
    have hy : y ∈ l := List.mem_of_find?_eq_some hf
    have hye : y.id = e := by simpa using List.find?_some hf
    simp only [List.mem_cons, mem_Remove]
    constructor
    · rintro (h1 | h1)
      · rw [h1]; exact hy
      · exact h1.1
    · intro hx
      by_cases hxe : x.id = e
      · left
        exact eq_of_id_eq h hx hy (hxe.trans hye.symm)
      · right
        exact ⟨hx, hxe⟩

theorem ids_MoveToFront_nodup {l : List Element} (h : (l.map Element.id).Nodup) (e : Nat) :
    ((MoveToFront l e).map Element.id).Nodup := by
  unfold MoveToFront
  cases hf : l.find? (fun x => decide (x.id = e)) with
  | none => simpa using h
  | some y =>
    have hye : y.id = e := by simpa using List.find?_some hf
    simp only [List.map_cons, List.nodup_cons]
    refine ⟨?_, ids_Remove_nodup e h⟩
    intro hm
    obtain ⟨z, hz, hzy⟩ := List.mem_map.mp hm
    exact (mem_Remove.mp hz).2 (hzy.trans hye)

/-! ## The two halves of `newLine` -/

theorem removeLine_eq {c : Cache} {key : String} {line : Line}
    (h : getLine c.lines key = some line) :
    removeLine c key = some (dropLine c key line, copyBackOf line) := by
  unfold removeLine
  rw [h]
  by_cases he : line.empty = true <;> simp [dropLine, copyBackOf, he]

theorem newLine_of_lt {c : Cache} (now : Int) (k : String)
    (h : (c.lines.length : Int) < c.size) :
    newLine c now k = some (pushLine c now k, []) := by
  unfold newLine
  rw [if_neg (not_le.mpr h)]
  rfl

theorem Back_owner {c : Cache} (hc : Consistent c) (hne : c.lines ≠ []) :
    ∃ oldest line, Back c.lruList = some oldest ∧
      getLine c.lines oldest.Value = some line ∧ line.lruEntry = oldest.id := by
  obtain ⟨p, hp⟩ := List.exists_mem_of_ne_nil _ hne
  obtain ⟨k, ln⟩ := p
  have hg := getLine_of_mem hc.keysNodup hp
  have hel := hc.handle k ln hg
  have hl : c.lruList ≠ [] := List.ne_nil_of_mem hel
  refine ⟨c.lruList.getLast hl, ?_⟩
  obtain ⟨line, h1, h2⟩ := hc.owner _ (List.getLast_mem hl)
  exact ⟨line, List.getLast?_eq_getLast _ hl, h1, h2⟩

theorem newLine_of_ge {c : Cache} (hc : Consistent c) (hs : 1 ≤ c.size) (now : Int)
    (k : String) (h : c.size ≤ (c.lines.length : Int)) :
    ∃ oldest line, Back c.lruList = some oldest ∧
      getLine c.lines oldest.Value = some line ∧ line.lruEntry = oldest.id ∧
      newLine c now k =
        some (pushLine (dropLine c oldest.Value line) now k, copyBackOf line) := by
  have hne : c.lines ≠ [] := by
    intro h0
    rw [h0] at h
    simp at h
    omega
  obtain ⟨oldest, line, hb, hg, hid⟩ := Back_owner hc hne
  refine ⟨oldest, line, hb, hg, hid, ?_⟩
  unfold newLine
  rw [if_pos (ge_iff_le.mpr h)]
  unfold removeLRU
  rw [hb]
  simp only [removeLine_eq hg, Option.map_some']
  rfl

/-! ## Consistency is kept by the building blocks -/

theorem consistent_New (size ttl : Int) : Consistent (New size ttl) where
  keysNodup := by simp [BreadCache.New]
  idsNodup := by simp [BreadCache.New]
  handle := by intro k ln h; simp [BreadCache.New, getLine] at h
  owner := by intro el h; simp [BreadCache.New] at h
  fresh := by intro el h; simp [BreadCache.New] at h

theorem consistent_dropLine {c : Cache} (hc : Consistent c) {key : String} {line : Line}
    (h : getLine c.lines key = some line) : Consistent (dropLine c key line) where
  keysNodup := keys_deleteLine_nodup key hc.keysNodup
  idsNodup := ids_Remove_nodup _ hc.idsNodup
  handle := by
    intro k ln hk
    have hne : k ≠ key := by
      intro he
      rw [he] at hk
      simp [BreadCache.dropLine, getLine_deleteLine_self] at hk
    simp only [BreadCache.dropLine] at hk
    rw [getLine_deleteLine_ne _ hne] at hk
    have h1 := hc.handle k ln hk
    have h2 := hc.handle key line h
    simp only [BreadCache.dropLine]
    refine mem_Remove.mpr ⟨h1, ?_⟩
    intro hid
    have := eq_of_id_eq hc.idsNodup h1 h2 hid
    injection this with _ h3
    exact hne h3
  owner := by
    intro el hel
    simp only [BreadCache.dropLine] at hel ⊢
    obtain ⟨hel1, hel2⟩ := mem_Remove.mp hel
    obtain ⟨ln, h1, h2⟩ := hc.owner el hel1
    have hne : el.Value ≠ key := by
      intro he
      rw [he, h] at h1
      injection h1 with h1
      rw [h1] at hel2
      exact hel2 h2.symm
    exact ⟨ln, by rw [getLine_deleteLine_ne _ hne]; exact h1, h2⟩
  fresh := by
    intro el hel
    exact hc.fresh el (mem_Remove.mp hel).1

theorem consistent_pushLine {c : Cache} (hc : Consistent c) (now : Int) {k : String}
    (h : getLine c.lines k = none) : Consistent (pushLine c now k) where
  keysNodup := by
    simp only [BreadCache.pushLine, setLine, List.map_cons, List.nodup_cons]
    rw [deleteLine_of_none _ _ h]
    exact ⟨(getLine_eq_none_iff _ _).mp h, hc.keysNodup⟩
  idsNodup := by
    simp only [BreadCache.pushLine, List.map_cons, List.nodup_cons]
    refine ⟨?_, hc.idsNodup⟩
    intro hm
    obtain ⟨z, hz, hzy⟩ := List.mem_map.mp hm
    have := hc.fresh z hz
    omega
  handle := by
    intro k' ln hk
    simp only [BreadCache.pushLine] at hk ⊢
    by_cases he : k' = k
    · rw [he, getLine_setLine_self] at hk
      injection hk with hk
      rw [← hk, he]
      exact List.mem_cons_self _ _
    · rw [getLine_setLine_ne _ _ he] at hk
      exact List.mem_cons_of_mem _ (hc.handle k' ln hk)
  owner := by
    intro el hel
    simp only [BreadCache.pushLine] at hel ⊢
    rcases List.mem_cons.mp hel with h1 | h1
    · rw [h1]
      exact ⟨_, getLine_setLine_self _ _ _, rfl⟩
    · obtain ⟨ln, h2, h3⟩ := hc.owner el h1
      have hne : el.Value ≠ k := by
        intro he
        rw [he, h] at h2
        exact absurd h2 (by simp)
      exact ⟨ln, by rw [getLine_setLine_ne _ _ hne]; exact h2, h3⟩
  fresh := by
    intro el hel
    simp only [BreadCache.pushLine] at hel ⊢
    rcases List.mem_cons.mp hel with h1 | h1
    · rw [h1]; simp
    · have := hc.fresh el h1
      omega

theorem consistent_modify {c : Cache} (hc : Consistent c) (k : String) (f : Line → Line)
    (hf : ∀ ln, (f ln).lruEntry = ln.lruEntry) :
    Consistent { c with lines := modifyLine c.lines k f } where
  keysNodup := by simpa [keys_modifyLine] using hc.keysNodup
  idsNodup := hc.idsNodup
  handle := by
    intro k' ln hk
    simp only at hk ⊢
    by_cases he : k' = k
    · rw [he, getLine_modifyLine_self] at hk
      cases hg : getLine c.lines k with
      | none => rw [hg] at hk; simp at hk
      | some l0 =>
        rw [hg] at hk
        simp only [Option.map_some', Option.some.injEq] at hk
        rw [← hk, hf, he]
        exact hc.handle k l0 hg
    · rw [getLine_modifyLine_ne _ _ he] at hk
      exact hc.handle k' ln hk
  owner := by
    intro el hel
    obtain ⟨ln, h2, h3⟩ := hc.owner el hel
    simp only
    by_cases he : el.Value = k
    · refine ⟨f ln, ?_, by rw [hf]; exact h3⟩
      rw [he, getLine_modifyLine_self, ← he, h2]
      rfl
    · exact ⟨ln, by rw [getLine_modifyLine_ne _ _ he]; exact h2, h3⟩
  fresh := hc.fresh

theorem consistent_moveToFront {c : Cache} (hc : Consistent c) (e : Nat) :
    Consistent { c with lruList := MoveToFront c.lruList e } where
  keysNodup := hc.keysNodup
  idsNodup := ids_MoveToFront_nodup hc.idsNodup e
  handle := by
    intro k ln hk
    exact (mem_MoveToFront hc.idsNodup).mpr (hc.handle k ln hk)
  owner := by
    intro el hel
    exact hc.owner el ((mem_MoveToFront hc.idsNodup).mp hel)
  fresh := by
    intro el hel
    exact hc.fresh el ((mem_MoveToFront hc.idsNodup).mp hel)

theorem consistent_updateLRU {c : Cache} (hc : Consistent c) (now : Int) (k : String)
    (l : Line) : Consistent (updateLRU c now k l) :=
  consistent_moveToFront
    (consistent_modify hc k (fun ln => { ln with lastUse := now }) (fun _ => rfl)) l.lruEntry

/-! ## Lemmas on the observations -/

theorem loadsOf_append (a b : List Event) : loadsOf (a ++ b) = loadsOf a ++ loadsOf b := by
  simp [loadsOf, List.filterMap_append]

theorem repliesOf_append (a b : List Event) :
    repliesOf (a ++ b) = repliesOf a ++ repliesOf b := by
  simp [repliesOf, List.filterMap_append]

theorem copyBacksOf_append (a b : List Event) :
    copyBacksOf (a ++ b) = copyBacksOf a ++ copyBacksOf b := by
  simp [copyBacksOf, List.filterMap_append]

theorem loadsOf_copyBackOf (line : Line) : loadsOf (copyBackOf line) = [] := by
  unfold copyBackOf
  split <;> simp [loadsOf]

theorem repliesOf_copyBackOf (line : Line) : repliesOf (copyBackOf line) = [] := by
  unfold copyBackOf
  split <;> simp [repliesOf]

/-! ## What `newLine` does for a key without a line -/

theorem newLine_spec {c : Cache} (hc : Consistent c) (hs : 1 ≤ c.size) (now : Int)
    {k : String} (hk : getLine c.lines k = none) :
    ∃ c1 cb, newLine c now k = some (c1, cb) ∧ Consistent c1 ∧
      c1.size = c.size ∧ c1.ttl = c.ttl ∧
      (∃ h, getLine c1.lines k =
        some { payload := none, empty := true, waiting := [], lruEntry := h, lastUse := now }) ∧
      loadsOf cb = [] ∧ repliesOf cb = [] := by
  by_cases hfull : c.size ≤ (c.lines.length : Int)
  · obtain ⟨oldest, line, _, hg, _, hn⟩ := newLine_of_ge hc hs now k hfull
    have hne : k ≠ oldest.Value := by
      intro he
      rw [← he, hk] at hg
      exact absurd hg (by simp)
    have hk2 : getLine (dropLine c oldest.Value line).lines k = none := by
      simp only [dropLine]
      rw [getLine_deleteLine_ne _ hne]
      exact hk
    refine ⟨_, _, hn, consistent_pushLine (consistent_dropLine hc hg) now hk2, rfl, rfl,
      ⟨_, getLine_setLine_self _ _ _⟩, loadsOf_copyBackOf _, repliesOf_copyBackOf _⟩
  · refine ⟨_, _, newLine_of_lt now k (not_le.mp hfull), consistent_pushLine hc now hk,
      rfl, rfl, ⟨_, getLine_setLine_self _ _ _⟩, rfl, rfl⟩

/-! ## Synchronous lookups of a pending key -/

theorem syncLookup_pending {c : Cache} (now : Int) (l : Lookup) {ln : Line}
    (hg : getLine c.lines l.key = some ln) (he : ln.empty = true) :
    syncLookup c now l =
      some ({ c with lines := modifyLine c.lines l.key
                       (fun ln => { ln with waiting := ln.waiting ++ [l.resCh] }) }, []) := by
  unfold syncLookup
  rw [hg]
  simp [he]

theorem run_syncLookup_pending (K : String) (rest : List (Int × Nat)) :
    ∀ (c : Cache) (ln : Line), getLine c.lines K = some ln → ln.empty = true →
      ∃ c1, run c (rest.map (fun p => (p.1, Msg.lookupSync { key := K, resCh := p.2 })))
          = some (c1, []) ∧
        getLine c1.lines K = some { ln with waiting := ln.waiting ++ rest.map Prod.snd } := by
  induction rest with
  | nil =>
    intro c ln hg _
    exact ⟨c, rfl, by simpa using hg⟩
  | cons p rest ih =>
    intro c ln hg he
    have h1 := syncLookup_pending p.1 { key := K, resCh := p.2 } hg he
    have hg2 : getLine ({ c with lines := modifyLine c.lines K
                                    (fun ln => { ln with waiting := ln.waiting ++ [p.2] }) }
        : Cache).lines K =
        some { ln with waiting := ln.waiting ++ [p.2] } := by
      simp only
      rw [getLine_modifyLine_self, hg]
      rfl
    obtain ⟨c1, hr, hg3⟩ := ih _ _ hg2 he
    refine ⟨c1, ?_, ?_⟩
    · simp only [List.map_cons, run, cacheRequests, h1]
      rw [hr]
      rfl
    · rw [hg3]
      simp

theorem putEntry_present {c : Cache} (now : Int) (e : Entry) {line : Line}
    (hg : getLine c.lines e.Key = some line) :
    putEntry c now e =
      some ({ c with lines := modifyLine c.lines e.Key
                       (fun ln => { ln with payload := some e, empty := false }) },
            line.waiting.map (fun ch => Event.result ch (some e) true)) := by
  unfold putEntry
  rw [hg]

/-! ## Claim C1 -/

/-- Claim C1: thundering-herd prevention on one pending episode.  In a
consistent cache of capacity at least 1, for a key `K` without a line, the
first of `N` synchronous lookups of `K` (callers `ch0` and then those of
`rest`) sends exactly one load request, for `K`, and no reply; the remaining
lookups send nothing at all; and a following `putEntry` of an entry with key
`K` sends exactly the replies `(e, true)` to the `N` callers, once each, in
the order in which they registered. -/
theorem herd_one_load_then_put_replies_all (c : Cache) (hc : Consistent c)
    (hs : 1 ≤ c.size) (K : String) (hK : getLine c.lines K = none)
    (t0 : Int) (ch0 : Nat) (rest : List (Int × Nat)) (tput : Int) (e : Entry)
    (he : e.Key = K) :
    ∃ c0 ev0 c1 c2,
      syncLookup c t0 { key := K, resCh := ch0 } = some (c0, ev0) ∧
      loadsOf ev0 = [K] ∧ repliesOf ev0 = [] ∧
      run c0 (rest.map (fun p => (p.1, Msg.lookupSync { key := K, resCh := p.2 })))
        = some (c1, []) ∧
      putEntry c1 tput e =
        some (c2, (ch0 :: rest.map Prod.snd).map (fun ch => Event.result ch (some e) true)) := by
  obtain ⟨n1, cb, hn, _, _, _, ⟨h, hg⟩, hl, hr⟩ := newLine_spec hc hs t0 hK
  have hsync : syncLookup c t0 { key := K, resCh := ch0 } =
      some ({ n1 with lines := modifyLine n1.lines K
                        (fun ln => { ln with waiting := ln.waiting ++ [ch0] }) },
            cb ++ [Event.getCh K]) := by
    unfold syncLookup
    simp only [hK, hn, Option.map_some']
  have hg0 : getLine ({ n1 with lines := modifyLine n1.lines K
                                  (fun ln => { ln with waiting := ln.waiting ++ [ch0] }) }
      : Cache).lines K =
      some { payload := none, empty := true, waiting := [ch0], lruEntry := h,
             lastUse := t0 } := by
    simp only
    rw [getLine_modifyLine_self, hg]
    rfl
  obtain ⟨c1, hrun, hg1⟩ := run_syncLookup_pending K rest _ _ hg0 rfl
  have hput := putEntry_present tput e (c := c1) (by rw [he]; exact hg1)
  refine ⟨_, _, c1, _, hsync, ?_, ?_, hrun, hput⟩
  · rw [loadsOf_append, hl]
    rfl
  · rw [repliesOf_append, hr]
    rfl

/-- Witness of C1: three callers on a fresh cache of capacity 1. -/
theorem herd_one_load_then_put_replies_all_witness :
    ∃ c0 ev0 c1 c2,
      syncLookup (New 1 20) 0 { key := "a", resCh := 1 } = some (c0, ev0) ∧
      loadsOf ev0 = ["a"] ∧ repliesOf ev0 = [] ∧
      run c0 ([(1, 2), (2, 3)].map
          (fun p => (p.1, Msg.lookupSync { key := "a", resCh := p.2 })))
        = some (c1, []) ∧
      putEntry c1 5 { key := "a", value := "pass" } =
        some (c2, (1 :: [((1 : Int), 2), (2, 3)].map Prod.snd).map
          (fun ch => Event.result ch (some { key := "a", value := "pass" }) true)) :=
  herd_one_load_then_put_replies_all (New 1 20) (consistent_New 1 20) (by decide) "a" rfl
    0 1 [(1, 2), (2, 3)] 5 { key := "a", value := "pass" } rfl

/-! ## Lookups of a resolved key, and what `putEntry` leaves behind -/

theorem syncLookup_resolved {c : Cache} (now : Int) (l : Lookup) {ln : Line}
    (hg : getLine c.lines l.key = some ln) (he : ln.empty = false) :
    syncLookup c now l =
      some (updateLRU c now l.key ln, [Event.result l.resCh ln.payload true]) := by
  unfold syncLookup
  rw [hg]
  simp [he]

theorem asyncLookup_resolved {c : Cache} (now : Int) (l : Lookup) {ln : Line}
    (hg : getLine c.lines l.key = some ln) (he : ln.empty = false) :
    asyncLookup c now l =
      some (updateLRU c now l.key ln, [Event.result l.resCh ln.payload true]) := by
  unfold asyncLookup
  rw [hg]
  simp [he]

theorem asyncLookup_pending {c : Cache} (now : Int) (l : Lookup) {ln : Line}
    (hg : getLine c.lines l.key = some ln) (he : ln.empty = true) :
    asyncLookup c now l = some (c, [Event.result l.resCh none false]) := by
  unfold asyncLookup
  rw [hg]
  simp [he]

theorem getLine_updateLRU_self {c : Cache} (now : Int) (k : String) {ln : Line} (l : Line)
    (hg : getLine c.lines k = some ln) :
    getLine (updateLRU c now k l).lines k = some { ln with lastUse := now } := by
  simp only [updateLRU]
  rw [getLine_modifyLine_self, hg]
  rfl

theorem putEntry_spec {c : Cache} (hc : Consistent c) (hs : 1 ≤ c.size) (now : Int)
    (e : Entry) :
    ∃ c1 evp ln, putEntry c now e = some (c1, evp) ∧ Consistent c1 ∧ c1.size = c.size ∧
      getLine c1.lines e.Key = some ln ∧ ln.empty = false ∧ ln.payload = some e := by
  cases hg : getLine c.lines e.Key with
  | some line =>
    refine ⟨_, _, { line with payload := some e, empty := false },
      putEntry_present now e hg, consistent_modify hc _ _ (fun _ => rfl), rfl, ?_, rfl, rfl⟩
    simp only
    rw [getLine_modifyLine_self, hg]
    rfl
  | none =>
    obtain ⟨n1, cb, hn, hc1, hs1, _, ⟨h, hg1⟩, _, _⟩ := newLine_spec hc hs now hg
    refine ⟨{ n1 with lines := modifyLine n1.lines e.Key
                        (fun ln => { ln with payload := some e, empty := false }) }, cb,
      { payload := some e, empty := false, waiting := [], lruEntry := h, lastUse := now },
      ?_, consistent_modify hc1 _ _ (fun _ => rfl), hs1, ?_, rfl, rfl⟩
    · unfold putEntry
      simp only [hg, hn, Option.map_some']
    · simp only
      rw [getLine_modifyLine_self, hg1]
      rfl

/-! ## Claim C3 -/

/-- Claim C3: Put followed by lookup returns the stored value.  In a
consistent cache of capacity at least 1, after `putEntry` of `e` a
synchronous lookup of `e.Key()` sends exactly the reply `(e, true)` and no
load request, an asynchronous lookup of `e.Key()` does the same, and so does
an asynchronous lookup that follows the synchronous one. -/
theorem put_then_lookup_returns_value (c : Cache) (hc : Consistent c) (hs : 1 ≤ c.size)
    (now t1 t2 : Int) (e : Entry) (ch1 ch2 : Nat) :
    ∃ c1 evp, putEntry c now e = some (c1, evp) ∧
      (∃ c2 c3, syncLookup c1 t1 { key := e.Key, resCh := ch1 }
            = some (c2, [Event.result ch1 (some e) true]) ∧
          asyncLookup c2 t2 { key := e.Key, resCh := ch2 }
            = some (c3, [Event.result ch2 (some e) true])) ∧
      (∃ c2, asyncLookup c1 t2 { key := e.Key, resCh := ch2 }
            = some (c2, [Event.result ch2 (some e) true])) := by
  obtain ⟨c1, evp, ln, hput, _, _, hg, he, hp⟩ := putEntry_spec hc hs now e
  have hsync := syncLookup_resolved t1 { key := e.Key, resCh := ch1 } hg he
  have hasync := asyncLookup_resolved t2 { key := e.Key, resCh := ch2 } hg he
  have hg2 := getLine_updateLRU_self t1 e.Key ln hg
  have hasync2 := asyncLookup_resolved t2 { key := e.Key, resCh := ch2 }
    (c := updateLRU c1 t1 e.Key ln) hg2 he
  rw [hp] at hsync hasync
  simp only [hp] at hasync2
  exact ⟨c1, evp, hput, ⟨_, _, hsync, hasync2⟩, ⟨_, hasync⟩⟩

/-- Witness of C3 on a fresh cache of capacity 2. -/
theorem put_then_lookup_returns_value_witness :
    ∃ c1 evp, putEntry (New 2 20) 0 { key := "a", value := "pass" } = some (c1, evp) ∧
      (∃ c2 c3, syncLookup c1 1 { key := "a", resCh := 7 }
            = some (c2, [Event.result 7 (some { key := "a", value := "pass" }) true]) ∧
          asyncLookup c2 2 { key := "a", resCh := 8 }
            = some (c3, [Event.result 8 (some { key := "a", value := "pass" }) true])) ∧
      (∃ c2, asyncLookup c1 2 { key := "a", resCh := 8 }
            = some (c2, [Event.result 8 (some { key := "a", value := "pass" }) true])) :=
  put_then_lookup_returns_value (New 2 20) (consistent_New 2 20) (by decide) 0 1 2
    { key := "a", value := "pass" } 7 8

/-! ## Claim C4 -/

/-- Claim C4: an asynchronous lookup of a key `K` without a line, in a
consistent cache `c` of capacity at least 1, sends the reply `(nil, false)`
and exactly one load request, for `K`, and leaves a pending line for `K` that
has no waiter; an asynchronous lookup of a key `K2` whose line is pending in a
cache `d` sends only the reply `(nil, false)` and leaves `d` as it is. -/
theorem async_lookup_miss_and_pending (c : Cache) (hc : Consistent c) (hs : 1 ≤ c.size)
    (now : Int) (K : String) (ch : Nat) (hK : getLine c.lines K = none)
    (d : Cache) (now2 : Int) (K2 : String) (ch2 : Nat) (ln : Line)
    (hg : getLine d.lines K2 = some ln) (he : ln.empty = true) :
    (∃ c1 evs h, asyncLookup c now { key := K, resCh := ch } = some (c1, evs) ∧
      repliesOf evs = [(ch, none, false)] ∧ loadsOf evs = [K] ∧
      getLine c1.lines K = some { payload := none, empty := true, waiting := [],
                                  lruEntry := h, lastUse := now }) ∧
    asyncLookup d now2 { key := K2, resCh := ch2 } =
      some (d, [Event.result ch2 none false]) := by
  refine ⟨?_, asyncLookup_pending now2 { key := K2, resCh := ch2 } hg he⟩
  obtain ⟨n1, cb, hn, _, _, _, ⟨h, hg1⟩, hl, hr⟩ := newLine_spec hc hs now hK
  refine ⟨n1, cb ++ [Event.result ch none false, Event.getCh K], h, ?_, ?_, ?_, hg1⟩
  · unfold asyncLookup
    simp only [hK, hn, Option.map_some']
  · rw [repliesOf_append, hr]
    rfl
  · rw [loadsOf_append, hl]
    rfl

/-- Witness of C4: a miss on a fresh cache, and a lookup of the key that a
first asynchronous lookup has left pending. -/
theorem async_lookup_miss_and_pending_witness :
    (∃ c1 evs h, asyncLookup (New 2 20) 0 { key := "a", resCh := 1 } = some (c1, evs) ∧
      repliesOf evs = [(1, none, false)] ∧ loadsOf evs = ["a"] ∧
      getLine c1.lines "a" = some { payload := none, empty := true, waiting := [],
                                    lruEntry := h, lastUse := 0 }) ∧
    asyncLookup (pushLine (New 2 20) 0 "a") 3 { key := "a", resCh := 2 } =
      some (pushLine (New 2 20) 0 "a", [Event.result 2 none false]) :=
  async_lookup_miss_and_pending (New 2 20) (consistent_New 2 20) (by decide) 0 "a" 1 rfl
    (pushLine (New 2 20) 0 "a") 3 "a" 2
    { payload := none, empty := true, waiting := [], lruEntry := 0, lastUse := 0 } rfl rfl

/-! ## Claim C5 -/

theorem createEntry_present {c : Cache} (now : Int) (e : Entry) {line : Line}
    (hg : getLine c.lines e.Key = some line) :
    createEntry c now e = some ((c, []), false) := by
  unfold createEntry
  rw [hg]

theorem createEntry_absent {c : Cache} (hc : Consistent c) (hs : 1 ≤ c.size) (now : Int)
    (e : Entry) (hg : getLine c.lines e.Key = none) :
    ∃ c1 evs h, createEntry c now e = some ((c1, evs), true) ∧ Consistent c1 ∧
      c1.size = c.size ∧ loadsOf evs = [] ∧ repliesOf evs = [] ∧
      getLine c1.lines e.Key = some { payload := some e, empty := false, waiting := [],
                                      lruEntry := h, lastUse := now } := by
  obtain ⟨n1, cb, hn, hc1, hs1, _, ⟨h, hg1⟩, hl, hr⟩ := newLine_spec hc hs now hg
  refine ⟨{ n1 with lines := modifyLine n1.lines e.Key
                      (fun ln => { ln with payload := some e, empty := false }) }, cb, h,
    ?_, consistent_modify hc1 _ _ (fun _ => rfl), hs1, hl, hr, ?_⟩
  · unfold createEntry
    simp only [hg, hn, Option.map_some']
  · simp only
    rw [getLine_modifyLine_self, hg1]
    rfl

/-- Claim C5: in a consistent cache of capacity at least 1, `createEntry(e)`
returns `true` exactly when `e.Key()` has no line, resolved or pending.  When
it returns `false` the state is the one before and nothing is sent.  After a
create that returned `true`, a second create of any entry with the same key
returns `false`, leaves the state as it is and sends nothing, and a following
synchronous lookup of the key replies with the first entry. -/
theorem create_true_iff_absent (c : Cache) (hc : Consistent c) (hs : 1 ≤ c.size)
    (now : Int) (e : Entry) :
    ∃ c1 evs b, createEntry c now e = some ((c1, evs), b) ∧
      (b = true ↔ getLine c.lines e.Key = none) ∧
      (b = false → c1 = c ∧ evs = []) ∧
      (b = true → ∀ (e2 : Entry) (t2 t3 : Int) (ch : Nat), e2.Key = e.Key →
        createEntry c1 t2 e2 = some ((c1, []), false) ∧
        ∃ c3, syncLookup c1 t3 { key := e.Key, resCh := ch }
          = some (c3, [Event.result ch (some e) true])) := by
  cases hg : getLine c.lines e.Key with
  | some line =>
    refine ⟨c, [], false, createEntry_present now e hg, by simp, fun _ => ⟨rfl, rfl⟩, ?_⟩
    intro h
    exact absurd h (by simp)
  | none =>
    obtain ⟨c1, evs, h, hcr, _, _, _, _, hg1⟩ := createEntry_absent hc hs now e hg
    refine ⟨c1, evs, true, hcr, by simp, ?_, ?_⟩
    · intro h
      exact absurd h (by simp)
    · intro _ e2 t2 t3 ch hk
      refine ⟨createEntry_present t2 e2 (by rw [hk]; exact hg1), ?_⟩
      exact ⟨_, syncLookup_resolved t3 { key := e.Key, resCh := ch } hg1 rfl⟩

/-- Witness of C5 on a fresh cache of capacity 2. -/
theorem create_true_iff_absent_witness :
    ∃ c1 evs b, createEntry (New 2 20) 0 { key := "testo", value := "pass" }
        = some ((c1, evs), b) ∧
      (b = true ↔ getLine (New 2 20).lines (Entry.Key { key := "testo", value := "pass" })
        = none) ∧
      (b = false → c1 = New 2 20 ∧ evs = []) ∧
      (b = true → ∀ (e2 : Entry) (t2 t3 : Int) (ch : Nat),
        e2.Key = Entry.Key { key := "testo", value := "pass" } →
        createEntry c1 t2 e2 = some ((c1, []), false) ∧
        ∃ c3, syncLookup c1 t3
            { key := Entry.Key { key := "testo", value := "pass" }, resCh := ch }
          = some (c3, [Event.result ch (some { key := "testo", value := "pass" }) true])) :=
  create_true_iff_absent (New 2 20) (consistent_New 2 20) (by decide) 0
    { key := "testo", value := "pass" }

/-! ## Claim C6 -/

/-- Claim C6: `keyNotFound` for a key `K` whose line is pending, in a
consistent cache `c`, sends exactly the replies `(nil, false)` to the waiters
of the line, once each and in the order of registration, and nothing else (no
copy-back, no load request); afterwards `K` has no line, no element of the
recency list holds `K`, and the lines of the other keys are as before.
`keyNotFound` for a key `K2` without a line in a cache `d` leaves `d` as it is
and sends nothing. -/
theorem notFound_pending_and_absent (c : Cache) (hc : Consistent c) (K : String)
    (ln : Line) (hg : getLine c.lines K = some ln) (he : ln.empty = true)
    (d : Cache) (K2 : String) (hd : getLine d.lines K2 = none) :
    (∃ c1, keyNotFound c K =
        some (c1, ln.waiting.map (fun ch => Event.result ch none false)) ∧
      getLine c1.lines K = none ∧ (∀ el ∈ c1.lruList, el.Value ≠ K) ∧
      (∀ k, k ≠ K → getLine c1.lines k = getLine c.lines k)) ∧
    keyNotFound d K2 = some (d, []) := by
  constructor
  · have hcd := consistent_dropLine hc hg
    have hnone : getLine (dropLine c K ln).lines K = none := getLine_deleteLine_self _ _
    refine ⟨dropLine c K ln, ?_, hnone, ?_, ?_⟩
    · unfold keyNotFound
      simp [hg, removeLine_eq hg, copyBackOf, he]
    · intro el hel hk
      obtain ⟨l2, h1, _⟩ := hcd.owner el hel
      rw [hk, hnone] at h1
      exact absurd h1 (by simp)
    · intro k hk
      exact getLine_deleteLine_ne _ hk
  · unfold keyNotFound
    rw [hd]

theorem pendingExample_consistent : Consistent pendingExample := by
  have h1 : Consistent (pushLine (New 2 20) 0 "a") :=
    consistent_pushLine (c := New 2 20) (consistent_New 2 20) 0 (k := "a") rfl
  have h2 := consistent_modify h1 "a" (fun ln => { ln with waiting := [4, 5] }) (fun _ => rfl)
  exact h2

/-- Witness of C6: a pending line with two waiters, and a key without a line. -/
theorem notFound_pending_and_absent_witness :
    (∃ c1, keyNotFound pendingExample "a" =
        some (c1, ([4, 5] : List Nat).map (fun ch => Event.result ch none false)) ∧
      getLine c1.lines "a" = none ∧ (∀ el ∈ c1.lruList, el.Value ≠ "a") ∧
      (∀ k, k ≠ "a" → getLine c1.lines k = getLine pendingExample.lines k)) ∧
    keyNotFound (New 2 20) "b" = some (New 2 20, []) :=
  notFound_pending_and_absent pendingExample pendingExample_consistent
    "a" { payload := none, empty := true, waiting := [4, 5], lruEntry := 0, lastUse := 0 }
    rfl rfl (New 2 20) "b" rfl

/-! ## Copy-back and removed lines -/

theorem copyBacksOf_copyBackOf (line : Line) :
    copyBacksOf (copyBackOf line) = if line.empty then [] else [line.payload] := by
  unfold copyBackOf
  split <;> simp [copyBacksOf]

theorem filter_key_eq_of_nodup {m : List (String × Line)} (hn : (m.map Prod.fst).Nodup)
    {key : String} {line : Line} (hg : getLine m key = some line) :
    m.filter (fun p => decide (p.1 = key)) = [(key, line)] := by
  induction m with
  | nil => simp [getLine] at hg
  | cons p rest ih =>
    obtain ⟨k2, l2⟩ := p
    simp only [List.map_cons, List.nodup_cons] at hn
    rw [getLine_cons] at hg
    by_cases h2 : k2 = key
    · rw [if_pos h2] at hg
      injection hg with hg
      have hnone : ∀ q ∈ rest, ¬ (q.1 = key) := by
        intro q hq he
        apply hn.1
        rw [h2, ← he]
        exact List.mem_map_of_mem Prod.fst hq
      have hrest : rest.filter (fun p => decide (p.1 = key)) = [] := by
        rw [List.filter_eq_nil_iff]
        intro q hq
        simpa using hnone q hq
      rw [List.filter_cons_of_pos (by simpa using h2), hrest, h2, hg]
    · rw [if_neg h2] at hg
      rw [List.filter_cons_of_neg (by simpa using h2)]
      exact ih hn.2 hg

theorem removedResolved_drop {c : Cache} (hn : (c.lines.map Prod.fst).Nodup) {key : String}
    {line : Line} (hg : getLine c.lines key = some line) (c1 : Cache)
    (h1 : getLine c1.lines key = none) :
    (removedResolved c c1).Perm
      (copyBacksOf (copyBackOf line) ++ removedResolved (dropLine c key line) c1) := by
  unfold removedResolved
  have hsplit := (List.filter_append_perm (fun p : String × Line => decide (p.1 = key))
    c.lines).symm
  have h2 := (hsplit.filter
    (fun p : String × Line => !p.2.empty && (getLine c1.lines p.1).isNone)).map
    (fun p : String × Line => p.2.payload)
  refine h2.trans ?_
  rw [List.filter_append, List.map_append, filter_key_eq_of_nodup hn hg]
  have e1 : (List.filter (fun p : String × Line => !p.2.empty && (getLine c1.lines p.1).isNone)
      [(key, line)]).map (fun p => p.2.payload) = copyBacksOf (copyBackOf line) := by
    rw [copyBacksOf_copyBackOf]
    by_cases he : line.empty = true <;> simp [List.filter_cons, h1, he]
  have e2 : c.lines.filter (fun x => !decide (x.1 = key)) = (dropLine c key line).lines := by
    simp [dropLine, deleteLine]
  rw [e1, e2]

theorem removedResolved_nil {c c1 : Cache}
    (h : ∀ k, getLine c.lines k ≠ none → getLine c1.lines k ≠ none) :
    removedResolved c c1 = [] := by
  unfold removedResolved
  rw [List.map_eq_nil_iff, List.filter_eq_nil_iff]
  intro p hp
  have hk : getLine c.lines p.1 ≠ none := by
    rw [Ne, getLine_eq_none_iff]
    exact fun hh => hh (List.mem_map_of_mem Prod.fst hp)
  have := h p.1 hk
  cases hg : getLine c1.lines p.1 with
  | none => exact absurd hg this
  | some l => simp

/-! ## The loop of `timeout` -/

theorem length_Remove_lt {l : List Element} {x : Element} (hx : x ∈ l) :
    (Remove l x.id).length < l.length := by
  unfold Remove
  rw [List.length_filter_lt_length_iff_exists]
  exact ⟨x, hx, by simp⟩

theorem timeoutLoop_spec (limit : Int) : ∀ (fuel : Nat) (c : Cache) (evs : List Event),
    Consistent c → c.lruList.length ≤ fuel →
    ∃ c1 evs1, timeoutLoop fuel c limit evs = some (c1, evs ++ evs1) ∧ Consistent c1 ∧
      c1.size = c.size ∧ c1.ttl = c.ttl ∧ c1.nextElem = c.nextElem ∧
      (∀ k ln, getLine c1.lines k = some ln → getLine c.lines k = some ln) ∧
      c1.lruList.Sublist c.lruList ∧ c1.lines.Sublist c.lines ∧
      (∀ k ln, getLine c.lines k = some ln → getLine c1.lines k = none →
        ln.lastUse < limit) ∧
      (∀ b, Back c1.lruList = some b → ∀ ln, getLine c1.lines b.Value = some ln →
        ¬ ln.lastUse < limit) ∧
      (copyBacksOf evs1).Perm (removedResolved c c1) ∧
      loadsOf evs1 = [] ∧ repliesOf evs1 = [] := by
  intro fuel
  induction fuel with
  | zero =>
    intro c evs hc hlen
    have hnil : c.lruList = [] := List.length_eq_zero.mp (Nat.le_zero.mp hlen)
    refine ⟨c, [], ?_, hc, rfl, rfl, rfl, fun _ _ h => h, List.Sublist.refl _,
      List.Sublist.refl _, ?_, ?_, ?_, rfl, rfl⟩
    · simp [timeoutLoop, Back, hnil]
    · intro k ln h1 h2
      rw [h1] at h2
      exact absurd h2 (by simp)
    · intro b hb
      simp [Back, hnil] at hb
    · rw [removedResolved_nil (fun _ h => h)]
      exact List.Perm.refl _
  | succ fuel ih =>
    intro c evs hc hlen
    cases hb : Back c.lruList with
    | none =>
      refine ⟨c, [], ?_, hc, rfl, rfl, rfl, fun _ _ h => h, List.Sublist.refl _,
        List.Sublist.refl _, ?_, ?_, ?_, rfl, rfl⟩
      · simp [timeoutLoop, hb]
      · intro k ln h1 h2
        rw [h1] at h2
        exact absurd h2 (by simp)
      · intro b hb2
        rw [hb] at hb2
        exact absurd hb2 (by simp)
      · rw [removedResolved_nil (fun _ h => h)]
        exact List.Perm.refl _
    | some lru =>
      have hmem : lru ∈ c.lruList := List.mem_of_getLast?_eq_some hb
      obtain ⟨line, hg, hid⟩ := hc.owner lru hmem
      by_cases hstale : line.lastUse < limit
      · have hc' := consistent_dropLine hc hg
        have hlen' : (dropLine c lru.Value line).lruList.length ≤ fuel := by
          have := length_Remove_lt hmem
          simp only [dropLine, hid]
          omega
        obtain ⟨c1, evs1, hrun, hc1, hsz, httl, hnx, hshr, hsub, hsubl, hst, hfr, hperm,
          hl, hr⟩ := ih (dropLine c lru.Value line) (evs ++ copyBackOf line) hc' hlen'
        have hnone : getLine c1.lines lru.Value = none := by
          cases h : getLine c1.lines lru.Value with
          | none => rfl
          | some l2 =>
            have := hshr _ _ h
            simp only [dropLine] at this
            rw [getLine_deleteLine_self] at this
            exact absurd this (by simp)
        refine ⟨c1, copyBackOf line ++ evs1, ?_, hc1, hsz, httl, hnx, ?_,
          hsub.trans (List.filter_sublist _), hsubl.trans (List.filter_sublist _),
          ?_, hfr, ?_, ?_, ?_⟩
        · simp only [timeoutLoop, hb, hg, hstale, if_true, removeLine_eq hg]
          rw [hrun, List.append_assoc]
        · intro k ln h
          have h2 := hshr k ln h
          have hne : k ≠ lru.Value := by
            intro he
            rw [he, hnone] at h
            exact absurd h (by simp)
          simp only [dropLine] at h2
          rw [getLine_deleteLine_ne _ hne] at h2
          exact h2
        · intro k ln h1 h2
          by_cases he : k = lru.Value
          · rw [he, hg] at h1
            injection h1 with h1
            rw [← h1]
            exact hstale
          · apply hst k ln _ h2
            simp only [dropLine]
            rw [getLine_deleteLine_ne _ he]
            exact h1
        · rw [copyBacksOf_append]
          exact ((List.Perm.refl _).append hperm).trans
            (removedResolved_drop hc.keysNodup hg c1 hnone).symm
        · rw [loadsOf_append, loadsOf_copyBackOf, hl]
          rfl
        · rw [repliesOf_append, repliesOf_copyBackOf, hr]
          rfl
      · refine ⟨c, [], ?_, hc, rfl, rfl, rfl, fun _ _ h => h, List.Sublist.refl _,
          List.Sublist.refl _, ?_, ?_, ?_, rfl, rfl⟩
        · simp [timeoutLoop, hb, hg, hstale]
        · intro k ln h1 h2
          rw [h1] at h2
          exact absurd h2 (by simp)
        · intro b hb2 ln hln
          rw [hb] at hb2
          injection hb2 with hb2
          rw [← hb2, hg] at hln
          injection hln with hln
          rw [← hln]
          exact hstale
        · rw [removedResolved_nil (fun _ h => h)]
          exact List.Perm.refl _

theorem timeout_spec {c : Cache} (hc : Consistent c) (now : Int) :
    ∃ c1 evs1, timeout c now = some (c1, evs1) ∧ Consistent c1 ∧
      c1.size = c.size ∧ c1.ttl = c.ttl ∧ c1.nextElem = c.nextElem ∧
      (∀ k ln, getLine c1.lines k = some ln → getLine c.lines k = some ln) ∧
      c1.lruList.Sublist c.lruList ∧ c1.lines.Sublist c.lines ∧
      (∀ k ln, getLine c.lines k = some ln → getLine c1.lines k = none →
        ln.lastUse < now - c.ttl) ∧
      (∀ b, Back c1.lruList = some b → ∀ ln, getLine c1.lines b.Value = some ln →
        ¬ ln.lastUse < now - c.ttl) ∧
      (copyBacksOf evs1).Perm (removedResolved c c1) ∧
      loadsOf evs1 = [] ∧ repliesOf evs1 = [] := by
  obtain ⟨c1, evs1, h⟩ := timeoutLoop_spec (now - c.ttl)
    (c.lines.length + c.lruList.length) c [] hc (Nat.le_add_left _ _)
  exact ⟨c1, evs1, by simpa [timeout] using h⟩

/-! ## The shape of every handler -/

theorem newLine_cases {c : Cache} (hc : Consistent c) (hs : 1 ≤ c.size) (now : Int)
    (k : String) :
    ∃ c1 cb, Admit c c1 cb ∧ newLine c now k = some (pushLine c1 now k, cb) := by
  by_cases hfull : c.size ≤ (c.lines.length : Int)
  · obtain ⟨oldest, line, hb, hg, hid, hn⟩ := newLine_of_ge hc hs now k hfull
    exact ⟨_, _, Or.inr ⟨oldest, line, hfull, hb, hg, hid, rfl, rfl⟩, hn⟩
  · exact ⟨c, [], Or.inl ⟨not_le.mp hfull, rfl, rfl⟩, newLine_of_lt now k (not_le.mp hfull)⟩

theorem Admit.consistent {c c1 : Cache} {cb : List Event} (h : Admit c c1 cb)
    (hc : Consistent c) : Consistent c1 := by
  rcases h with ⟨_, h1, _⟩ | ⟨oldest, line, _, _, hg, _, h1, _⟩
  · rw [h1]; exact hc
  · rw [h1]; exact consistent_dropLine hc hg

theorem Admit.size_eq {c c1 : Cache} {cb : List Event} (h : Admit c c1 cb) :
    c1.size = c.size ∧ c1.ttl = c.ttl ∧ c1.nextElem = c.nextElem := by
  rcases h with ⟨_, h1, _⟩ | ⟨oldest, line, _, _, hg, _, h1, _⟩
  · rw [h1]; exact ⟨rfl, rfl, rfl⟩
  · rw [h1]; exact ⟨rfl, rfl, rfl⟩

theorem Admit.shrinks {c c1 : Cache} {cb : List Event} (h : Admit c c1 cb) (k : String)
    (ln : Line) (hk : getLine c1.lines k = some ln) : getLine c.lines k = some ln := by
  rcases h with ⟨_, h1, _⟩ | ⟨oldest, line, _, _, hg, _, h1, _⟩
  · rw [h1] at hk; exact hk
  · rw [h1] at hk
    simp only [dropLine] at hk
    by_cases he : k = oldest.Value
    · rw [he, getLine_deleteLine_self] at hk
      exact absurd hk (by simp)
    · rw [getLine_deleteLine_ne _ he] at hk
      exact hk

theorem Admit.absent {c c1 : Cache} {cb : List Event} (h : Admit c c1 cb) {k : String}
    (hk : getLine c.lines k = none) : getLine c1.lines k = none := by
  cases hg : getLine c1.lines k with
  | none => rfl
  | some ln =>
    have := h.shrinks k ln hg
    rw [hk] at this
    exact absurd this (by simp)

theorem Admit.sends {c c1 : Cache} {cb : List Event} (h : Admit c c1 cb) :
    loadsOf cb = [] ∧ repliesOf cb = [] := by
  rcases h with ⟨_, _, h1⟩ | ⟨oldest, line, _, _, _, _, _, h1⟩
  · rw [h1]; exact ⟨rfl, rfl⟩
  · rw [h1]; exact ⟨loadsOf_copyBackOf _, repliesOf_copyBackOf _⟩

theorem Admit.copyBacks {c c1 : Cache} {cb : List Event} (h : Admit c c1 cb)
    (hc : Consistent c) : (copyBacksOf cb).Perm (removedResolved c c1) := by
  rcases h with ⟨_, h1, h2⟩ | ⟨oldest, line, _, _, hg, _, h1, h2⟩
  · rw [h1, h2, removedResolved_nil (fun _ hh => hh)]
    exact List.Perm.refl _
  · rw [h1, h2]
    have hnone : getLine (dropLine c oldest.Value line).lines oldest.Value = none :=
      getLine_deleteLine_self _ _
    have := removedResolved_drop hc.keysNodup hg (dropLine c oldest.Value line) hnone
    rw [removedResolved_nil (c := dropLine c oldest.Value line) (fun _ hh => hh),
      List.append_nil] at this
    exact this.symm

theorem removedResolved_congr (c : Cache) {c1 c2 : Cache}
    (h : ∀ k, getLine c.lines k ≠ none →
      (getLine c1.lines k).isNone = (getLine c2.lines k).isNone) :
    removedResolved c c1 = removedResolved c c2 := by
  unfold removedResolved
  congr 1
  apply List.filter_congr
  intro p hp
  have hk : getLine c.lines p.1 ≠ none := by
    rw [Ne, getLine_eq_none_iff]
    exact fun hh => hh (List.mem_map_of_mem Prod.fst hp)
  rw [h p.1 hk]

theorem removedResolved_installed {c : Cache} (c1 : Cache) (now : Int) {k : String}
    (f : Line → Line) (hk : getLine c.lines k = none) :
    removedResolved c (installed c1 now k f) = removedResolved c c1 := by
  apply removedResolved_congr
  intro k' hk'
  have hne : k' ≠ k := by
    intro he
    rw [he] at hk'
    exact hk' hk
  simp only [installed, pushLine]
  rw [getLine_modifyLine_ne _ _ hne, getLine_setLine_ne _ _ hne]

theorem removedResolved_pushLine {c : Cache} (c1 : Cache) (now : Int) {k : String}
    (hk : getLine c.lines k = none) :
    removedResolved c (pushLine c1 now k) = removedResolved c c1 := by
  apply removedResolved_congr
  intro k' hk'
  have hne : k' ≠ k := by
    intro he
    rw [he] at hk'
    exact hk' hk
  simp only [pushLine]
  rw [getLine_setLine_ne _ _ hne]

theorem removedResolved_modify (c : Cache) (k : String) (f : Line → Line) :
    removedResolved c { c with lines := modifyLine c.lines k f } = [] := by
  apply removedResolved_nil
  intro k' hk'
  simp only
  by_cases he : k' = k
  · rw [he, getLine_modifyLine_self]
    rw [he] at hk'
    cases hg : getLine c.lines k with
    | none => exact absurd hg hk'
    | some l => simp
  · rw [getLine_modifyLine_ne _ _ he]
    exact hk'

theorem removedResolved_updateLRU (c : Cache) (now : Int) (k : String) (l : Line) :
    removedResolved c (updateLRU c now k l) = [] :=
  removedResolved_modify c k _

theorem resolvedExample_consistent : Consistent resolvedExample := by
  have h1 : Consistent (pushLine (New 1 20) 0 "a") :=
    consistent_pushLine (c := New 1 20) (consistent_New 1 20) 0 (k := "a") rfl
  have h2 := consistent_modify h1 "a" (store { key := "a", value := "pass" }) (fun _ => rfl)
  exact h2

theorem syncLookup_absent {c : Cache} (hc : Consistent c) (hs : 1 ≤ c.size) (now : Int)
    (l : Lookup) (hK : getLine c.lines l.key = none) :
    ∃ c1 cb, Admit c c1 cb ∧
      syncLookup c now l =
        some (installed c1 now l.key (addWaiter l.resCh), cb ++ [Event.getCh l.key]) := by
  obtain ⟨c1, cb, had, hn⟩ := newLine_cases hc hs now l.key
  refine ⟨c1, cb, had, ?_⟩
  unfold syncLookup
  simp only [hK, hn, Option.map_some']
  rfl

theorem asyncLookup_absent {c : Cache} (hc : Consistent c) (hs : 1 ≤ c.size) (now : Int)
    (l : Lookup) (hK : getLine c.lines l.key = none) :
    ∃ c1 cb, Admit c c1 cb ∧
      asyncLookup c now l =
        some (pushLine c1 now l.key,
          cb ++ [Event.result l.resCh none false, Event.getCh l.key]) := by
  obtain ⟨c1, cb, had, hn⟩ := newLine_cases hc hs now l.key
  refine ⟨c1, cb, had, ?_⟩
  unfold asyncLookup
  simp only [hK, hn, Option.map_some']

theorem putEntry_absent {c : Cache} (hc : Consistent c) (hs : 1 ≤ c.size) (now : Int)
    (e : Entry) (hK : getLine c.lines e.Key = none) :
    ∃ c1 cb, Admit c c1 cb ∧
      putEntry c now e = some (installed c1 now e.Key (store e), cb) := by
  obtain ⟨c1, cb, had, hn⟩ := newLine_cases hc hs now e.Key
  refine ⟨c1, cb, had, ?_⟩
  unfold putEntry
  simp only [hK, hn, Option.map_some']
  rfl

theorem createEntry_absent_shape {c : Cache} (hc : Consistent c) (hs : 1 ≤ c.size)
    (now : Int) (e : Entry) (hK : getLine c.lines e.Key = none) :
    ∃ c1 cb, Admit c c1 cb ∧
      createEntry c now e = some ((installed c1 now e.Key (store e), cb), true) := by
  obtain ⟨c1, cb, had, hn⟩ := newLine_cases hc hs now e.Key
  refine ⟨c1, cb, had, ?_⟩
  unfold createEntry
  simp only [hK, hn, Option.map_some']
  rfl

theorem keyNotFound_present {c : Cache} (k : String) {line : Line}
    (hg : getLine c.lines k = some line) :
    keyNotFound c k =
      some (dropLine c k line,
        (if line.empty then line.waiting.map (fun ch => Event.result ch none false)
         else []) ++ copyBackOf line) := by
  unfold keyNotFound
  simp only [hg, removeLine_eq hg, Option.map_some']

theorem copyBacksOf_results (w : List Nat) (v : Option Entry) (ok : Bool) :
    copyBacksOf (w.map (fun ch => Event.result ch v ok)) = [] := by
  induction w with
  | nil => rfl
  | cons a rest ih =>
    simp only [List.map_cons, copyBacksOf, List.filterMap_cons]
    exact ih

/-- Claim C10: copy-back is scheduled exactly once per removed resolved line.
In a consistent cache of capacity at least 1 every dispatcher step (lookup,
Put, Create, NotFound, sweep) completes, and the payloads of the copy-back
requests it sends are, up to their order, exactly the payloads of the resolved
lines of the state before whose key has no line in the state after, one
request per such line; a removed pending line is not among them. -/
theorem copy_back_once_per_removed_resolved_line (c : Cache) (hc : Consistent c)
    (hs : 1 ≤ c.size) (now : Int) (m : Msg) :
    ∃ c1 evs, cacheRequests c now m = some (c1, evs) ∧
      (copyBacksOf evs).Perm (removedResolved c c1) := by
  cases m with
  | lookupSync l =>
    cases hg : getLine c.lines l.key with
    | none =>
      obtain ⟨c1, cb, had, hrun⟩ := syncLookup_absent hc hs now l hg
      refine ⟨_, _, hrun, ?_⟩
      rw [copyBacksOf_append, removedResolved_installed c1 now _ hg]
      simpa [copyBacksOf] using had.copyBacks hc
    | some ln =>
      by_cases he : ln.empty = true
      · refine ⟨_, _, syncLookup_pending now l hg he, ?_⟩
        rw [removedResolved_modify]
        exact List.Perm.refl _
      · have he2 : ln.empty = false := by simpa using he
        refine ⟨_, _, syncLookup_resolved now l hg he2, ?_⟩
        rw [removedResolved_updateLRU]
        exact List.Perm.refl _
  | lookupAsync l =>
    cases hg : getLine c.lines l.key with
    | none =>
      obtain ⟨c1, cb, had, hrun⟩ := asyncLookup_absent hc hs now l hg
      refine ⟨_, _, hrun, ?_⟩
      rw [copyBacksOf_append, removedResolved_pushLine c1 now hg]
      simpa [copyBacksOf] using had.copyBacks hc
    | some ln =>
      by_cases he : ln.empty = true
      · refine ⟨_, _, asyncLookup_pending now l hg he, ?_⟩
        rw [removedResolved_nil (fun _ h => h)]
        exact List.Perm.refl _
      · have he2 : ln.empty = false := by simpa using he
        refine ⟨_, _, asyncLookup_resolved now l hg he2, ?_⟩
        rw [removedResolved_updateLRU]
        exact List.Perm.refl _
  | put e =>
    cases hg : getLine c.lines e.Key with
    | none =>
      obtain ⟨c1, cb, had, hrun⟩ := putEntry_absent hc hs now e hg
      refine ⟨_, _, hrun, ?_⟩
      rw [removedResolved_installed c1 now _ hg]
      exact had.copyBacks hc
    | some ln =>
      refine ⟨_, _, putEntry_present now e hg, ?_⟩
      rw [removedResolved_modify, copyBacksOf_results]
  | createCh cr =>
    cases hg : getLine c.lines cr.entry.Key with
    | none =>
      obtain ⟨c1, cb, had, hrun⟩ := createEntry_absent_shape hc hs now cr.entry hg
      refine ⟨installed c1 now cr.entry.Key (store cr.entry),
        cb ++ [Event.created cr.resCh true], ?_, ?_⟩
      · simp only [cacheRequests, hrun, Option.map_some']
      · rw [copyBacksOf_append, removedResolved_installed c1 now _ hg]
        simpa [copyBacksOf] using had.copyBacks hc
    | some ln =>
      refine ⟨c, [] ++ [Event.created cr.resCh false], ?_, ?_⟩
      · simp only [cacheRequests, createEntry_present now cr.entry hg, Option.map_some']
      · rw [removedResolved_nil (fun _ h => h)]
        exact List.Perm.refl _
  | notFound k =>
    cases hg : getLine c.lines k with
    | none =>
      refine ⟨c, [], ?_, ?_⟩
      · simp only [cacheRequests, keyNotFound, hg]
      · rw [removedResolved_nil (fun _ h => h)]
        exact List.Perm.refl _
    | some ln =>
      refine ⟨_, _, keyNotFound_present k hg, ?_⟩
      have hnone : getLine (dropLine c k ln).lines k = none := getLine_deleteLine_self _ _
      have := removedResolved_drop hc.keysNodup hg (dropLine c k ln) hnone
      rw [removedResolved_nil (c := dropLine c k ln) (fun _ hh => hh),
        List.append_nil] at this
      rw [copyBacksOf_append]
      have h0 : copyBacksOf (if ln.empty = true
          then ln.waiting.map (fun ch => Event.result ch none false) else []) = [] := by
        split
        · exact copyBacksOf_results _ _ _
        · rfl
      rw [h0, List.nil_append]
      exact this.symm
  | ttlPoll =>
    obtain ⟨c1, evs1, hrun, _, _, _, _, _, _, _, _, _, hperm, _, _⟩ := timeout_spec hc now
    exact ⟨c1, evs1, hrun, hperm⟩

/-- Witness of C10: in a full cache of capacity 1 that holds the resolved
line of "a", a lookup of "b" sends the copy-back of the entry of "a". -/
theorem copy_back_once_per_removed_resolved_line_witness :
    ∃ c1 evs, cacheRequests resolvedExample 3 (Msg.lookupSync { key := "b", resCh := 9 })
        = some (c1, evs) ∧
      (copyBacksOf evs).Perm (removedResolved resolvedExample c1) :=
  copy_back_once_per_removed_resolved_line resolvedExample resolvedExample_consistent
    (by decide) 3 (Msg.lookupSync { key := "b", resCh := 9 })

/-! ## Recency stays ordered by use -/

theorem ordered_shrink {c c1 : Cache} (ho : Ordered c)
    (hsub : c1.lruList.Sublist c.lruList)
    (hshr : ∀ k t, lastUseOf c1.lines k = some t → lastUseOf c.lines k = some t) :
    Ordered c1 := by
  unfold Ordered at ho ⊢
  refine (ho.sublist hsub).imp ?_
  intro a b h ta tb h1 h2
  exact h ta tb (hshr _ _ h1) (hshr _ _ h2)

theorem lastUseOf_eq_some {m : List (String × Line)} {k : String} {t : Int} :
    lastUseOf m k = some t ↔ ∃ ln, getLine m k = some ln ∧ ln.lastUse = t := by
  unfold lastUseOf
  cases getLine m k with
  | none => simp
  | some l => simp

theorem ordered_dropLine {c : Cache} (ho : Ordered c) (key : String) (line : Line) :
    Ordered (dropLine c key line) := by
  refine ordered_shrink ho (List.filter_sublist _) ?_
  intro k t h
  obtain ⟨ln, h1, h2⟩ := lastUseOf_eq_some.mp h
  simp only [BreadCache.dropLine] at h1
  by_cases he : k = key
  · rw [he, getLine_deleteLine_self] at h1
    exact absurd h1 (by simp)
  · rw [getLine_deleteLine_ne _ he] at h1
    exact lastUseOf_eq_some.mpr ⟨ln, h1, h2⟩

theorem lastUseOf_modifyLine (m : List (String × Line)) (k : String) (f : Line → Line)
    (hf : ∀ ln, (f ln).lastUse = ln.lastUse) (k' : String) :
    lastUseOf (modifyLine m k f) k' = lastUseOf m k' := by
  unfold lastUseOf
  by_cases he : k' = k
  · rw [he, getLine_modifyLine_self]
    cases getLine m k with
    | none => rfl
    | some l => simp [hf]
  · rw [getLine_modifyLine_ne _ _ he]

theorem ordered_modify {c : Cache} (ho : Ordered c) (k : String) (f : Line → Line)
    (hf : ∀ ln, (f ln).lastUse = ln.lastUse) :
    Ordered { c with lines := modifyLine c.lines k f } := by
  refine ordered_shrink ho (List.Sublist.refl _) ?_
  intro k' t h
  simp only at h
  rw [lastUseOf_modifyLine _ _ _ hf] at h
  exact h

theorem ordered_pushLine {c : Cache} (hc : Consistent c) (ho : Ordered c) {now : Int}
    (hb : Bounded c now) {k : String} (hk : getLine c.lines k = none) :
    Ordered (pushLine c now k) := by
  have hval : ∀ el ∈ c.lruList, el.Value ≠ k := by
    intro el hel he
    obtain ⟨ln, h1, _⟩ := hc.owner el hel
    rw [he, hk] at h1
    exact absurd h1 (by simp)
  have hsame : ∀ el ∈ c.lruList, lastUseOf (BreadCache.pushLine c now k).lines el.Value =
      lastUseOf c.lines el.Value := by
    intro el hel
    simp only [BreadCache.pushLine, lastUseOf]
    rw [getLine_setLine_ne _ _ (hval el hel)]
  unfold Ordered
  simp only [BreadCache.pushLine, List.pairwise_cons]
  constructor
  · intro b hbm ta tb h1 h2
    have h1' : ta = now := by
      simp only [lastUseOf, getLine_setLine_self, Option.map_some', Option.some.injEq] at h1
      exact h1.symm
    have h2' := hsame b hbm
    simp only [BreadCache.pushLine] at h2'
    rw [h2'] at h2
    obtain ⟨ln, h3, h4⟩ := lastUseOf_eq_some.mp h2
    rw [h1', ← h4]
    exact hb _ _ h3
  · refine List.Pairwise.imp_of_mem ?_ ho
    intro a b ha hbm h ta tb h1 h2
    have ha' := hsame a ha
    have hb' := hsame b hbm
    simp only [BreadCache.pushLine] at ha' hb'
    rw [ha'] at h1
    rw [hb'] at h2
    exact h ta tb h1 h2

theorem ordered_updateLRU {c : Cache} (hc : Consistent c) (ho : Ordered c) {now : Int}
    (hb : Bounded c now) {k : String} {ln : Line} (hg : getLine c.lines k = some ln) :
    Ordered (updateLRU c now k ln) := by
  have hel := hc.handle k ln hg
  have hfind : ∃ x, c.lruList.find? (fun x => decide (x.id = ln.lruEntry)) = some x := by
    cases hf : c.lruList.find? (fun x => decide (x.id = ln.lruEntry)) with
    | some x => exact ⟨x, rfl⟩
    | none =>
      rw [List.find?_eq_none] at hf
      have := hf _ hel
      simp at this
  obtain ⟨x, hx⟩ := hfind
  have hxm : x ∈ c.lruList := List.mem_of_find?_eq_some hx
  have hxid : x.id = ln.lruEntry := by simpa using List.find?_some hx
  have hxe : x = { id := ln.lruEntry, Value := k } := eq_of_id_eq hc.idsNodup hxm hel hxid
  have hval : ∀ el ∈ Remove c.lruList ln.lruEntry, el.Value ≠ k := by
    intro el hel2 he
    obtain ⟨h1, h2⟩ := mem_Remove.mp hel2
    obtain ⟨l2, h3, h4⟩ := hc.owner el h1
    rw [he, hg] at h3
    injection h3 with h3
    rw [← h3] at h4
    exact h2 h4.symm
  have hsame : ∀ el ∈ Remove c.lruList ln.lruEntry,
      lastUseOf (modifyLine c.lines k (fun l => { l with lastUse := now })) el.Value =
      lastUseOf c.lines el.Value := by
    intro el hel2
    simp only [lastUseOf]
    rw [getLine_modifyLine_ne _ _ (hval el hel2)]
  unfold Ordered
  simp only [BreadCache.updateLRU, MoveToFront, hx, List.pairwise_cons]
  constructor
  · intro b hbm ta tb h1 h2
    have h1' : ta = now := by
      rw [hxe] at h1
      simp only [lastUseOf, getLine_modifyLine_self, hg, Option.map_some',
        Option.some.injEq] at h1
      exact h1.symm
    rw [hsame b hbm] at h2
    obtain ⟨l2, h3, h4⟩ := lastUseOf_eq_some.mp h2
    rw [h1', ← h4]
    exact hb _ _ h3
  · have hsub : (Remove c.lruList ln.lruEntry).Sublist c.lruList := List.filter_sublist _
    refine List.Pairwise.imp_of_mem ?_ (List.Pairwise.sublist hsub ho)
    intro a b ha hbm h ta tb h1 h2
    rw [hsame a ha] at h1
    rw [hsame b hbm] at h2
    exact h ta tb h1 h2

/-! ## No line is used after the clock -/

theorem bounded_mono {c : Cache} {t t' : Int} (hb : Bounded c t) (h : t ≤ t') :
    Bounded c t' :=
  fun k ln hg => le_trans (hb k ln hg) h

theorem bounded_shrink {c c1 : Cache} {t : Int} (hb : Bounded c t)
    (hshr : ∀ k ln, getLine c1.lines k = some ln → getLine c.lines k = some ln) :
    Bounded c1 t :=
  fun k ln hg => hb k ln (hshr k ln hg)

theorem bounded_pushLine {c : Cache} {now : Int} (hb : Bounded c now) (k : String) :
    Bounded (pushLine c now k) now := by
  intro k' ln hg
  simp only [BreadCache.pushLine] at hg
  by_cases he : k' = k
  · rw [he, getLine_setLine_self] at hg
    injection hg with hg
    rw [← hg]
  · rw [getLine_setLine_ne _ _ he] at hg
    exact hb _ _ hg

theorem bounded_modify {c : Cache} {t : Int} (hb : Bounded c t) (k : String)
    (f : Line → Line) (hf : ∀ ln, (f ln).lastUse ≤ max ln.lastUse t) :
    Bounded { c with lines := modifyLine c.lines k f } t := by
  intro k' ln hg
  simp only at hg
  by_cases he : k' = k
  · rw [he, getLine_modifyLine_self] at hg
    cases h0 : getLine c.lines k with
    | none => rw [h0] at hg; simp at hg
    | some l0 =>
      rw [h0] at hg
      simp only [Option.map_some', Option.some.injEq] at hg
      rw [← hg]
      exact le_trans (hf l0) (max_le (hb _ _ h0) le_rfl)
  · rw [getLine_modifyLine_ne _ _ he] at hg
    exact hb _ _ hg

/-! ## The invariant of the reachable states -/

theorem lastUseOf_shrink {m m1 : List (String × Line)}
    (hshr : ∀ k ln, getLine m1 k = some ln → getLine m k = some ln) (k : String) (t : Int)
    (h : lastUseOf m1 k = some t) : lastUseOf m k = some t := by
  obtain ⟨ln, h1, h2⟩ := lastUseOf_eq_some.mp h
  exact lastUseOf_eq_some.mpr ⟨ln, hshr k ln h1, h2⟩

theorem Admit.sublist {c c1 : Cache} {cb : List Event} (h : Admit c c1 cb) :
    c1.lruList.Sublist c.lruList := by
  rcases h with ⟨_, h1, _⟩ | ⟨oldest, line, _, _, hg, _, h1, _⟩
  · rw [h1]
  · rw [h1]; exact List.filter_sublist _

theorem Admit.ordered {c c1 : Cache} {cb : List Event} (h : Admit c c1 cb)
    (ho : Ordered c) : Ordered c1 :=
  ordered_shrink ho h.sublist (lastUseOf_shrink h.shrinks)

theorem Admit.bounded {c c1 : Cache} {cb : List Event} (h : Admit c c1 cb) {t : Int}
    (hb : Bounded c t) : Bounded c1 t :=
  bounded_shrink hb h.shrinks

theorem installed_inv {c : Cache} (hc : Consistent c) (ho : Ordered c) {now : Int}
    (hb : Bounded c now) {k : String} (hk : getLine c.lines k = none) (f : Line → Line)
    (hf1 : ∀ ln, (f ln).lruEntry = ln.lruEntry) (hf2 : ∀ ln, (f ln).lastUse = ln.lastUse) :
    Consistent (installed c now k f) ∧ Ordered (installed c now k f) ∧
      Bounded (installed c now k f) now :=
  ⟨consistent_modify (consistent_pushLine hc now hk) k f hf1,
   ordered_modify (ordered_pushLine hc ho hb hk) k f hf2,
   bounded_modify (bounded_pushLine hb k) k f (fun ln => by rw [hf2]; exact le_max_left _ _)⟩

theorem updateLRU_inv {c : Cache} (hc : Consistent c) (ho : Ordered c) {now : Int}
    (hb : Bounded c now) {k : String} {ln : Line} (hg : getLine c.lines k = some ln) :
    Consistent (updateLRU c now k ln) ∧ Ordered (updateLRU c now k ln) ∧
      Bounded (updateLRU c now k ln) now :=
  ⟨consistent_updateLRU hc now k ln, ordered_updateLRU hc ho hb hg,
   bounded_modify hb k (fun l => { l with lastUse := now }) (fun _ => le_max_right _ _)⟩

theorem step_inv {c c1 : Cache} {t now : Int} {m : Msg} {evs : List Event}
    (hc : Consistent c) (ho : Ordered c) (hb : Bounded c t) (hs : 1 ≤ c.size)
    (ht : t ≤ now) (h : cacheRequests c now m = some (c1, evs)) :
    Consistent c1 ∧ Ordered c1 ∧ Bounded c1 now ∧ c1.size = c.size ∧ c1.ttl = c.ttl := by
  have hbn : Bounded c now := bounded_mono hb ht
  cases m with
  | lookupSync l =>
    cases hg : getLine c.lines l.key with
    | none =>
      obtain ⟨c', cb, had, hrun⟩ := syncLookup_absent hc hs now l hg
      simp only [cacheRequests, hrun, Option.some.injEq, Prod.mk.injEq] at h
      obtain ⟨h1, h2, h3⟩ := installed_inv (had.consistent hc) (had.ordered ho)
        (had.bounded hbn) (had.absent hg) (addWaiter l.resCh) (fun _ => rfl) (fun _ => rfl)
      rw [← h.1]
      exact ⟨h1, h2, h3, had.size_eq.1, had.size_eq.2.1⟩
    | some ln =>
      by_cases he : ln.empty = true
      · simp only [cacheRequests, syncLookup_pending now l hg he, Option.some.injEq,
          Prod.mk.injEq] at h
        rw [← h.1]
        exact ⟨consistent_modify hc _ _ (fun _ => rfl), ordered_modify ho _ _ (fun _ => rfl),
          bounded_modify hbn _ _ (fun _ => le_max_left _ _), rfl, rfl⟩
      · have he2 : ln.empty = false := by simpa using he
        simp only [cacheRequests, syncLookup_resolved now l hg he2, Option.some.injEq,
          Prod.mk.injEq] at h
        obtain ⟨h1, h2, h3⟩ := updateLRU_inv hc ho hbn hg
        rw [← h.1]
        exact ⟨h1, h2, h3, rfl, rfl⟩
  | lookupAsync l =>
    cases hg : getLine c.lines l.key with
    | none =>
      obtain ⟨c', cb, had, hrun⟩ := asyncLookup_absent hc hs now l hg
      simp only [cacheRequests, hrun, Option.some.injEq, Prod.mk.injEq] at h
      rw [← h.1]
      exact ⟨consistent_pushLine (had.consistent hc) now (had.absent hg),
        ordered_pushLine (had.consistent hc) (had.ordered ho) (had.bounded hbn)
          (had.absent hg),
        bounded_pushLine (had.bounded hbn) _, had.size_eq.1, had.size_eq.2.1⟩
    | some ln =>
      by_cases he : ln.empty = true
      · simp only [cacheRequests, asyncLookup_pending now l hg he, Option.some.injEq,
          Prod.mk.injEq] at h
        rw [← h.1]
        exact ⟨hc, ho, hbn, rfl, rfl⟩
      · have he2 : ln.empty = false := by simpa using he
        simp only [cacheRequests, asyncLookup_resolved now l hg he2, Option.some.injEq,
          Prod.mk.injEq] at h
        obtain ⟨h1, h2, h3⟩ := updateLRU_inv hc ho hbn hg
        rw [← h.1]
        exact ⟨h1, h2, h3, rfl, rfl⟩
  | put e =>
    cases hg : getLine c.lines e.Key with
    | none =>
      obtain ⟨c', cb, had, hrun⟩ := putEntry_absent hc hs now e hg
      simp only [cacheRequests, hrun, Option.some.injEq, Prod.mk.injEq] at h
      obtain ⟨h1, h2, h3⟩ := installed_inv (had.consistent hc) (had.ordered ho)
        (had.bounded hbn) (had.absent hg) (store e) (fun _ => rfl) (fun _ => rfl)
      rw [← h.1]
      exact ⟨h1, h2, h3, had.size_eq.1, had.size_eq.2.1⟩
    | some ln =>
      simp only [cacheRequests, putEntry_present now e hg, Option.some.injEq,
        Prod.mk.injEq] at h
      rw [← h.1]
      exact ⟨consistent_modify hc _ _ (fun _ => rfl), ordered_modify ho _ _ (fun _ => rfl),
        bounded_modify hbn _ _ (fun _ => le_max_left _ _), rfl, rfl⟩
  | createCh cr =>
    cases hg : getLine c.lines cr.entry.Key with
    | none =>
      obtain ⟨c', cb, had, hrun⟩ := createEntry_absent_shape hc hs now cr.entry hg
      simp only [cacheRequests, hrun, Option.map_some', Option.some.injEq,
        Prod.mk.injEq] at h
      obtain ⟨h1, h2, h3⟩ := installed_inv (had.consistent hc) (had.ordered ho)
        (had.bounded hbn) (had.absent hg) (store cr.entry) (fun _ => rfl) (fun _ => rfl)
      rw [← h.1]
      exact ⟨h1, h2, h3, had.size_eq.1, had.size_eq.2.1⟩
    | some ln =>
      simp only [cacheRequests, createEntry_present now cr.entry hg, Option.map_some',
        Option.some.injEq, Prod.mk.injEq] at h
      rw [← h.1]
      exact ⟨hc, ho, hbn, rfl, rfl⟩
  | notFound k =>
    cases hg : getLine c.lines k with
    | none =>
      simp only [cacheRequests, keyNotFound, hg, Option.some.injEq, Prod.mk.injEq] at h
      rw [← h.1]
      exact ⟨hc, ho, hbn, rfl, rfl⟩
    | some ln =>
      simp only [cacheRequests, keyNotFound_present k hg, Option.some.injEq,
        Prod.mk.injEq] at h
      rw [← h.1]
      refine ⟨consistent_dropLine hc hg, ordered_dropLine ho k ln, ?_, rfl, rfl⟩
      apply bounded_shrink hbn
      intro k' l' hk'
      simp only [dropLine] at hk'
      by_cases he : k' = k
      · rw [he, getLine_deleteLine_self] at hk'
        exact absurd hk' (by simp)
      · rw [getLine_deleteLine_ne _ he] at hk'
        exact hk'
  | ttlPoll =>
    obtain ⟨c', evs1, hrun, hc1, hsz, httl, _, hshr, hsub, _, _, _, _, _, _⟩ :=
      timeout_spec hc now
    simp only [cacheRequests, hrun, Option.some.injEq, Prod.mk.injEq] at h
    rw [← h.1]
    exact ⟨hc1, ordered_shrink ho hsub (lastUseOf_shrink hshr), bounded_shrink hbn hshr, hsz, httl⟩

theorem Reachable.inv {size ttl : Int} (hs : 1 ≤ size) {c : Cache} {t : Int}
    (h : Reachable size ttl c t) :
    Consistent c ∧ Ordered c ∧ Bounded c t ∧ c.size = size ∧ c.ttl = ttl := by
  induction h with
  | init t0 =>
    refine ⟨consistent_New size ttl, ?_, ?_, rfl, rfl⟩
    · simp [Ordered, New]
    · intro k ln hg
      simp [New, getLine] at hg
  | step now m c1 evs hr ht hstep ih =>
    obtain ⟨hc, ho, hb, hsz, httl⟩ := ih
    obtain ⟨h1, h2, h3, h4, h5⟩ := step_inv hc ho hb (by rw [hsz]; exact hs) ht hstep
    exact ⟨h1, h2, h3, h4.trans hsz, h5.trans httl⟩

/-! ## Claim C8 -/

theorem sublist_eq_filter_mem {α : Type} [DecidableEq α] {l1 l : List α}
    (h : l1.Sublist l) (hn : l.Nodup) : l1 = l.filter (fun x => decide (x ∈ l1)) := by
  induction h with
  | slnil => rfl
  | @cons l1 l a hsub ih =>
    rw [List.nodup_cons] at hn
    have ha : a ∉ l1 := fun hm => hn.1 (hsub.subset hm)
    rw [List.filter_cons_of_neg (by simpa using ha)]
    exact ih hn.2
  | @cons₂ l1 l a hsub ih =>
    rw [List.nodup_cons] at hn
    rw [List.filter_cons_of_pos (by simp)]
    congr 1
    rw [ih hn.2]
    apply List.filter_congr
    intro x hx
    have hne : x ≠ a := fun he => hn.1 (he ▸ hx)
    rw [← ih hn.2]
    simp [hne]

theorem all_fresh_of_back_fresh {c : Cache} (hc : Consistent c) (ho : Ordered c)
    {limit : Int}
    (hback : ∀ b, Back c.lruList = some b → ∀ ln, getLine c.lines b.Value = some ln →
      ¬ ln.lastUse < limit)
    {k : String} {ln : Line} (hg : getLine c.lines k = some ln) : ¬ ln.lastUse < limit := by
  have hx := hc.handle k ln hg
  have hne : c.lruList ≠ [] := List.ne_nil_of_mem hx
  have hlast : Back c.lruList = some (c.lruList.getLast hne) := List.getLast?_eq_getLast _ hne
  obtain ⟨ys, hys⟩ := List.getLast?_eq_some_iff.mp hlast
  obtain ⟨lb, hlb, _⟩ := hc.owner _ (List.getLast_mem hne)
  have hfresh := hback _ hlast lb hlb
  rw [hys, List.mem_append] at hx
  rcases hx with hx | hx
  · have hp : (ys ++ [c.lruList.getLast hne]).Pairwise
        (fun a b => ∀ ta tb, lastUseOf c.lines a.Value = some ta →
          lastUseOf c.lines b.Value = some tb → tb ≤ ta) := by
      have := ho
      unfold Ordered at this
      rw [hys] at this
      exact this
    rw [List.pairwise_append] at hp
    have := hp.2.2 _ hx _ (List.mem_singleton_self _) ln.lastUse lb.lastUse
      (lastUseOf_eq_some.mpr ⟨ln, hg, rfl⟩) (lastUseOf_eq_some.mpr ⟨lb, hlb, rfl⟩)
    omega
  · rw [List.mem_singleton] at hx
    rw [← hx] at hlb
    simp only at hlb
    rw [hg] at hlb
    injection hlb with hlb
    rw [hlb]
    exact hfresh

/-- Claim C8: the TTL sweep removes exactly the stale lines.  In every state
reached from `New size ttl` with `size` at least 1, under a clock that does
not go backwards, and for every sweep time `now`, `timeout` completes; the
line map afterwards consists of exactly the lines whose `lastUse` is not
before `now - ttl`, each as it was, and the recency list of exactly their
elements, in the order they had; a key whose line had `lastUse` before
`now - ttl` has no line and no list element afterwards, and a later
asynchronous lookup of such a key replies `(nil, false)`. -/
theorem ttl_sweep_removes_exactly_stale (size ttl : Int) (hs : 1 ≤ size) (c : Cache)
    (t : Int) (hr : Reachable size ttl c t) (now : Int) :
    ∃ c1 evs, timeout c now = some (c1, evs) ∧
      c1.lines = c.lines.filter (fun p => isFresh (now - c.ttl) p.2) ∧
      c1.lruList = c.lruList.filter (holdsFresh c (now - c.ttl)) ∧
      (∀ k ln, getLine c.lines k = some ln → ln.lastUse < now - c.ttl →
        getLine c1.lines k = none ∧ (∀ el ∈ c1.lruList, el.Value ≠ k) ∧
        ∀ (t2 : Int) (ch : Nat), ∃ c2 evs2,
          asyncLookup c1 t2 { key := k, resCh := ch } = some (c2, evs2) ∧
          repliesOf evs2 = [(ch, none, false)]) := by
  obtain ⟨hc, ho, _, hsz, _⟩ := hr.inv hs
  obtain ⟨c1, evs, hrun, hc1, hsz1, _, _, hshr, hsub, hsubl, hstale, hback, _, _, _⟩ :=
    timeout_spec hc now
  have ho1 : Ordered c1 := ordered_shrink ho hsub (lastUseOf_shrink hshr)
  have hfresh : ∀ k ln, getLine c1.lines k = some ln → ¬ ln.lastUse < now - c.ttl :=
    fun k ln hg => all_fresh_of_back_fresh hc1 ho1 hback hg
  have hgone : ∀ k ln, getLine c.lines k = some ln → ln.lastUse < now - c.ttl →
      getLine c1.lines k = none := by
    intro k ln hg hst
    cases h1 : getLine c1.lines k with
    | none => rfl
    | some l1 =>
      have h2 := hshr k l1 h1
      rw [hg] at h2
      injection h2 with h2
      rw [← h2] at h1
      exact absurd hst (hfresh k ln h1)
  have hkept : ∀ k ln, getLine c.lines k = some ln → ¬ ln.lastUse < now - c.ttl →
      getLine c1.lines k = some ln := by
    intro k ln hg hfr
    cases h1 : getLine c1.lines k with
    | none => exact absurd (hstale k ln hg h1) hfr
    | some l1 =>
      have h2 := hshr k l1 h1
      rw [hg] at h2
      injection h2 with h2
      rw [h2]
  refine ⟨c1, evs, hrun, ?_, ?_, ?_⟩
  · rw [sublist_eq_filter_mem hsubl (List.Nodup.of_map _ hc.keysNodup)]
    apply List.filter_congr
    intro p hp
    have hg : getLine c.lines p.1 = some p.2 := getLine_of_mem hc.keysNodup hp
    by_cases hfr : p.2.lastUse < now - c.ttl
    · have h1 := hgone p.1 p.2 hg hfr
      have h2 : p ∉ c1.lines := by
        intro hm
        have := getLine_of_mem hc1.keysNodup hm
        rw [h1] at this
        exact absurd this (by simp)
      simp [isFresh, hfr, h2]
    · have h1 := getLine_mem (hkept p.1 p.2 hg hfr)
      simp [isFresh, hfr, h1]
  · rw [sublist_eq_filter_mem hsub (List.Nodup.of_map _ hc.idsNodup)]
    apply List.filter_congr
    intro el hel
    obtain ⟨ln, hg, hid⟩ := hc.owner el hel
    by_cases hfr : ln.lastUse < now - c.ttl
    · have h1 := hgone el.Value ln hg hfr
      have h2 : el ∉ c1.lruList := by
        intro hm
        obtain ⟨l1, h3, _⟩ := hc1.owner el hm
        rw [h1] at h3
        exact absurd h3 (by simp)
      simp [holdsFresh, hg, isFresh, hfr, h2]
    · have h1 := hc1.handle el.Value ln (hkept el.Value ln hg hfr)
      rw [hid] at h1
      simp [holdsFresh, hg, isFresh, hfr, h1]
  · intro k ln hg hst
    have h1 := hgone k ln hg hst
    refine ⟨h1, ?_, ?_⟩
    · intro el hel he
      obtain ⟨l1, h3, _⟩ := hc1.owner el hel
      rw [he, h1] at h3
      exact absurd h3 (by simp)
    · intro t2 ch
      obtain ⟨c2, cb, had, hrun2⟩ := asyncLookup_absent hc1 (by rw [hsz1, hsz]; exact hs) t2
        { key := k, resCh := ch } h1
      refine ⟨_, _, hrun2, ?_⟩
      rw [repliesOf_append, had.sends.2]
      rfl

/-- Witness of C8: the state after `Get("x")` at time 0 and its `Put` at time
1, swept at time 30 with a ttl of 20. -/
theorem ttl_sweep_removes_exactly_stale_witness :
    ∃ c1 evs, timeout sweptExample 30 = some (c1, evs) ∧
      c1.lines = sweptExample.lines.filter (fun p => isFresh (30 - sweptExample.ttl) p.2) ∧
      c1.lruList = sweptExample.lruList.filter (holdsFresh sweptExample
        (30 - sweptExample.ttl)) ∧
      (∀ k ln, getLine sweptExample.lines k = some ln → ln.lastUse < 30 - sweptExample.ttl →
        getLine c1.lines k = none ∧ (∀ el ∈ c1.lruList, el.Value ≠ k) ∧
        ∀ (t2 : Int) (ch : Nat), ∃ c2 evs2,
          asyncLookup c1 t2 { key := k, resCh := ch } = some (c2, evs2) ∧
          repliesOf evs2 = [(ch, none, false)]) :=
  ttl_sweep_removes_exactly_stale 2 20 (by decide) sweptExample 1
    (Reachable.step 1 (Msg.put { key := "x", value := "pass" }) sweptExample
      [Event.result 1 (some { key := "x", value := "pass" }) true]
      (Reachable.step 0 (Msg.lookupSync { key := "x", resCh := 1 })
        (installed (New 2 20) 0 "x" (addWaiter 1)) [Event.getCh "x"]
        (Reachable.init 0) (le_refl 0) rfl)
      (by decide) rfl) 30

/-! ## Runs and reachable states -/

theorem Reachable.of_run {size ttl : Int} : ∀ (ms : List (Int × Msg)) {c : Cache} {t : Int},
    Reachable size ttl c t → clockOk t ms = true →
    ∀ (c1 : Cache) (evs : List Event), BreadCache.run c ms = some (c1, evs) →
    Reachable size ttl c1 (lastClock t ms) := by
  intro ms
  induction ms with
  | nil =>
    intro c t hr _ c1 evs h
    simp only [BreadCache.run, Option.some.injEq, Prod.mk.injEq] at h
    rw [← h.1]
    exact hr
  | cons p rest ih =>
    intro c t hr hch c1 evs h
    obtain ⟨now, m⟩ := p
    simp only [clockOk, Bool.and_eq_true, decide_eq_true_eq] at hch
    simp only [BreadCache.run] at h
    cases h1 : cacheRequests c now m with
    | none => simp [h1] at h
    | some r =>
      simp only [h1] at h
      cases h2 : BreadCache.run r.1 rest with
      | none => simp [h2] at h
      | some r2 =>
        simp only [h2, Option.some.injEq, Prod.mk.injEq] at h
        have hr1 : Reachable size ttl r.1 now := Reachable.step now m r.1 r.2 hr hch.1 h1
        have := ih hr1 hch.2 r2.1 r2.2 h2
        rw [← h.1]
        exact this

theorem evictExample_reachable : Reachable 2 20 evictExample 4 :=
  Reachable.of_run evictTrace (Reachable.init 0) (by decide) evictExample
    [Event.getCh "y", Event.result 1 (some { key := "y", value := "pass" }) true,
      Event.getCh "x", Event.result 3 (some { key := "y", value := "pass" }) true,
      Event.result 2 (some { key := "x", value := "pass" }) true] (by decide)

/-! ## Claim C7 -/

theorem back_least {c : Cache} (hc : Consistent c) (ho : Ordered c) {b : Element}
    (hb : Back c.lruList = some b) {lb : Line} (hlb : getLine c.lines b.Value = some lb)
    {k : String} {ln : Line} (hg : getLine c.lines k = some ln) :
    lb.lastUse ≤ ln.lastUse := by
  have hback : ∀ b2, Back c.lruList = some b2 → ∀ l2, getLine c.lines b2.Value = some l2 →
      ¬ l2.lastUse < lb.lastUse := by
    intro b2 hb2 l2 hl2
    rw [hb] at hb2
    injection hb2 with hb2
    rw [← hb2, hlb] at hl2
    injection hl2 with hl2
    rw [← hl2]
    exact lt_irrefl _
  exact not_lt.mp (all_fresh_of_back_fresh hc ho hback hg)

/-- Claim C7, refuted as stated: on a cache of capacity 2 the run `evictTrace`
leaves "y" in front of "x" in the recency list, although the most recent
successful Get or Put of "y" (time 3) is older than that of "x" (time 4); the
lookup of "z" that follows evicts "x" and keeps "y". -/
theorem eviction_by_last_get_or_put_counterexample :
    (run (New 2 20) evictTrace).map (fun r => r.1.lruList.map Element.Value)
        = some ["y", "x"] ∧
      lastGetPut (New 2 20) evictTrace "y" = some 3 ∧
      lastGetPut (New 2 20) evictTrace "x" = some 4 ∧
      (run (New 2 20) (evictTrace ++ [(5, Msg.lookupSync { key := "z", resCh := 4 })])).map
          (fun r => r.1.lines.map Prod.fst)
        = some ["z", "y"] := by
  decide

/-! ## Pending lines -/

theorem isPending_congr {c c1 : Cache} {k : String}
    (h : getLine c1.lines k = getLine c.lines k) : isPending c1 k = isPending c k := by
  simp [isPending, h]

theorem isPending_pushLine (c : Cache) (now : Int) (k K : String) :
    isPending (pushLine c now k) K = (decide (K = k) || isPending c K) := by
  by_cases he : K = k
  · simp [isPending, pushLine, he, getLine_setLine_self]
  · have : getLine (pushLine c now k).lines K = getLine c.lines K := by
      simp only [pushLine]
      exact getLine_setLine_ne _ _ he
    rw [isPending_congr this]
    simp [he]

theorem getLine_installed_self (c : Cache) (now : Int) (k : String) (f : Line → Line) :
    getLine (installed c now k f).lines k =
      some (f { payload := none, empty := true, waiting := [], lruEntry := c.nextElem,
                lastUse := now }) := by
  simp only [installed, pushLine]
  rw [getLine_modifyLine_self, getLine_setLine_self]
  rfl

/-- Claim C9, the code at the failing inputs.  On a cache of capacity 1 the
lookup of "b" removes the pending line of "a" with its waiter 1 and sends no
reply, and the whole run `strandedTrace` sends no reply at all, neither to
caller 1 nor to caller 2; in `sweptPendingTrace` the sweep removes the pending
line of "a" and caller 1 gets no reply either; in `repliedTwiceTrace` caller 4
is sent two results. -/
theorem waiter_of_evicted_pending_line_gets_no_reply :
    (run (New 1 20) (strandedTrace.take 2)).map
        (fun r => (getLine r.1.lines "a", repliesOf r.2)) = some (none, []) ∧
      (run (New 1 20) strandedTrace).map (fun r => repliesOf r.2) = some [] ∧
      (run (New 2 2) sweptPendingTrace).map (fun r => repliesOf r.2) = some [] ∧
      (run (New 2 20) repliedTwiceTrace).map (fun r => (repliesOf r.2).map Prod.fst)
        = some [4, 5, 4] :=
  ⟨rfl, rfl, rfl, rfl⟩

/-! ## Claim C11 -/

theorem length_deleteLine_of_some {m : List (String × Line)} (hn : (m.map Prod.fst).Nodup)
    {k : String} {ln : Line} (hg : getLine m k = some ln) :
    (deleteLine m k).length + 1 = m.length := by
  have hsplit := (List.filter_append_perm (fun p : String × Line => decide (p.1 = k)) m).length_eq
  rw [List.length_append, filter_key_eq_of_nodup hn hg] at hsplit
  have e2 : m.filter (fun x => !decide (x.1 = k)) = deleteLine m k := by
    simp [deleteLine]
  rw [e2] at hsplit
  simp only [List.length_singleton] at hsplit
  omega

theorem length_modifyLine (m : List (String × Line)) (k : String) (f : Line → Line) :
    (modifyLine m k f).length = m.length := by
  simp [modifyLine]

theorem length_pushLine {c : Cache} (now : Int) {k : String} (hk : getLine c.lines k = none) :
    (pushLine c now k).lines.length = c.lines.length + 1 := by
  simp only [pushLine, setLine, List.length_cons]
  rw [deleteLine_of_none _ _ hk]

theorem length_installed {c : Cache} (now : Int) {k : String} (f : Line → Line)
    (hk : getLine c.lines k = none) :
    (installed c now k f).lines.length = c.lines.length + 1 := by
  simp only [installed]
  rw [length_modifyLine]
  exact length_pushLine now hk

theorem Admit.length_lt {c c1 : Cache} {cb : List Event} (had : Admit c c1 cb)
    (hc : Consistent c) (hlen : (c.lines.length : Int) ≤ c.size) :
    (c1.lines.length : Int) + 1 ≤ c.size := by
  rcases had with ⟨hlt, h1, _⟩ | ⟨oldest, line, _, _, hg, _, h1, _⟩
  · rw [h1]
    omega
  · rw [h1]
    have := length_deleteLine_of_some hc.keysNodup hg
    simp only [dropLine]
    omega

theorem step_length {c c1 : Cache} {now : Int} {m : Msg} {evs : List Event}
    (hc : Consistent c) (hs : 1 ≤ c.size) (hlen : (c.lines.length : Int) ≤ c.size)
    (h : cacheRequests c now m = some (c1, evs)) : (c1.lines.length : Int) ≤ c.size := by
  cases m with
  | lookupSync l =>
    cases hg : getLine c.lines l.key with
    | none =>
      obtain ⟨c', cb, had, hrun⟩ := syncLookup_absent hc hs now l hg
      simp only [cacheRequests, hrun, Option.some.injEq, Prod.mk.injEq] at h
      rw [← h.1, length_installed now _ (had.absent hg)]
      have := had.length_lt hc hlen
      push_cast
      omega
    | some ln =>
      by_cases he : ln.empty = true
      · simp only [cacheRequests, syncLookup_pending now l hg he, Option.some.injEq,
          Prod.mk.injEq] at h
        rw [← h.1]
        simp only [length_modifyLine]
        exact hlen
      · have he2 : ln.empty = false := by simpa using he
        simp only [cacheRequests, syncLookup_resolved now l hg he2, Option.some.injEq,
          Prod.mk.injEq] at h
        rw [← h.1]
        simp only [updateLRU, length_modifyLine]
        exact hlen
  | lookupAsync l =>
    cases hg : getLine c.lines l.key with
    | none =>
      obtain ⟨c', cb, had, hrun⟩ := asyncLookup_absent hc hs now l hg
      simp only [cacheRequests, hrun, Option.some.injEq, Prod.mk.injEq] at h
      rw [← h.1, length_pushLine now (had.absent hg)]
      have := had.length_lt hc hlen
      push_cast
      omega
    | some ln =>
      by_cases he : ln.empty = true
      · simp only [cacheRequests, asyncLookup_pending now l hg he, Option.some.injEq,
          Prod.mk.injEq] at h
        rw [← h.1]
        exact hlen
      · have he2 : ln.empty = false := by simpa using he
        simp only [cacheRequests, asyncLookup_resolved now l hg he2, Option.some.injEq,
          Prod.mk.injEq] at h
        rw [← h.1]
        simp only [updateLRU, length_modifyLine]
        exact hlen
  | put e =>
    cases hg : getLine c.lines e.Key with
    | none =>
      obtain ⟨c', cb, had, hrun⟩ := putEntry_absent hc hs now e hg
      simp only [cacheRequests, hrun, Option.some.injEq, Prod.mk.injEq] at h
      rw [← h.1, length_installed now _ (had.absent hg)]
      have := had.length_lt hc hlen
      push_cast
      omega
    | some ln =>
      simp only [cacheRequests, putEntry_present now e hg, Option.some.injEq,
        Prod.mk.injEq] at h
      rw [← h.1]
      simp only [length_modifyLine]
      exact hlen
  | createCh cr =>
    cases hg : getLine c.lines cr.entry.Key with
    | none =>
      obtain ⟨c', cb, had, hrun⟩ := createEntry_absent_shape hc hs now cr.entry hg
      simp only [cacheRequests, hrun, Option.map_some', Option.some.injEq,
        Prod.mk.injEq] at h
      rw [← h.1, length_installed now _ (had.absent hg)]
      have := had.length_lt hc hlen
      push_cast
      omega
    | some ln =>
      simp only [cacheRequests, createEntry_present now cr.entry hg, Option.map_some',
        Option.some.injEq, Prod.mk.injEq] at h
      rw [← h.1]
      exact hlen
  | notFound k =>
    cases hg : getLine c.lines k with
    | none =>
      simp only [cacheRequests, keyNotFound, hg, Option.some.injEq, Prod.mk.injEq] at h
      rw [← h.1]
      exact hlen
    | some ln =>
      simp only [cacheRequests, keyNotFound_present k hg, Option.some.injEq,
        Prod.mk.injEq] at h
      rw [← h.1]
      have := length_deleteLine_of_some hc.keysNodup hg
      simp only [dropLine]
      omega
  | ttlPoll =>
    obtain ⟨c', evs1, hrun, _, _, _, _, _, _, hsubl, _, _, _, _, _⟩ := timeout_spec hc now
    simp only [cacheRequests, hrun, Option.some.injEq, Prod.mk.injEq] at h
    rw [← h.1]
    have := hsubl.length_le
    omega

/-- Claim C11: the capacity bound.  In every state the dispatcher reaches
from `New size ttl` with `size` at least 1, that is after every message, the
line map holds at most `size` lines, resolved and pending together. -/
theorem capacity_bound (size ttl : Int) (hs : 1 ≤ size) (c : Cache) (t : Int)
    (hr : Reachable size ttl c t) : (c.lines.length : Int) ≤ size := by
  induction hr with
  | init t0 =>
    simp only [New, List.length_nil]
    omega
  | @step c t now m c1 evs hprev ht hstep ih =>
    obtain ⟨hc, _, _, hsz, _⟩ := hprev.inv hs
    have := step_length hc (by rw [hsz]; exact hs) (by rw [hsz]; exact ih) hstep
    rw [hsz] at this
    exact this

/-- Witness of C11: the state after `evictTrace`, which holds two lines at
capacity 2. -/
theorem capacity_bound_witness : ((evictExample.lines.length : Nat) : Int) ≤ 2 :=
  capacity_bound 2 20 (by decide) evictExample 4 evictExample_reachable

/-! ## Claim C12 -/

/-- Claim C12: the eviction scenario.  On a cache of capacity 2 the run
`scenarioTrace` sends exactly three replies, `("pass", true)` to each Get;
the lookup of "c", handled in the state after the first four messages, sends
exactly one copy-back, carrying the entry of "a", and leaves "a" without a
line while "b" keeps its line; an asynchronous lookup of "a" after the run
replies `(nil, false)`. -/
theorem eviction_scenario :
    (run (New 2 20) scenarioTrace).map (fun r => repliesOf r.2)
        = some [(1, some (passLoader "a"), true), (2, some (passLoader "b"), true),
                (3, some (passLoader "c"), true)] ∧
      ((run (New 2 20) (scenarioTrace.take 4)).bind
          (fun r => cacheRequests r.1 4 (Msg.lookupSync { key := "c", resCh := 3 }))).map
          (fun r => (copyBacksOf r.2, getLine r.1.lines "a", isResolved r.1 "b"))
        = some ([some (passLoader "a")], none, true) ∧
      (run (New 2 20) scenarioTrace).map (fun r => copyBacksOf r.2)
        = some [some (passLoader "a")] ∧
      ((run (New 2 20) scenarioTrace).bind
          (fun r => asyncLookup r.1 6 { key := "a", resCh := 4 })).map
          (fun r => repliesOf r.2)
        = some [(4, none, false)] :=
  ⟨rfl, rfl, rfl, rfl⟩

/-! ## Claim C16 -/

theorem modifyLine_id (m : List (String × Line)) (k : String) :
    modifyLine m k (fun ln => ln) = m := by
  induction m with
  | nil => rfl
  | cons p rest ih =>
    obtain ⟨k2, ln⟩ := p
    rw [modifyLine_cons, ih]
    by_cases h : k2 = k <;> simp [h]

theorem installed_id (c : Cache) (now : Int) (k : String) :
    installed c now k (fun ln => ln) = pushLine c now k := by
  simp only [installed, modifyLine_id]

/-- A message that asks for a line for a key without one runs `newLine` and
writes the new line through. -/
theorem admission_shape {c : Cache} (hc : Consistent c) (hs : 1 ≤ c.size) (now : Int)
    {m : Msg} {K : String} (hm : admittedKey m = some K) (hK : getLine c.lines K = none) :
    ∃ c1 cb f evs, Admit c c1 cb ∧
      cacheRequests c now m = some (installed c1 now K f, evs) := by
  cases m with
  | lookupSync l =>
    simp only [admittedKey, Option.some.injEq] at hm
    rw [← hm] at hK
    obtain ⟨c1, cb, had, hrun⟩ := syncLookup_absent hc hs now l hK
    exact ⟨c1, cb, addWaiter l.resCh, _, had, by rw [← hm]; exact hrun⟩
  | lookupAsync l =>
    simp only [admittedKey, Option.some.injEq] at hm
    rw [← hm] at hK
    obtain ⟨c1, cb, had, hrun⟩ := asyncLookup_absent hc hs now l hK
    refine ⟨c1, cb, fun ln => ln,
      cb ++ [Event.result l.resCh none false, Event.getCh l.key], had, ?_⟩
    rw [installed_id, ← hm]
    exact hrun
  | put e =>
    simp only [admittedKey, Option.some.injEq] at hm
    rw [← hm] at hK
    obtain ⟨c1, cb, had, hrun⟩ := putEntry_absent hc hs now e hK
    exact ⟨c1, cb, store e, _, had, by rw [← hm]; exact hrun⟩
  | createCh cr =>
    simp only [admittedKey, Option.some.injEq] at hm
    rw [← hm] at hK
    obtain ⟨c1, cb, had, hrun⟩ := createEntry_absent_shape hc hs now cr.entry hK
    refine ⟨c1, cb, store cr.entry, cb ++ [Event.created cr.resCh true], had, ?_⟩
    rw [← hm]
    simp only [cacheRequests, hrun, Option.map_some']
  | notFound k => simp [admittedKey] at hm
  | ttlPoll => simp [admittedKey] at hm

theorem Remove_back {l : List Element} (hn : (l.map Element.id).Nodup) {b : Element}
    (hb : Back l = some b) : Remove l b.id = l.dropLast := by
  obtain ⟨ys, hys⟩ := List.getLast?_eq_some_iff.mp hb
  rw [hys] at hn ⊢
  rw [List.dropLast_concat]
  unfold Remove
  rw [List.filter_append]
  have h1 : List.filter (fun x => decide (x.id ≠ b.id)) [b] = [] := by simp
  have h2 : List.filter (fun x => decide (x.id ≠ b.id)) ys = ys := by
    rw [List.filter_eq_self]
    intro a ha
    have hne : a.id ≠ b.id := by
      intro he
      rw [List.map_append, List.nodup_append] at hn
      exact hn.2.2 (List.mem_map_of_mem Element.id ha) (by simp [he])
    simpa using hne
  rw [h1, h2, List.append_nil]

theorem getLine_installed_ne (c : Cache) (now : Int) (k : String) (f : Line → Line)
    {K : String} (hK : K ≠ k) : getLine (installed c now k f).lines K = getLine c.lines K := by
  simp only [installed, pushLine]
  rw [getLine_modifyLine_ne _ _ hK, getLine_setLine_ne _ _ hK]

theorem lruList_installed (c : Cache) (now : Int) (k : String) (f : Line → Line) :
    (installed c now k f).lruList = { id := c.nextElem, Value := k } :: c.lruList := rfl

/-- Claim C16: admission at capacity evicts exactly the recency tail.  In
every state reached from `New size ttl` with `size` at least 1, a lookup, Put
or Create for a key `K` without a line completes.  When the cache holds
exactly `size` lines, the step leaves the key of the back element of the
recency list without a line, leaves the line of every other key as it was,
and the recency list afterwards is the one before without its back element
and with a new element for `K` at the front.  When the cache holds fewer
lines, every line stays as it was and the new element for `K` is put in front
of the unchanged recency list.  In both cases `K` has a line afterwards. -/
theorem admission_evicts_exactly_the_tail (size ttl : Int) (hs : 1 ≤ size) (c : Cache)
    (t : Int) (hr : Reachable size ttl c t) (now : Int) (m : Msg) (K : String)
    (hm : admittedKey m = some K) (hK : getLine c.lines K = none) :
    ∃ c1 evs, cacheRequests c now m = some (c1, evs) ∧ getLine c1.lines K ≠ none ∧
      ((c.lines.length : Int) = size →
        ∃ oldest, Back c.lruList = some oldest ∧ getLine c.lines oldest.Value ≠ none ∧
          getLine c1.lines oldest.Value = none ∧
          (∀ k, k ≠ oldest.Value → k ≠ K → getLine c1.lines k = getLine c.lines k) ∧
          c1.lruList = { id := c.nextElem, Value := K } :: c.lruList.dropLast) ∧
      ((c.lines.length : Int) < size →
        (∀ k, k ≠ K → getLine c1.lines k = getLine c.lines k) ∧
        c1.lruList = { id := c.nextElem, Value := K } :: c.lruList) := by
  obtain ⟨hc, _, _, hsz, _⟩ := hr.inv hs
  obtain ⟨c', cb, f, evs, had, hrun⟩ := admission_shape hc (by rw [hsz]; exact hs) now hm hK
  refine ⟨_, _, hrun, ?_, ?_, ?_⟩
  · rw [getLine_installed_self]
    simp
  · intro hfull
    rcases had with ⟨hlt, _, _⟩ | ⟨oldest, line, _, hb, hg, hid, h1, _⟩
    · rw [hsz] at hlt
      omega
    · have hne : oldest.Value ≠ K := by
        intro he
        rw [he, hK] at hg
        exact absurd hg (by simp)
      refine ⟨oldest, hb, by rw [hg]; simp, ?_, ?_, ?_⟩
      · rw [getLine_installed_ne _ _ _ _ hne, h1]
        exact getLine_deleteLine_self _ _
      · intro k hk1 hk2
        rw [getLine_installed_ne _ _ _ _ hk2, h1]
        exact getLine_deleteLine_ne _ hk1
      · rw [lruList_installed, h1]
        simp only [dropLine]
        rw [hid, Remove_back hc.idsNodup hb]
  · intro hlt
    rcases had with ⟨_, h1, _⟩ | ⟨oldest, line, hge, _, _, _, _, _⟩
    · refine ⟨?_, ?_⟩
      · intro k hk
        rw [getLine_installed_ne _ _ _ _ hk, h1]
      · rw [lruList_installed, h1]
    · rw [hsz] at hge
      omega

/-- Witness of C16: a lookup of "z" in the state after `evictTrace`, which
holds two lines at capacity 2. -/
theorem admission_evicts_exactly_the_tail_witness :
    ∃ c1 evs, cacheRequests evictExample 5 (Msg.lookupSync { key := "z", resCh := 4 })
        = some (c1, evs) ∧ getLine c1.lines "z" ≠ none ∧
      ((evictExample.lines.length : Int) = 2 →
        ∃ oldest, Back evictExample.lruList = some oldest ∧
          getLine evictExample.lines oldest.Value ≠ none ∧
          getLine c1.lines oldest.Value = none ∧
          (∀ k, k ≠ oldest.Value → k ≠ "z" →
            getLine c1.lines k = getLine evictExample.lines k) ∧
          c1.lruList = { id := evictExample.nextElem, Value := "z" }
            :: evictExample.lruList.dropLast) ∧
      ((evictExample.lines.length : Int) < 2 →
        (∀ k, k ≠ "z" → getLine c1.lines k = getLine evictExample.lines k) ∧
        c1.lruList = { id := evictExample.nextElem, Value := "z" }
          :: evictExample.lruList) :=
  admission_evicts_exactly_the_tail 2 20 (by decide) evictExample 4 evictExample_reachable 5
    (Msg.lookupSync { key := "z", resCh := 4 }) "z" rfl rfl

/-! ## Claim C17 -/

theorem values_nodup {c : Cache} (hc : Consistent c) :
    (c.lruList.map Element.Value).Nodup := by
  refine List.Nodup.map_on ?_ (List.Nodup.of_map _ hc.idsNodup)
  intro x hx y hy hxy
  obtain ⟨l1, h1, h2⟩ := hc.owner x hx
  obtain ⟨l2, h3, h4⟩ := hc.owner y hy
  rw [hxy, h3] at h1
  injection h1 with h1
  rw [h1] at h4
  exact eq_of_id_eq hc.idsNodup hx hy (h2.symm.trans h4)

theorem values_perm_keys {c : Cache} (hc : Consistent c) :
    (c.lruList.map Element.Value).Perm (c.lines.map Prod.fst) := by
  rw [List.perm_ext_iff_of_nodup (values_nodup hc) hc.keysNodup]
  intro k
  constructor
  · intro hk
    obtain ⟨el, hel, hv⟩ := List.mem_map.mp hk
    obtain ⟨ln, h1, _⟩ := hc.owner el hel
    rw [hv] at h1
    exact List.mem_map.mpr ⟨(k, ln), getLine_mem h1, rfl⟩
  · intro hk
    obtain ⟨p, hp, hv⟩ := List.mem_map.mp hk
    have hg := getLine_of_mem hc.keysNodup hp
    have := hc.handle p.1 p.2 hg
    rw [← hv]
    exact List.mem_map.mpr ⟨_, this, rfl⟩

theorem find_handle {c : Cache} (hc : Consistent c) {k : String} {ln : Line}
    (hg : getLine c.lines k = some ln) :
    c.lruList.find? (fun x => decide (x.id = ln.lruEntry))
      = some { id := ln.lruEntry, Value := k } := by
  have hel := hc.handle k ln hg
  cases hf : c.lruList.find? (fun x => decide (x.id = ln.lruEntry)) with
  | none =>
    rw [List.find?_eq_none] at hf
    have := hf _ hel
    simp at this
  | some x =>
    have hxm : x ∈ c.lruList := List.mem_of_find?_eq_some hf
    have hxid : x.id = ln.lruEntry := by simpa using List.find?_some hf
    rw [eq_of_id_eq hc.idsNodup hxm hel hxid]

/-- Claim C17: recency list and line map are consistent.  In every state the
dispatcher reaches from `New size ttl` with `size` at least 1, that is after
every message, the values of the recency list are exactly the keys of the
line map (one list is a rearrangement of the other), no key occurs twice in
either, and the `lruEntry` of every line is the one element of the list with
that identity, which holds the key of the line. -/
theorem recency_matches_lines (size ttl : Int) (hs : 1 ≤ size) (c : Cache) (t : Int)
    (hr : Reachable size ttl c t) :
    (c.lruList.map Element.Value).Perm (c.lines.map Prod.fst) ∧
      (c.lruList.map Element.Value).Nodup ∧ (c.lines.map Prod.fst).Nodup ∧
      (c.lruList.map Element.id).Nodup ∧
      ∀ k ln, getLine c.lines k = some ln →
        c.lruList.find? (fun x => decide (x.id = ln.lruEntry))
          = some { id := ln.lruEntry, Value := k } := by
  obtain ⟨hc, _, _, _, _⟩ := hr.inv hs
  exact ⟨values_perm_keys hc, values_nodup hc, hc.keysNodup, hc.idsNodup,
    fun k ln hg => find_handle hc hg⟩

/-- Witness of C17: the state after `evictTrace`. -/
theorem recency_matches_lines_witness :
    (evictExample.lruList.map Element.Value).Perm (evictExample.lines.map Prod.fst) ∧
      (evictExample.lruList.map Element.Value).Nodup ∧
      (evictExample.lines.map Prod.fst).Nodup ∧
      (evictExample.lruList.map Element.id).Nodup ∧
      ∀ k ln, getLine evictExample.lines k = some ln →
        evictExample.lruList.find? (fun x => decide (x.id = ln.lruEntry))
          = some { id := ln.lruEntry, Value := k } :=
  recency_matches_lines 2 20 (by decide) evictExample 4 evictExample_reachable

/-! ## Claim C18 -/

/-- Claim C18, the code at the failing input.  After `Get("a")` by caller 1
and the `Put` of the loaded entry, the line of "a" holds the payload and is
not a placeholder, and its `waiting` still lists caller 1; a `putEntry` for
"a" in that state sends caller 1 a result again.  In `repliedTwiceTrace`,
where `getRequests` answers every load once and in order, the line of "a" is
resolved with caller 4 in `waiting` after the first answer, and the last
message, the second answer for "a", sends caller 4 a second result. -/
theorem resolved_line_keeps_its_waiters :
    (run (New 2 20) getPutTrace).map (fun r => getLine r.1.lines "a")
        = some (some { payload := some (passLoader "a"), empty := false, waiting := [1],
                       lruEntry := 0, lastUse := 0 }) ∧
      ((run (New 2 20) getPutTrace).bind (fun r => putEntry r.1 2 (passLoader "a"))).map
          (fun r => repliesOf r.2)
        = some [(1, some (passLoader "a"), true)] ∧
      (run (New 2 20) (repliedTwiceTrace.take 5)).map
          (fun r => (getLine r.1.lines "a").map (fun ln => (ln.empty, ln.waiting)))
        = some (some (false, [4])) ∧
      ((run (New 2 20) (repliedTwiceTrace.take 8)).bind
          (fun r => cacheRequests r.1 8 (Msg.put { key := "a", value := "pass" }))).map
          (fun r => (repliesOf r.2).map Prod.fst)
        = some [4] :=
  ⟨rfl, rfl, rfl, rfl⟩

/-! ## Claim C19 -/

theorem timeout_exact {c : Cache} (hc : Consistent c) (ho : Ordered c) (now : Int) :
    ∃ c1 evs, timeout c now = some (c1, evs) ∧ Consistent c1 ∧
      (∀ k ln, getLine c.lines k = some ln → ln.lastUse < now - c.ttl →
        getLine c1.lines k = none) ∧
      (∀ k ln, getLine c.lines k = some ln → ¬ ln.lastUse < now - c.ttl →
        getLine c1.lines k = some ln) := by
  obtain ⟨c1, evs, hrun, hc1, _, _, _, hshr, hsub, _, hstale, hback, _, _, _⟩ :=
    timeout_spec hc now
  have ho1 : Ordered c1 := ordered_shrink ho hsub (lastUseOf_shrink hshr)
  refine ⟨c1, evs, hrun, hc1, ?_, ?_⟩
  · intro k ln hg hst
    cases h1 : getLine c1.lines k with
    | none => rfl
    | some l1 =>
      have h2 := hshr k l1 h1
      rw [hg] at h2
      injection h2 with h2
      rw [← h2] at h1
      exact absurd hst (all_fresh_of_back_fresh hc1 ho1 hback h1)
  · intro k ln hg hfr
    cases h1 : getLine c1.lines k with
    | none => exact absurd (hstale k ln hg h1) hfr
    | some l1 =>
      have h2 := hshr k l1 h1
      rw [hg] at h2
      injection h2 with h2
      rw [h2]

/-- Claim C19, refuted as stated: on a cache of capacity 2 and ttl 2, the
line of "a" is pending with waiter 1 after `Get("a")` at time 0, and the
sweep at time 3, the second message of `sweptPendingTrace`, removes it. -/
theorem sweep_keeps_pending_lines_counterexample :
    (run (New 2 2) (sweptPendingTrace.take 1)).map
        (fun r => (isPending r.1 "a", (getLine r.1.lines "a").map Line.waiting))
        = some (true, some [1]) ∧
      (run (New 2 2) (sweptPendingTrace.take 2)).map (fun r => getLine r.1.lines "a")
        = some none :=
  ⟨rfl, rfl⟩

/-- Claim C19, amended: the TTL sweep keeps every pending line that is not
stale.  In every state reached from `New size ttl` with `size` at least 1,
and for every sweep time `now`, `timeout` completes; every pending line whose
`lastUse` is not before `now - ttl` is present afterwards as it was, with the
same waiters, and a pending line whose `lastUse` is before `now - ttl` is
removed, like a resolved one. -/
theorem sweep_keeps_fresh_pending_lines (size ttl : Int) (hs : 1 ≤ size) (c : Cache)
    (t : Int) (hr : Reachable size ttl c t) (now : Int) :
    ∃ c1 evs, timeout c now = some (c1, evs) ∧
      ∀ k ln, getLine c.lines k = some ln → ln.empty = true →
        (¬ ln.lastUse < now - c.ttl → getLine c1.lines k = some ln) ∧
        (ln.lastUse < now - c.ttl → getLine c1.lines k = none) := by
  obtain ⟨hc, ho, _, _, _⟩ := hr.inv hs
  obtain ⟨c1, evs, hrun, _, hgone, hkept⟩ := timeout_exact hc ho now
  exact ⟨c1, evs, hrun, fun k ln hg _ => ⟨hkept k ln hg, hgone k ln hg⟩⟩

/-- Witness of C19 amended: the cache of capacity 2 and ttl 20 with the
pending line of "a", swept at time 10. -/
theorem sweep_keeps_fresh_pending_lines_witness :
    ∃ c1 evs, timeout pendingExample 10 = some (c1, evs) ∧
      ∀ k ln, getLine pendingExample.lines k = some ln → ln.empty = true →
        (¬ ln.lastUse < 10 - pendingExample.ttl → getLine c1.lines k = some ln) ∧
        (ln.lastUse < 10 - pendingExample.ttl → getLine c1.lines k = none) :=
  sweep_keeps_fresh_pending_lines 2 20 (by decide) pendingExample 1
    (Reachable.step 1 (Msg.lookupSync { key := "a", resCh := 5 }) pendingExample []
      (Reachable.step 0 (Msg.lookupSync { key := "a", resCh := 4 })
        (installed (New 2 20) 0 "a" (addWaiter 4)) [Event.getCh "a"]
        (Reachable.init 0) (le_refl 0) rfl)
      (by decide) rfl) 10

/-! ## Claim C20 -/

theorem keepsResolved_of_shrinks {c c1 : Cache}
    (h : ∀ k ln, getLine c1.lines k = some ln → getLine c.lines k = some ln) :
    KeepsResolved c c1 := by
  intro K ln ln1 hg hg1
  have := h K ln1 hg1
  rw [hg] at this
  injection this with this
  rw [this]
  exact ⟨fun x => x, fun x => x⟩

theorem keepsResolved_modify (c : Cache) (k : String) (f : Line → Line)
    (hf1 : ∀ ln, ln.empty = false → (f ln).empty = false)
    (hf2 : ∀ ln, ln.payload ≠ none → (f ln).payload ≠ none) :
    KeepsResolved c { c with lines := modifyLine c.lines k f } := by
  intro K ln ln1 hg hg1
  simp only at hg1
  by_cases he : K = k
  · rw [he, getLine_modifyLine_self] at hg1
    rw [he] at hg
    rw [hg] at hg1
    simp only [Option.map_some', Option.some.injEq] at hg1
    rw [← hg1]
    exact ⟨hf1 ln, hf2 ln⟩
  · rw [getLine_modifyLine_ne _ _ he, hg] at hg1
    injection hg1 with hg1
    rw [← hg1]
    exact ⟨fun x => x, fun x => x⟩

theorem keepsResolved_installed {c c1 : Cache} {cb : List Event} (had : Admit c c1 cb)
    (now : Int) {k : String} (f : Line → Line) (hk : getLine c.lines k = none) :
    KeepsResolved c (installed c1 now k f) := by
  intro K ln ln1 hg hg1
  have hne : K ≠ k := by
    intro he
    rw [he, hk] at hg
    exact absurd hg (by simp)
  rw [getLine_installed_ne _ _ _ _ hne] at hg1
  have := had.shrinks K ln1 hg1
  rw [hg] at this
  injection this with this
  rw [this]
  exact ⟨fun x => x, fun x => x⟩

/-- Every dispatcher step completes in a consistent cache of capacity at
least 1. -/
theorem step_total {c : Cache} (hc : Consistent c) (hs : 1 ≤ c.size) (now : Int) (m : Msg) :
    ∃ c1 evs, cacheRequests c now m = some (c1, evs) := by
  cases m with
  | lookupSync l =>
    cases hg : getLine c.lines l.key with
    | none =>
      obtain ⟨c', cb, _, hrun⟩ := syncLookup_absent hc hs now l hg
      exact ⟨_, _, hrun⟩
    | some ln =>
      by_cases he : ln.empty = true
      · exact ⟨_, _, syncLookup_pending now l hg he⟩
      · exact ⟨_, _, syncLookup_resolved now l hg (by simpa using he)⟩
  | lookupAsync l =>
    cases hg : getLine c.lines l.key with
    | none =>
      obtain ⟨c', cb, _, hrun⟩ := asyncLookup_absent hc hs now l hg
      exact ⟨_, _, hrun⟩
    | some ln =>
      by_cases he : ln.empty = true
      · exact ⟨_, _, asyncLookup_pending now l hg he⟩
      · exact ⟨_, _, asyncLookup_resolved now l hg (by simpa using he)⟩
  | put e =>
    cases hg : getLine c.lines e.Key with
    | none =>
      obtain ⟨c', cb, _, hrun⟩ := putEntry_absent hc hs now e hg
      exact ⟨_, _, hrun⟩
    | some ln => exact ⟨_, _, putEntry_present now e hg⟩
  | createCh cr =>
    cases hg : getLine c.lines cr.entry.Key with
    | none =>
      obtain ⟨c', cb, _, hrun⟩ := createEntry_absent_shape hc hs now cr.entry hg
      exact ⟨installed c' now cr.entry.Key (store cr.entry),
        cb ++ [Event.created cr.resCh true], by
        simp only [cacheRequests, hrun, Option.map_some']⟩
    | some ln =>
      exact ⟨c, [] ++ [Event.created cr.resCh false], by
        simp only [cacheRequests, createEntry_present now cr.entry hg, Option.map_some']⟩
  | notFound k =>
    cases hg : getLine c.lines k with
    | none => exact ⟨c, [], by simp only [cacheRequests, keyNotFound, hg]⟩
    | some ln => exact ⟨_, _, keyNotFound_present k hg⟩
  | ttlPoll =>
    obtain ⟨c1, evs1, hrun, _⟩ := timeout_spec hc now
    exact ⟨c1, evs1, hrun⟩

/-- Claim C20: a resolved line never returns to pending.  In a consistent
cache of capacity at least 1 every dispatcher step completes, and for every
key whose line holds a payload before the step (it is not a placeholder) and
that still has a line after the step, that line holds a payload after the
step: it is not a placeholder, and its payload is not nil if it was not nil
before. -/
theorem resolved_line_stays_resolved (c : Cache) (hc : Consistent c) (hs : 1 ≤ c.size)
    (now : Int) (m : Msg) :
    ∃ c1 evs, cacheRequests c now m = some (c1, evs) ∧
      ∀ K ln ln1, getLine c.lines K = some ln → getLine c1.lines K = some ln1 →
        (ln.empty = false → ln1.empty = false) ∧
        (ln.payload ≠ none → ln1.payload ≠ none) := by
  obtain ⟨c1, evs, hrun⟩ := step_total hc hs now m
  refine ⟨c1, evs, hrun, ?_⟩
  cases m with
  | lookupSync l =>
    cases hg : getLine c.lines l.key with
    | none =>
      obtain ⟨c', cb, had, hrun2⟩ := syncLookup_absent hc hs now l hg
      simp only [cacheRequests, hrun2, Option.some.injEq, Prod.mk.injEq] at hrun
      rw [← hrun.1]
      exact keepsResolved_installed had now _ hg
    | some ln =>
      by_cases he : ln.empty = true
      · simp only [cacheRequests, syncLookup_pending now l hg he, Option.some.injEq,
          Prod.mk.injEq] at hrun
        rw [← hrun.1]
        exact keepsResolved_modify c l.key _ (fun _ h => h) (fun _ h => h)
      · have he2 : ln.empty = false := by simpa using he
        simp only [cacheRequests, syncLookup_resolved now l hg he2, Option.some.injEq,
          Prod.mk.injEq] at hrun
        rw [← hrun.1]
        exact keepsResolved_modify c l.key (fun ln => { ln with lastUse := now })
          (fun _ h => h) (fun _ h => h)
  | lookupAsync l =>
    cases hg : getLine c.lines l.key with
    | none =>
      obtain ⟨c', cb, had, hrun2⟩ := asyncLookup_absent hc hs now l hg
      simp only [cacheRequests, hrun2, Option.some.injEq, Prod.mk.injEq] at hrun
      rw [← hrun.1, ← installed_id]
      exact keepsResolved_installed had now _ hg
    | some ln =>
      by_cases he : ln.empty = true
      · simp only [cacheRequests, asyncLookup_pending now l hg he, Option.some.injEq,
          Prod.mk.injEq] at hrun
        rw [← hrun.1]
        exact keepsResolved_of_shrinks (fun _ _ h => h)
      · have he2 : ln.empty = false := by simpa using he
        simp only [cacheRequests, asyncLookup_resolved now l hg he2, Option.some.injEq,
          Prod.mk.injEq] at hrun
        rw [← hrun.1]
        exact keepsResolved_modify c l.key (fun ln => { ln with lastUse := now })
          (fun _ h => h) (fun _ h => h)
  | put e =>
    cases hg : getLine c.lines e.Key with
    | none =>
      obtain ⟨c', cb, had, hrun2⟩ := putEntry_absent hc hs now e hg
      simp only [cacheRequests, hrun2, Option.some.injEq, Prod.mk.injEq] at hrun
      rw [← hrun.1]
      exact keepsResolved_installed had now _ hg
    | some ln =>
      simp only [cacheRequests, putEntry_present now e hg, Option.some.injEq,
        Prod.mk.injEq] at hrun
      rw [← hrun.1]
      exact keepsResolved_modify c e.Key _ (fun _ _ => rfl) (fun _ _ => by simp)
  | createCh cr =>
    cases hg : getLine c.lines cr.entry.Key with
    | none =>
      obtain ⟨c', cb, had, hrun2⟩ := createEntry_absent_shape hc hs now cr.entry hg
      simp only [cacheRequests, hrun2, Option.map_some', Option.some.injEq,
        Prod.mk.injEq] at hrun
      rw [← hrun.1]
      exact keepsResolved_installed had now _ hg
    | some ln =>
      simp only [cacheRequests, createEntry_present now cr.entry hg, Option.map_some',
        Option.some.injEq, Prod.mk.injEq] at hrun
      rw [← hrun.1]
      exact keepsResolved_of_shrinks (fun _ _ h => h)
  | notFound k =>
    cases hg : getLine c.lines k with
    | none =>
      simp only [cacheRequests, keyNotFound, hg, Option.some.injEq, Prod.mk.injEq] at hrun
      rw [← hrun.1]
      exact keepsResolved_of_shrinks (fun _ _ h => h)
    | some ln =>
      simp only [cacheRequests, keyNotFound_present k hg, Option.some.injEq,
        Prod.mk.injEq] at hrun
      rw [← hrun.1]
      apply keepsResolved_of_shrinks
      intro k' l' hk'
      simp only [dropLine] at hk'
      by_cases he : k' = k
      · rw [he, getLine_deleteLine_self] at hk'
        exact absurd hk' (by simp)
      · rw [getLine_deleteLine_ne _ he] at hk'
        exact hk'
  | ttlPoll =>
    obtain ⟨c', evs1, hrun2, _, _, _, _, hshr, _, _, _, _, _, _, _⟩ := timeout_spec hc now
    simp only [cacheRequests, hrun2, Option.some.injEq, Prod.mk.injEq] at hrun
    rw [← hrun.1]
    exact keepsResolved_of_shrinks hshr

/-- Witness of C20: an asynchronous lookup of "a" in the cache of capacity 1
that holds the resolved line of "a". -/
theorem resolved_line_stays_resolved_witness :
    ∃ c1 evs, cacheRequests resolvedExample 3 (Msg.lookupAsync { key := "a", resCh := 9 })
        = some (c1, evs) ∧
      ∀ K ln ln1, getLine resolvedExample.lines K = some ln →
        getLine c1.lines K = some ln1 →
        (ln.empty = false → ln1.empty = false) ∧
        (ln.payload ≠ none → ln1.payload ≠ none) :=
  resolved_line_stays_resolved resolvedExample resolvedExample_consistent (by decide) 3
    (Msg.lookupAsync { key := "a", resCh := 9 })

/-! ## Claim C21 -/

theorem getLine_modifyLine_eq_none (m : List (String × Line)) (k : String) (f : Line → Line)
    (K : String) : getLine (modifyLine m k f) K = none ↔ getLine m K = none := by
  rw [getLine_eq_none_iff, getLine_eq_none_iff, keys_modifyLine]

/-- A handler that finds the line of its key leaves every key with a line. -/
theorem present_keeps_keys {c c1 : Cache} {now : Int} {m : Msg} {evs : List Event}
    {k : String} {l : Line} (hm : admittedKey m = some k) (hk : getLine c.lines k = some l)
    (h : cacheRequests c now m = some (c1, evs)) (K : String) :
    getLine c1.lines K = none ↔ getLine c.lines K = none := by
  cases m with
  | lookupSync lk =>
    simp only [admittedKey, Option.some.injEq] at hm
    rw [← hm] at hk
    by_cases he : l.empty = true
    · simp only [cacheRequests, syncLookup_pending now lk hk he, Option.some.injEq,
        Prod.mk.injEq] at h
      rw [← h.1]
      simp only [updateLRU, getLine_modifyLine_eq_none]
    · simp only [cacheRequests, syncLookup_resolved now lk hk (by simpa using he),
        Option.some.injEq, Prod.mk.injEq] at h
      rw [← h.1]
      simp only [updateLRU, getLine_modifyLine_eq_none]
  | lookupAsync lk =>
    simp only [admittedKey, Option.some.injEq] at hm
    rw [← hm] at hk
    by_cases he : l.empty = true
    · simp only [cacheRequests, asyncLookup_pending now lk hk he, Option.some.injEq,
        Prod.mk.injEq] at h
      rw [← h.1]
    · simp only [cacheRequests, asyncLookup_resolved now lk hk (by simpa using he),
        Option.some.injEq, Prod.mk.injEq] at h
      rw [← h.1]
      simp only [updateLRU, getLine_modifyLine_eq_none]
  | put e =>
    simp only [admittedKey, Option.some.injEq] at hm
    rw [← hm] at hk
    simp only [cacheRequests, putEntry_present now e hk, Option.some.injEq,
      Prod.mk.injEq] at h
    rw [← h.1]
    simp only [updateLRU, getLine_modifyLine_eq_none]
  | createCh cr =>
    simp only [admittedKey, Option.some.injEq] at hm
    rw [← hm] at hk
    simp only [cacheRequests, createEntry_present now cr.entry hk, Option.map_some',
      Option.some.injEq, Prod.mk.injEq] at h
    rw [← h.1]
  | notFound k => simp [admittedKey] at hm
  | ttlPoll => simp [admittedKey] at hm

/-- Claim C21, refuted as stated: on a cache of capacity 1 the line of "a" is
resolved after `Get("a")` and the `Put` of its entry, and the `NotFound`
message for "a" that follows removes the line and its recency element and
sends a copy-back request with its payload; `keyNotFound` on the state
`resolvedExample` does the same. -/
theorem notFound_keeps_resolved_line_counterexample :
    (run (New 1 20) (notFoundTrace.take 2)).map (fun r => isResolved r.1 "a") = some true ∧
      (run (New 1 20) notFoundTrace).map
          (fun r => (r.1.lines.map Prod.fst, r.1.lruList, copyBacksOf r.2))
        = some ([], [], [some (passLoader "a")]) ∧
      isResolved resolvedExample "a" = true ∧
      keyNotFound resolvedExample "a" =
        some ({ resolvedExample with lines := [], lruList := [] },
              [Event.cpCh (some { key := "a", value := "pass" })]) := by
  decide

/-- Claim C21, amended: a resolved line leaves the cache only by capacity
eviction, by TTL expiry or by a `NotFound` message for its key.  In a
consistent cache of capacity at least 1 whose recency list is ordered by use,
a `NotFound` message for a key `K` whose line is resolved removes the line of
`K` and its recency element, sends one copy-back request with the payload of
the line and no reply, and leaves every other line as it was; and whenever a
dispatcher step leaves a key `K` without a line whose line was resolved
before, the message is `NotFound` for `K`, or it is a sweep and the line was
last used before `now - ttl`, or it asks for a line for a key without one
while the cache holds `size` lines or more and `K` is the key of the back
element of the recency list. -/
theorem resolved_line_leaves_by_eviction_expiry_or_notFound (c : Cache) (hc : Consistent c)
    (ho : Ordered c) (hs : 1 ≤ c.size) (K : String) (ln : Line)
    (hg : getLine c.lines K = some ln) (he : ln.empty = false) :
    (∃ c1, keyNotFound c K = some (c1, [Event.cpCh ln.payload]) ∧
      getLine c1.lines K = none ∧ (∀ el ∈ c1.lruList, el.Value ≠ K) ∧
      (∀ k2, k2 ≠ K → getLine c1.lines k2 = getLine c.lines k2) ∧
      (∀ el ∈ c.lruList, el.Value ≠ K → el ∈ c1.lruList) ∧ Consistent c1) ∧
    (∀ (now : Int) (m : Msg) (c1 : Cache) (evs : List Event),
      cacheRequests c now m = some (c1, evs) → getLine c1.lines K = none →
      m = Msg.notFound K ∨ (m = Msg.ttlPoll ∧ ln.lastUse < now - c.ttl) ∨
      (∃ k b, admittedKey m = some k ∧ getLine c.lines k = none ∧
        c.size ≤ (c.lines.length : Int) ∧ Back c.lruList = some b ∧ b.Value = K)) := by
  refine ⟨⟨dropLine c K ln, ?_, ?_, ?_, ?_, ?_, consistent_dropLine hc hg⟩, ?_⟩
  · rw [keyNotFound_present K hg]
    simp [he, copyBackOf]
  · simp only [dropLine]
    exact getLine_deleteLine_self _ _
  · intro el hel hv
    simp only [dropLine] at hel
    obtain ⟨hm, hid⟩ := mem_Remove.mp hel
    obtain ⟨l2, hl2, hid2⟩ := hc.owner el hm
    rw [hv, hg] at hl2
    injection hl2 with hl2
    rw [hl2] at hid
    exact hid hid2.symm
  · intro k2 hk2
    simp only [dropLine]
    exact getLine_deleteLine_ne _ hk2
  · intro el hel hv
    simp only [dropLine]
    refine mem_Remove.mpr ⟨hel, ?_⟩
    intro hid
    have h1 := hc.handle K ln hg
    have := eq_of_id_eq hc.idsNodup hel h1 hid
    rw [this] at hv
    exact hv rfl
  · intro now m c1 evs hrun hgone
    have hadm : ∀ k, admittedKey m = some k →
        ∃ k b, admittedKey m = some k ∧ getLine c.lines k = none ∧
          c.size ≤ (c.lines.length : Int) ∧ Back c.lruList = some b ∧ b.Value = K := by
      intro k hm
      cases hk : getLine c.lines k with
      | some l =>
        have := (present_keeps_keys hm hk hrun K).mp hgone
        rw [hg] at this
        exact absurd this (by simp)
      | none =>
        obtain ⟨cA, cb, f, evs2, had, hrun2⟩ := admission_shape hc hs now hm hk
        rw [hrun2] at hrun
        simp only [Option.some.injEq, Prod.mk.injEq] at hrun
        rw [← hrun.1] at hgone
        have hne : K ≠ k := by
          intro heq
          rw [heq, hk] at hg
          exact absurd hg (by simp)
        rw [getLine_installed_ne _ _ _ _ hne] at hgone
        rcases had with ⟨_, h1, _⟩ | ⟨oldest, line, hfull, hb, _, _, h1, _⟩
        · rw [h1, hg] at hgone
          exact absurd hgone (by simp)
        · refine ⟨k, oldest, hm, hk, hfull, hb, ?_⟩
          by_contra hne2
          rw [h1] at hgone
          simp only [dropLine] at hgone
          rw [getLine_deleteLine_ne _ (Ne.symm hne2), hg] at hgone
          exact absurd hgone (by simp)
    cases m with
    | lookupSync l => exact Or.inr (Or.inr (hadm l.key rfl))
    | lookupAsync l => exact Or.inr (Or.inr (hadm l.key rfl))
    | put e => exact Or.inr (Or.inr (hadm e.Key rfl))
    | createCh cr => exact Or.inr (Or.inr (hadm cr.entry.Key rfl))
    | notFound k =>
      left
      by_cases hk : k = K
      · rw [hk]
      · exfalso
        cases hl : getLine c.lines k with
        | none =>
          simp only [cacheRequests, keyNotFound, hl, Option.some.injEq, Prod.mk.injEq] at hrun
          rw [← hrun.1, hg] at hgone
          exact absurd hgone (by simp)
        | some l =>
          simp only [cacheRequests, keyNotFound_present k hl, Option.some.injEq,
            Prod.mk.injEq] at hrun
          rw [← hrun.1] at hgone
          simp only [dropLine] at hgone
          rw [getLine_deleteLine_ne _ (Ne.symm hk), hg] at hgone
          exact absurd hgone (by simp)
    | ttlPoll =>
      right; left
      refine ⟨rfl, ?_⟩
      obtain ⟨c2, evs2, hrun2, _, _, hkeep⟩ := timeout_exact hc ho now
      simp only [cacheRequests, hrun2, Option.some.injEq, Prod.mk.injEq] at hrun
      by_contra hfr
      have := hkeep K ln hg hfr
      rw [hrun.1, hgone] at this
      exact absurd this (by simp)

/-- Witness of C21 amended: the state `resolvedExample`, in which the line of
"a" is resolved. -/
theorem resolved_line_leaves_by_eviction_expiry_or_notFound_witness :
    (∃ c1, keyNotFound resolvedExample "a"
        = some (c1, [Event.cpCh (some { key := "a", value := "pass" })]) ∧
      getLine c1.lines "a" = none ∧ (∀ el ∈ c1.lruList, el.Value ≠ "a") ∧
      (∀ k2, k2 ≠ "a" → getLine c1.lines k2 = getLine resolvedExample.lines k2) ∧
      (∀ el ∈ resolvedExample.lruList, el.Value ≠ "a" → el ∈ c1.lruList) ∧ Consistent c1) ∧
    (∀ (now : Int) (m : Msg) (c1 : Cache) (evs : List Event),
      cacheRequests resolvedExample now m = some (c1, evs) → getLine c1.lines "a" = none →
      m = Msg.notFound "a" ∨ (m = Msg.ttlPoll ∧ (0 : Int) < now - resolvedExample.ttl) ∨
      (∃ k b, admittedKey m = some k ∧ getLine resolvedExample.lines k = none ∧
        resolvedExample.size ≤ (resolvedExample.lines.length : Int) ∧
        Back resolvedExample.lruList = some b ∧ b.Value = "a")) :=
  resolved_line_leaves_by_eviction_expiry_or_notFound resolvedExample
    resolvedExample_consistent (by simp [Ordered, resolvedExample]) (by decide) "a"
    { payload := some { key := "a", value := "pass" }, empty := false, waiting := [],
      lruEntry := 0, lastUse := 0 } rfl rfl

/-! ## Claim C22 -/

/-- Claim C22, refuted as stated: on a cache of capacity 2 the line of "a" is
made at time 0; the `Put` for "a" handled at time 5 stores the new value and
leaves the `lastUse` of the line at 0, whereas a lookup hit handled at time 5
instead sets it to 5. -/
theorem put_refreshes_lastUse_counterexample :
    (run (New 2 20) putAgainTrace).map
        (fun r => (getLine r.1.lines "a").map (fun ln => (ln.payload, ln.lastUse)))
      = some (some (some { key := "a", value := "new" }, 0)) ∧
    (run (New 2 20) (putAgainTrace.take 2 ++ [(5, Msg.lookupSync { key := "a", resCh := 2 })])).map
        (fun r => lastUseOf r.1.lines "a")
      = some (some 5) := by
  decide

/-- Claim C22, amended: `lastUse` is set when a line is made and refreshed by
every lookup hit, not by a write to a line that exists.  In a consistent cache
of capacity at least 1, a synchronous or asynchronous lookup handled at time
`now` that finds a resolved line sets the `lastUse` of that line to `now`; a
Put handled at time `now` on a key whose line already exists stores the entry
and leaves the `lastUse` of the line and the recency list as they were; a Put
on a key without a line makes the line with `lastUse` equal to `now`. -/
theorem lastUse_set_by_lookup_hit_and_new_line (c : Cache) (hc : Consistent c)
    (hs : 1 ≤ c.size) (now : Int) :
    (∀ (l : Lookup) (ln : Line), getLine c.lines l.key = some ln → ln.empty = false →
      (∃ c1 evs, syncLookup c now l = some (c1, evs) ∧
        getLine c1.lines l.key = some { ln with lastUse := now }) ∧
      (∃ c1 evs, asyncLookup c now l = some (c1, evs) ∧
        getLine c1.lines l.key = some { ln with lastUse := now })) ∧
    (∀ (e : Entry) (ln : Line), getLine c.lines e.Key = some ln →
      ∃ c1 evs, putEntry c now e = some (c1, evs) ∧
        getLine c1.lines e.Key = some { ln with payload := some e, empty := false } ∧
        lastUseOf c1.lines e.Key = some ln.lastUse ∧ c1.lruList = c.lruList) ∧
    (∀ (e : Entry), getLine c.lines e.Key = none →
      ∃ c1 evs, putEntry c now e = some (c1, evs) ∧
        lastUseOf c1.lines e.Key = some now) := by
  refine ⟨?_, ?_, ?_⟩
  · intro l ln hg he
    exact ⟨⟨_, _, syncLookup_resolved now l hg he, getLine_updateLRU_self now l.key ln hg⟩,
      ⟨_, _, asyncLookup_resolved now l hg he, getLine_updateLRU_self now l.key ln hg⟩⟩
  · intro e ln hg
    refine ⟨_, _, putEntry_present now e hg, ?_, ?_, rfl⟩
    · simp only []
      rw [getLine_modifyLine_self, hg]
      rfl
    · simp only [lastUseOf]
      rw [getLine_modifyLine_self, hg]
      rfl
  · intro e hg
    obtain ⟨c1, cb, _, hrun⟩ := putEntry_absent hc hs now e hg
    refine ⟨_, _, hrun, ?_⟩
    rw [lastUseOf, getLine_installed_self]
    rfl

/-- Witness of C22 amended: the state `resolvedExample` at time 7. -/
theorem lastUse_set_by_lookup_hit_and_new_line_witness :
    (∀ (l : Lookup) (ln : Line), getLine resolvedExample.lines l.key = some ln →
      ln.empty = false →
      (∃ c1 evs, syncLookup resolvedExample 7 l = some (c1, evs) ∧
        getLine c1.lines l.key = some { ln with lastUse := 7 }) ∧
      (∃ c1 evs, asyncLookup resolvedExample 7 l = some (c1, evs) ∧
        getLine c1.lines l.key = some { ln with lastUse := 7 })) ∧
    (∀ (e : Entry) (ln : Line), getLine resolvedExample.lines e.Key = some ln →
      ∃ c1 evs, putEntry resolvedExample 7 e = some (c1, evs) ∧
        getLine c1.lines e.Key = some { ln with payload := some e, empty := false } ∧
        lastUseOf c1.lines e.Key = some ln.lastUse ∧ c1.lruList = resolvedExample.lruList) ∧
    (∀ (e : Entry), getLine resolvedExample.lines e.Key = none →
      ∃ c1 evs, putEntry resolvedExample 7 e = some (c1, evs) ∧
        lastUseOf c1.lines e.Key = some 7) :=
  lastUse_set_by_lookup_hit_and_new_line resolvedExample resolvedExample_consistent
    (by decide) 7

/-! ## Claim C23 -/

/-- Claim C23: recency is ordered by use.  In every state reached from
`New size ttl` with `size` at least 1 under a clock that does not go
backwards, the `lastUse` of the lines, read along the recency list from front
to back, does not increase; and for every limit, when the line of an element
of the recency list is fresh, so is the line of every element in front of it,
the elements that a sweep from the back reaches after it. -/
theorem recency_ordered_by_use (size ttl : Int) (hs : 1 ≤ size) (c : Cache) (t : Int)
    (hr : Reachable size ttl c t) :
    c.lruList.Pairwise (fun a b => ∀ la lb, getLine c.lines a.Value = some la →
      getLine c.lines b.Value = some lb → lb.lastUse ≤ la.lastUse) ∧
    (∀ el ∈ c.lruList, ∃ ln, getLine c.lines el.Value = some ln) ∧
    (∀ (limit : Int) (front back : List Element) (b : Element),
      c.lruList = front ++ b :: back → holdsFresh c limit b = true →
      ∀ a ∈ front, holdsFresh c limit a = true) := by
  obtain ⟨hc, ho, _, _, _⟩ := hr.inv hs
  have hp : c.lruList.Pairwise (fun a b => ∀ la lb, getLine c.lines a.Value = some la →
      getLine c.lines b.Value = some lb → lb.lastUse ≤ la.lastUse) := by
    refine List.Pairwise.imp ?_ ho
    intro a b h la lb hla hlb
    exact h la.lastUse lb.lastUse (lastUseOf_eq_some.mpr ⟨la, hla, rfl⟩)
      (lastUseOf_eq_some.mpr ⟨lb, hlb, rfl⟩)
  refine ⟨hp, ?_, ?_⟩
  · intro el hel
    obtain ⟨ln, hln, _⟩ := hc.owner el hel
    exact ⟨ln, hln⟩
  · intro limit front back b hsplit hb a ha
    rw [hsplit, List.pairwise_append] at hp
    have hab := hp.2.2 a ha b (List.mem_cons_self _ _)
    obtain ⟨la, hla, _⟩ := hc.owner a (by rw [hsplit]; exact List.mem_append_left _ ha)
    obtain ⟨lb, hlb, _⟩ := hc.owner b (by rw [hsplit]; simp)
    have := hab la lb hla hlb
    simp only [holdsFresh, hlb, isFresh, Bool.not_eq_true', decide_eq_false_iff_not] at hb
    simp only [holdsFresh, hla, isFresh, Bool.not_eq_true', decide_eq_false_iff_not]
    omega

/-- Witness of C23: the state after `evictTrace` on a cache of capacity 2. -/
theorem recency_ordered_by_use_witness :
    evictExample.lruList.Pairwise (fun a b => ∀ la lb,
      getLine evictExample.lines a.Value = some la →
      getLine evictExample.lines b.Value = some lb → lb.lastUse ≤ la.lastUse) ∧
    (∀ el ∈ evictExample.lruList, ∃ ln, getLine evictExample.lines el.Value = some ln) ∧
    (∀ (limit : Int) (front back : List Element) (b : Element),
      evictExample.lruList = front ++ b :: back → holdsFresh evictExample limit b = true →
      ∀ a ∈ front, holdsFresh evictExample limit a = true) :=
  recency_ordered_by_use 2 20 (by decide) evictExample 4 evictExample_reachable

/-! ## Claim C28 -/

theorem length_deleteLine_lt {m : List (String × Line)} {k : String} {ln : Line}
    (hg : getLine m k = some ln) : (deleteLine m k).length < m.length := by
  unfold deleteLine
  rw [List.length_filter_lt_length_iff_exists]
  exact ⟨(k, ln), getLine_mem hg, by simp⟩

/-- The loop of `timeout` ends in every state: each iteration removes a line
or an element of the recency list. -/
theorem timeoutLoop_total (limit : Int) : ∀ (fuel : Nat) (c : Cache) (evs : List Event),
    c.lines.length + c.lruList.length ≤ fuel →
    ∃ r, timeoutLoop fuel c limit evs = some r := by
  intro fuel
  induction fuel with
  | zero =>
    intro c evs h
    have hl : c.lruList = [] := List.length_eq_zero.mp (by omega)
    exact ⟨(c, evs), by simp [timeoutLoop, Back, hl]⟩
  | succ n ih =>
    intro c evs h
    cases hb : Back c.lruList with
    | none => exact ⟨(c, evs), by simp [timeoutLoop, hb]⟩
    | some lru =>
      have hmem : lru ∈ c.lruList := List.mem_of_getLast?_eq_some hb
      cases hg : getLine c.lines lru.Value with
      | none =>
        have hlt := length_Remove_lt hmem
        obtain ⟨r, hr⟩ := ih { c with lruList := Remove c.lruList lru.id } evs
          (by simp only []; omega)
        exact ⟨r, by simp only [timeoutLoop, hb, hg]; exact hr⟩
      | some line =>
        by_cases hst : line.lastUse < limit
        · have hlt := length_deleteLine_lt hg
          have hle : (Remove c.lruList line.lruEntry).length ≤ c.lruList.length :=
            List.length_filter_le _ _
          obtain ⟨r, hr⟩ := ih (dropLine c lru.Value line) (evs ++ copyBackOf line)
            (by simp only [dropLine]; omega)
          exact ⟨r, by simp only [timeoutLoop, hb, hg, if_pos hst, removeLine_eq hg]; exact hr⟩
        · exact ⟨(c, evs), by simp only [timeoutLoop, hb, hg, if_neg hst]⟩

/-- When the recency list holds the keys of the line map and there is a line,
the back element of the list exists and its key has a line. -/
theorem Back_of_holdsKeys {c : Cache} (hk : HoldsKeys c) (hne : c.lines ≠ []) :
    ∃ oldest line, Back c.lruList = some oldest ∧ getLine c.lines oldest.Value = some line := by
  obtain ⟨p, hp⟩ := List.exists_mem_of_ne_nil _ hne
  have h1 : p.1 ∈ c.lruList.map Element.Value := (hk p.1).mpr (List.mem_map_of_mem Prod.fst hp)
  obtain ⟨el, hel, _⟩ := List.mem_map.mp h1
  have hl : c.lruList ≠ [] := List.ne_nil_of_mem hel
  have hlast := List.getLast_mem hl
  have h2 : (c.lruList.getLast hl).Value ∈ c.lines.map Prod.fst :=
    (hk _).mp (List.mem_map_of_mem Element.Value hlast)
  cases hg : getLine c.lines (c.lruList.getLast hl).Value with
  | none => exact absurd h2 ((getLine_eq_none_iff _ _).mp hg)
  | some line => exact ⟨_, line, List.getLast?_eq_getLast _ hl, hg⟩

/-- Claim C28: the dispatcher never dereferences a missing line or list
element.  In every cache of capacity at least 1 whose recency list holds
exactly the keys of its line map, `newLine` and each of the handlers
`syncLookup`, `asyncLookup`, `putEntry`, `createEntry`, `keyNotFound` and
`timeout` completes, for every argument and clock reading.  When `newLine`
reaches `removeLRU`, that is when the cache holds `size` lines or more, the
recency list has a back element, the key of that element has a line, and
`removeLRU` and `removeLine` of that key complete; `removeLine` completes
exactly for the keys that have a line. -/
theorem handlers_complete (c : Cache) (hs : 1 ≤ c.size) (hk : HoldsKeys c) (now : Int) :
    (∀ k, ∃ r, newLine c now k = some r) ∧
    (∀ l, ∃ r, syncLookup c now l = some r) ∧
    (∀ l, ∃ r, asyncLookup c now l = some r) ∧
    (∀ e, ∃ r, putEntry c now e = some r) ∧
    (∀ e, ∃ r, createEntry c now e = some r) ∧
    (∀ k, ∃ r, keyNotFound c k = some r) ∧
    (∃ r, timeout c now = some r) ∧
    (c.size ≤ (c.lines.length : Int) →
      ∃ oldest line, Back c.lruList = some oldest ∧
        getLine c.lines oldest.Value = some line ∧
        removeLine c oldest.Value = some (dropLine c oldest.Value line, copyBackOf line) ∧
        removeLRU c = some (dropLine c oldest.Value line, copyBackOf line)) ∧
    (∀ k, (∃ r, removeLine c k = some r) ↔ ∃ line, getLine c.lines k = some line) := by
  have hfull : c.size ≤ (c.lines.length : Int) →
      ∃ oldest line, Back c.lruList = some oldest ∧
        getLine c.lines oldest.Value = some line ∧
        removeLine c oldest.Value = some (dropLine c oldest.Value line, copyBackOf line) ∧
        removeLRU c = some (dropLine c oldest.Value line, copyBackOf line) := by
    intro h
    have hne : c.lines ≠ [] := by
      intro h0
      rw [h0] at h
      simp at h
      omega
    obtain ⟨oldest, line, hb, hg⟩ := Back_of_holdsKeys hk hne
    refine ⟨oldest, line, hb, hg, removeLine_eq hg, ?_⟩
    unfold removeLRU
    rw [hb]
    exact removeLine_eq hg
  have hnew : ∀ k, ∃ r, newLine c now k = some r := by
    intro k
    by_cases h : c.size ≤ (c.lines.length : Int)
    · obtain ⟨oldest, line, _, _, _, hr⟩ := hfull h
      unfold newLine
      rw [if_pos (ge_iff_le.mpr h), hr]
      exact ⟨_, rfl⟩
    · exact ⟨_, newLine_of_lt now k (not_le.mp h)⟩
  refine ⟨hnew, ?_, ?_, ?_, ?_, ?_, ?_, hfull, ?_⟩
  · intro l
    cases hg : getLine c.lines l.key with
    | none =>
      obtain ⟨r, hr⟩ := hnew l.key
      exact ⟨_, by simp only [syncLookup, hg, hr, Option.map_some']; rfl⟩
    | some ln =>
      by_cases he : ln.empty = true
      · exact ⟨_, syncLookup_pending now l hg he⟩
      · exact ⟨_, syncLookup_resolved now l hg (by simpa using he)⟩
  · intro l
    cases hg : getLine c.lines l.key with
    | none =>
      obtain ⟨r, hr⟩ := hnew l.key
      exact ⟨_, by simp only [asyncLookup, hg, hr, Option.map_some']; rfl⟩
    | some ln =>
      by_cases he : ln.empty = true
      · exact ⟨_, asyncLookup_pending now l hg he⟩
      · exact ⟨_, asyncLookup_resolved now l hg (by simpa using he)⟩
  · intro e
    cases hg : getLine c.lines e.Key with
    | none =>
      obtain ⟨r, hr⟩ := hnew e.Key
      exact ⟨_, by simp only [putEntry, hg, hr, Option.map_some']; rfl⟩
    | some ln => exact ⟨_, putEntry_present now e hg⟩
  · intro e
    cases hg : getLine c.lines e.Key with
    | none =>
      obtain ⟨r, hr⟩ := hnew e.Key
      exact ⟨_, by simp only [createEntry, hg, hr, Option.map_some']; rfl⟩
    | some ln => exact ⟨_, createEntry_present now e hg⟩
  · intro k
    cases hg : getLine c.lines k with
    | none => exact ⟨(c, []), by simp only [keyNotFound, hg]⟩
    | some ln => exact ⟨_, keyNotFound_present k hg⟩
  · exact timeoutLoop_total (now - c.ttl) _ c [] (le_refl _)
  · intro k
    constructor
    · rintro ⟨r, hr⟩
      cases hg : getLine c.lines k with
      | none => simp [removeLine, hg] at hr
      | some line => exact ⟨line, rfl⟩
    · rintro ⟨line, hg⟩
      exact ⟨_, removeLine_eq hg⟩

/-- Witness of C28: a cache of capacity 1 whose recency list holds the key of
its one line, under a handle that is not the one of the line. -/
theorem handlers_complete_witness :
    (∀ k, ∃ r, newLine strayHandleExample 3 k = some r) ∧
    (∀ l, ∃ r, syncLookup strayHandleExample 3 l = some r) ∧
    (∀ l, ∃ r, asyncLookup strayHandleExample 3 l = some r) ∧
    (∀ e, ∃ r, putEntry strayHandleExample 3 e = some r) ∧
    (∀ e, ∃ r, createEntry strayHandleExample 3 e = some r) ∧
    (∀ k, ∃ r, keyNotFound strayHandleExample k = some r) ∧
    (∃ r, timeout strayHandleExample 3 = some r) ∧
    (strayHandleExample.size ≤ (strayHandleExample.lines.length : Int) →
      ∃ oldest line, Back strayHandleExample.lruList = some oldest ∧
        getLine strayHandleExample.lines oldest.Value = some line ∧
        removeLine strayHandleExample oldest.Value
          = some (dropLine strayHandleExample oldest.Value line, copyBackOf line) ∧
        removeLRU strayHandleExample
          = some (dropLine strayHandleExample oldest.Value line, copyBackOf line)) ∧
    (∀ k, (∃ r, removeLine strayHandleExample k = some r) ↔
      ∃ line, getLine strayHandleExample.lines k = some line) :=
  handlers_complete strayHandleExample (by decide) (by intro k; simp [strayHandleExample]) 3

/-! ## Claim C2 -/

/-- A message that makes a line for a key without one leaves that line with
`lastUse` the time of the message and its element at the front of the
recency list. -/
theorem admitted_line_is_most_recent {c : Cache} (hc : Consistent c) (hs : 1 ≤ c.size)
    (now : Int) {m : Msg} {K : String} (hm : admittedKey m = some K)
    (hK : getLine c.lines K = none) :
    ∃ c2 evs2 ln2, cacheRequests c now m = some (c2, evs2) ∧
      getLine c2.lines K = some ln2 ∧ ln2.lastUse = now ∧
      c2.lruList.head? = some { id := ln2.lruEntry, Value := K } := by
  cases m with
  | lookupSync l =>
    simp only [admittedKey, Option.some.injEq] at hm
    rw [← hm] at hK
    obtain ⟨c1, cb, _, hrun⟩ := syncLookup_absent hc hs now l hK
    rw [← hm]
    exact ⟨_, _, _, hrun, getLine_installed_self _ _ _ _, rfl, rfl⟩
  | lookupAsync l =>
    simp only [admittedKey, Option.some.injEq] at hm
    rw [← hm] at hK
    obtain ⟨c1, cb, _, hrun⟩ := asyncLookup_absent hc hs now l hK
    rw [← hm]
    have hself := getLine_installed_self c1 now l.key (fun ln => ln)
    rw [installed_id] at hself
    exact ⟨_, _, _, hrun, hself, rfl, rfl⟩
  | put e =>
    simp only [admittedKey, Option.some.injEq] at hm
    rw [← hm] at hK
    obtain ⟨c1, cb, _, hrun⟩ := putEntry_absent hc hs now e hK
    rw [← hm]
    exact ⟨_, _, _, hrun, getLine_installed_self _ _ _ _, rfl, rfl⟩
  | createCh cr =>
    simp only [admittedKey, Option.some.injEq] at hm
    rw [← hm] at hK
    obtain ⟨c1, cb, _, hrun⟩ := createEntry_absent_shape hc hs now cr.entry hK
    rw [← hm]
    refine ⟨installed c1 now cr.entry.Key (store cr.entry),
      cb ++ [Event.created cr.resCh true], _, ?_, getLine_installed_self _ _ _ _, rfl, rfl⟩
    simp only [cacheRequests, hrun, Option.map_some']
  | notFound k => simp [admittedKey] at hm
  | ttlPoll => simp [admittedKey] at hm

/-- A lookup hit takes the element of the line to the front of the recency
list. -/
theorem updateLRU_head {c : Cache} (hc : Consistent c) (now : Int) {k : String} {ln : Line}
    (hg : getLine c.lines k = some ln) :
    (updateLRU c now k ln).lruList.head? = some { id := ln.lruEntry, Value := k } := by
  have hel := hc.handle k ln hg
  cases hf : c.lruList.find? (fun x => decide (x.id = ln.lruEntry)) with
  | none =>
    rw [List.find?_eq_none] at hf
    have := hf _ hel
    simp at this
  | some x =>
    have hxm : x ∈ c.lruList := List.mem_of_find?_eq_some hf
    have hxid : x.id = ln.lruEntry := by simpa using List.find?_some hf
    have hxe := eq_of_id_eq hc.idsNodup hxm hel hxid
    simp only [updateLRU, MoveToFront, hf, List.head?_cons, hxe]

/-- Claim C7, amended: in every state reached from `New size ttl` with `size`
at least 1, when the state holds at least `size` lines, `newLine` for a key
without a line evicts the line of the back element of the recency list and no
other line, and the `lastUse` of the evicted line is the least among all
lines.  `lastUse` and the position in the recency list are set when a line is
made and on every lookup hit: a lookup, Put or Create for a key without a line
leaves the new line with `lastUse` the time of the message and its element at
the front of the list, and a synchronous or asynchronous lookup that finds a
resolved line sets its `lastUse` to the time of the hit and takes its element
to the front.  A Put on a line that exists leaves both as they are. -/
theorem eviction_takes_least_recently_used (size ttl : Int) (hs : 1 ≤ size) (c : Cache)
    (t : Int) (hr : Reachable size ttl c t) (now : Int) :
    (∀ (k : String), c.size ≤ (c.lines.length : Int) → getLine c.lines k = none →
      ∃ oldest line c1 evs, Back c.lruList = some oldest ∧
        getLine c.lines oldest.Value = some line ∧
        newLine c now k = some (c1, evs) ∧ getLine c1.lines oldest.Value = none ∧
        ∀ k2 ln2, getLine c.lines k2 = some ln2 →
          line.lastUse ≤ ln2.lastUse ∧
          (k2 ≠ oldest.Value → getLine c1.lines k2 = some ln2)) ∧
    (∀ (m : Msg) (K : String), admittedKey m = some K → getLine c.lines K = none →
      ∃ c2 evs2 ln2, cacheRequests c now m = some (c2, evs2) ∧
        getLine c2.lines K = some ln2 ∧ ln2.lastUse = now ∧
        c2.lruList.head? = some { id := ln2.lruEntry, Value := K }) ∧
    (∀ (l : Lookup) (ln : Line), getLine c.lines l.key = some ln → ln.empty = false →
      (∃ c2 evs2, syncLookup c now l = some (c2, evs2) ∧
        lastUseOf c2.lines l.key = some now ∧
        c2.lruList.head? = some { id := ln.lruEntry, Value := l.key }) ∧
      (∃ c2 evs2, asyncLookup c now l = some (c2, evs2) ∧
        lastUseOf c2.lines l.key = some now ∧
        c2.lruList.head? = some { id := ln.lruEntry, Value := l.key })) ∧
    (∀ (e : Entry) (ln : Line), getLine c.lines e.Key = some ln →
      ∃ c2 evs2, putEntry c now e = some (c2, evs2) ∧
        lastUseOf c2.lines e.Key = some ln.lastUse ∧ c2.lruList = c.lruList) := by
  obtain ⟨hc, ho, _, hsz, _⟩ := hr.inv hs
  have hs' : 1 ≤ c.size := by rw [hsz]; exact hs
  refine ⟨?_, ?_, ?_, ?_⟩
  · intro k hfull hk
    obtain ⟨oldest, line, hb, hg, _, hn⟩ := newLine_of_ge hc hs' now k hfull
    have hne : oldest.Value ≠ k := by
      intro he
      rw [he, hk] at hg
      exact absurd hg (by simp)
    refine ⟨oldest, line, _, _, hb, hg, hn, ?_, ?_⟩
    · simp only [pushLine, dropLine]
      rw [getLine_setLine_ne _ _ hne, getLine_deleteLine_self]
    · intro k2 ln2 hg2
      refine ⟨back_least hc ho hb hg hg2, ?_⟩
      intro hne2
      have hne3 : k2 ≠ k := by
        intro he
        rw [he, hk] at hg2
        exact absurd hg2 (by simp)
      simp only [pushLine, dropLine]
      rw [getLine_setLine_ne _ _ hne3, getLine_deleteLine_ne _ hne2]
      exact hg2
  · intro m K hm hK
    exact admitted_line_is_most_recent hc hs' now hm hK
  · intro l ln hg he
    have hlast : lastUseOf (updateLRU c now l.key ln).lines l.key = some now := by
      rw [lastUseOf, getLine_updateLRU_self now l.key ln hg]
      rfl
    exact ⟨⟨_, _, syncLookup_resolved now l hg he, hlast, updateLRU_head hc now hg⟩,
      ⟨_, _, asyncLookup_resolved now l hg he, hlast, updateLRU_head hc now hg⟩⟩
  · intro e ln hg
    refine ⟨_, _, putEntry_present now e hg, ?_, rfl⟩
    simp only [lastUseOf]
    rw [getLine_modifyLine_self, hg]
    rfl

/-- Witness of C7 amended: the state after `evictTrace`, which holds two
lines at capacity 2, at time 5. -/
theorem eviction_takes_least_recently_used_witness :
    (∀ (k : String), evictExample.size ≤ (evictExample.lines.length : Int) →
      getLine evictExample.lines k = none →
      ∃ oldest line c1 evs, Back evictExample.lruList = some oldest ∧
        getLine evictExample.lines oldest.Value = some line ∧
        newLine evictExample 5 k = some (c1, evs) ∧ getLine c1.lines oldest.Value = none ∧
        ∀ k2 ln2, getLine evictExample.lines k2 = some ln2 →
          line.lastUse ≤ ln2.lastUse ∧
          (k2 ≠ oldest.Value → getLine c1.lines k2 = some ln2)) ∧
    (∀ (m : Msg) (K : String), admittedKey m = some K → getLine evictExample.lines K = none →
      ∃ c2 evs2 ln2, cacheRequests evictExample 5 m = some (c2, evs2) ∧
        getLine c2.lines K = some ln2 ∧ ln2.lastUse = 5 ∧
        c2.lruList.head? = some { id := ln2.lruEntry, Value := K }) ∧
    (∀ (l : Lookup) (ln : Line), getLine evictExample.lines l.key = some ln →
      ln.empty = false →
      (∃ c2 evs2, syncLookup evictExample 5 l = some (c2, evs2) ∧
        lastUseOf c2.lines l.key = some 5 ∧
        c2.lruList.head? = some { id := ln.lruEntry, Value := l.key }) ∧
      (∃ c2 evs2, asyncLookup evictExample 5 l = some (c2, evs2) ∧
        lastUseOf c2.lines l.key = some 5 ∧
        c2.lruList.head? = some { id := ln.lruEntry, Value := l.key })) ∧
    (∀ (e : Entry) (ln : Line), getLine evictExample.lines e.Key = some ln →
      ∃ c2 evs2, putEntry evictExample 5 e = some (c2, evs2) ∧
        lastUseOf c2.lines e.Key = some ln.lastUse ∧ c2.lruList = evictExample.lruList) :=
  eviction_takes_least_recently_used 2 20 (by decide) evictExample 4
    evictExample_reachable 5

end BreadCache

namespace BreadNbc

/-! ## Claim C13 -/

theorem data_ne_nil_of_size {w : String} (h : ¬ w.utf8ByteSize < 2) : w.data ≠ [] := by
  intro hd
  apply h
  cases w with
  | mk d =>
    simp only at hd
    rw [hd]
    decide

theorem isNumber_eq_onlyNumberChars {w : String} (h : ¬ w.utf8ByteSize < 2) :
    isNumber w = onlyNumberChars w := by
  have hne := data_ne_nil_of_size h
  unfold isNumber onlyNumberChars
  cases hd : w.data with
  | nil => exact absurd hd hne
  | cons a rest => simp

theorem removePunctuation_eq (w : String) :
    removePunctuation w =
      if deletePunctuation w = "" then ("", false)
      else (cutTrailingStop (deletePunctuation w), true) := by
  unfold removePunctuation deletePunctuation cutTrailingStop
  simp only
  by_cases h0 : (w.data.filter (fun r => !punctuation.data.contains r)).length = 0
  · have hnil : w.data.filter (fun r => !punctuation.data.contains r) = [] :=
      List.length_eq_zero.mp h0
    rw [if_pos h0, hnil]
    rfl
  · have hne : w.data.filter (fun r => !punctuation.data.contains r) ≠ [] :=
      fun hh => h0 (by rw [hh]; rfl)
    have hs : (String.mk (w.data.filter (fun r => !punctuation.data.contains r)) = "") ↔
        False := by
      constructor
      · intro hh
        apply hne
        have := congrArg String.data hh
        simpa using this
      · exact False.elim
    rw [if_neg h0, if_neg (hs.mp)]
    by_cases hl : (w.data.filter (fun r => !punctuation.data.contains r)).getLast? = some '.'
    · rw [if_pos hl, if_pos hl]
    · rw [if_neg hl, if_neg hl]

theorem wordlistLoop_eq (upper lower : Char → Char) (words : List String) :
    ∀ ret : List String,
      wordlistLoop upper lower words ret =
        ret ++ (((words.filter (fun w => !decide (w.utf8ByteSize < 2))).filter
          (fun w => !decide (w.utf8ByteSize < 5 ∧ ToUpper upper w ≠ w))).filter
          (fun w => !onlyNumberChars w)).filterMap
            (fun w =>
              if deletePunctuation w = "" then none
              else some (ToLower lower (cutTrailingStop (deletePunctuation w)))) := by
  induction words with
  | nil =>
    intro ret
    simp [wordlistLoop]
  | cons w words ih =>
    intro ret
    unfold wordlistLoop
    by_cases h1 : w.utf8ByteSize < 2
    · rw [if_pos h1, ih, List.filter_cons_of_neg (by simp [h1])]
    · rw [if_neg h1, List.filter_cons_of_pos (by simp [h1])]
      by_cases h2 : w.utf8ByteSize < 5 ∧ ToUpper upper w ≠ w
      · rw [if_pos h2, ih, List.filter_cons_of_neg (by simp [h2])]
      · rw [if_neg h2, List.filter_cons_of_pos (by simp [h2]),
          isNumber_eq_onlyNumberChars h1]
        by_cases h3 : onlyNumberChars w = true
        · rw [if_pos h3, ih, List.filter_cons_of_neg (by simp [h3])]
        · rw [if_neg h3, List.filter_cons_of_pos (by simp [h3]), removePunctuation_eq,
            List.filterMap_cons]
          by_cases h4 : deletePunctuation w = ""
          · rw [if_pos h4, if_pos h4, if_neg (by simp), ih]
          · rw [if_neg h4, if_neg h4, if_pos rfl, ih, List.append_assoc]
            rfl

/-- Claim C13: `Wordlist(text)`, for any case mapping of the runes, is
exactly the result of splitting the text on single spaces, dropping in order
every token shorter than 2 bytes, every token shorter than 5 bytes that
differs from its upper-casing and every token made only of the characters
`0-9 $ , .`, then deleting the punctuation characters from each remaining
token, dropping it if nothing remains, cutting one trailing full stop and
lower-casing it.  With the case mapping of the ASCII letters, the word list
of "A car drives to the AA" is "drives", "aa". -/
theorem wordlist_is_the_filtered_tokens :
    (∀ (upper lower : Char → Char) (text : String),
      Wordlist upper lower text = WordlistSpec upper lower text) ∧
      Wordlist Char.toUpper Char.toLower "A car drives to the AA" = ["drives", "aa"] := by
  refine ⟨?_, rfl⟩
  intro upper lower text
  unfold Wordlist WordlistSpec
  rw [wordlistLoop_eq]
  rfl

/-! ## Claim C24 -/

/-- Claim C24, as the code behaves: `Wordlist` can yield the empty word.
`removePunctuation` tests for an empty word before it cuts the trailing full
stop, so the word `'.'`, which becomes `.` without its punctuation, comes
back as the empty word and still valid.  With the case mapping of the ASCII
letters the word list of "The '.' operator" holds the empty string. -/
theorem wordlist_yields_empty_word :
    removePunctuation "'.'" = ("", true) ∧
      Wordlist Char.toUpper Char.toLower "The '.' operator" = ["", "operator"] ∧
      Wordlist Char.toUpper Char.toLower "(.)" = [""] := by
  decide

/-! ## Claim C29 -/

theorem vocabGet_filter_ne (m : List (String × Int)) {w w2 : String} (h : w2 ≠ w) :
    vocabGet (m.filter (fun p => decide (p.1 ≠ w))) w2 = vocabGet m w2 := by
  induction m with
  | nil => rfl
  | cons p rest ih =>
    obtain ⟨k, v⟩ := p
    rw [List.filter_cons]
    by_cases hk : k = w
    · have h3 : k ≠ w2 := by rw [hk]; exact Ne.symm h
      have hd : decide ((k, v).1 ≠ w) = false := by simp [hk]
      rw [hd]
      simp only [Bool.false_eq_true, if_false, vocabGet, if_neg h3]
      exact ih
    · have hd : decide ((k, v).1 ≠ w) = true := by simp [hk]
      rw [hd, if_pos rfl]
      simp only [vocabGet]
      rw [ih]

theorem vocabGet_vocabSet (m : List (String × Int)) (w : String) (v : Int) (w2 : String) :
    vocabGet (vocabSet m w v) w2 = if w = w2 then v else vocabGet m w2 := by
  unfold vocabSet
  by_cases h : w = w2
  · simp [vocabGet, h]
  · simp only [vocabGet, if_neg h]
    exact vocabGet_filter_ne m (Ne.symm h)

theorem vocabGet_of_not_mem {m : List (String × Int)} {w : String}
    (h : w ∉ m.map Prod.fst) : vocabGet m w = 0 := by
  induction m with
  | nil => rfl
  | cons p rest ih =>
    obtain ⟨k, v⟩ := p
    simp only [List.map_cons, List.mem_cons, not_or] at h
    simp only [vocabGet, if_neg (Ne.symm h.1)]
    exact ih h.2

theorem keys_vocabSet_nodup {m : List (String × Int)} (w : String) (v : Int)
    (h : (m.map Prod.fst).Nodup) : ((vocabSet m w v).map Prod.fst).Nodup := by
  unfold vocabSet
  rw [List.map_cons, List.nodup_cons]
  refine ⟨?_, h.sublist ((List.filter_sublist m).map Prod.fst)⟩
  simp [List.mem_filter]

theorem sum_filter_ne {m : List (String × Int)} (w : String) (h : (m.map Prod.fst).Nodup) :
    ((m.filter (fun p => decide (p.1 ≠ w))).map Prod.snd).sum
      = (m.map Prod.snd).sum - vocabGet m w := by
  induction m with
  | nil => rfl
  | cons p rest ih =>
    obtain ⟨k, v⟩ := p
    rw [List.map_cons, List.nodup_cons] at h
    by_cases hk : k = w
    · have hnot : w ∉ rest.map Prod.fst := by rw [← hk]; exact h.1
      have h0 := vocabGet_of_not_mem hnot
      have := ih h.2
      rw [h0] at this
      simp only [List.filter_cons, hk, ne_eq, not_true_eq_false, decide_False,
        Bool.false_eq_true, if_false, List.map_cons, List.sum_cons, vocabGet, if_true]
      rw [this]
      omega
    · have := ih h.2
      simp only [List.filter_cons, hk, ne_eq, not_false_eq_true, decide_True, if_true,
        List.map_cons, List.sum_cons, vocabGet, if_false]
      rw [this]
      omega

theorem sum_vocabSet {m : List (String × Int)} (w : String) (v : Int)
    (h : (m.map Prod.fst).Nodup) :
    ((vocabSet m w v).map Prod.snd).sum = (m.map Prod.snd).sum - vocabGet m w + v := by
  unfold vocabSet
  rw [List.map_cons, List.sum_cons, sum_filter_ne w h]
  omega

theorem updateVocabulary_spec : ∀ (words : List String) (vocab : List (String × Int)),
    (vocab.map Prod.fst).Nodup →
    ((updateVocabulary vocab words).map Prod.fst).Nodup ∧
      ((updateVocabulary vocab words).map Prod.snd).sum
        = (vocab.map Prod.snd).sum + words.length ∧
      ∀ w, vocabGet (updateVocabulary vocab words) w = vocabGet vocab w + words.count w := by
  intro words
  induction words with
  | nil =>
    intro vocab h
    exact ⟨h, by simp [updateVocabulary], fun w => by simp [updateVocabulary]⟩
  | cons w0 rest ih =>
    intro vocab h
    obtain ⟨h1, h2, h3⟩ := ih (vocabSet vocab w0 (vocabGet vocab w0 + 1))
      (keys_vocabSet_nodup w0 _ h)
    refine ⟨h1, ?_, ?_⟩
    · simp only [updateVocabulary]
      rw [h2, sum_vocabSet w0 _ h]
      simp only [List.length_cons, Nat.cast_add, Nat.cast_one]
      omega
    · intro w
      simp only [updateVocabulary]
      rw [h3 w, vocabGet_vocabSet, List.count_cons]
      by_cases hw : w0 = w
      · simp [hw]
        omega
      · simp [hw]

theorem sum_map_set {α : Type} (f : α → Int) : ∀ (l : List α) (i : Nat) (a x : α),
    l[i]? = some a → ((l.set i x).map f).sum = (l.map f).sum - f a + f x := by
  intro l
  induction l with
  | nil => intro i a x h; simp at h
  | cons y rest ih =>
    intro i a x h
    cases i with
    | zero =>
      simp only [List.getElem?_cons_zero, Option.some.injEq] at h
      simp only [List.set_cons_zero, List.map_cons, List.sum_cons, h]
      omega
    | succ n =>
      simp only [List.getElem?_cons_succ] at h
      simp only [List.set_cons_succ, List.map_cons, List.sum_cons, ih n a x h]
      omega

theorem Train_spec {F : Type} {c : Classifier F} (hc : Counted c) (words : List String)
    (cls : Int) (h0 : 0 ≤ cls) (h1 : cls < c.Classes.length) :
    ∃ tc c1, c.Classes[cls.toNat]? = some tc ∧ Train c words cls = some c1 ∧
      c1.Classes = c.Classes.set cls.toNat
        { tc with Count := tc.Count + 1,
                  Vocabulary := updateVocabulary tc.Vocabulary words } ∧
      c1.Total = c.Total + 1 ∧ c1.Words = c.Words + words.length ∧ Counted c1 := by
  have hlt : cls.toNat < c.Classes.length := by omega
  have hget : c.Classes[cls.toNat]? = some c.Classes[cls.toNat] := List.getElem?_eq_getElem hlt
  have hmem : c.Classes[cls.toNat] ∈ c.Classes := List.getElem_mem hlt
  obtain ⟨k1, k2, _⟩ := updateVocabulary_spec words _ (hc.keys _ hmem)
  refine ⟨c.Classes[cls.toNat],
    { Classes := c.Classes.set cls.toNat
        { c.Classes[cls.toNat] with
          Count := c.Classes[cls.toNat].Count + 1,
          Vocabulary := updateVocabulary c.Classes[cls.toNat].Vocabulary words },
      Total := c.Total + 1, Words := c.Words + words.length },
    hget, ?_, rfl, rfl, rfl, ?_⟩
  · unfold Train
    rw [if_neg (not_lt.mpr h0), hget]
  · refine ⟨?_, ?_, ?_⟩
    · simp only []
      rw [sum_map_set Class.Count _ _ _ _ hget, hc.total]
      simp only []
      omega
    · simp only []
      rw [sum_map_set (fun cl : Class F => (cl.Vocabulary.map Prod.snd).sum) _ _ _ _ hget,
        hc.words]
      simp only []
      rw [k2]
      omega
    · intro cl hcl
      simp only [] at hcl
      rcases List.mem_or_eq_of_mem_set hcl with h | h
      · exact hc.keys cl h
      · rw [h]
        exact k1

theorem trainAll_spec {F : Type} : ∀ (calls : List (List String × Int)) (c : Classifier F),
    Counted c → (∀ p ∈ calls, 0 ≤ p.2 ∧ p.2 < c.Classes.length) →
    ∃ c1, trainAll c calls = some c1 ∧ Counted c1 ∧
      c1.Classes.length = c.Classes.length ∧ c1.Total = c.Total + calls.length := by
  intro calls
  induction calls with
  | nil => intro c hc _; exact ⟨c, rfl, hc, rfl, by simp⟩
  | cons p rest ih =>
    intro c hc hv
    obtain ⟨words, cls⟩ := p
    have hp := hv (words, cls) (List.mem_cons_self _ _)
    obtain ⟨tc, c1, _, hrun, hcl, htot, _, hc1⟩ := Train_spec hc words cls hp.1 hp.2
    have hlen : c1.Classes.length = c.Classes.length := by rw [hcl, List.length_set]
    obtain ⟨c2, hrun2, hc2, hlen2, htot2⟩ := ih c1 hc1 (by
      intro q hq
      rw [hlen]
      exact hv q (List.mem_cons_of_mem _ hq))
    refine ⟨c2, ?_, hc2, hlen2.trans hlen, ?_⟩
    · simp only [trainAll, hrun, hrun2]
    · rw [htot2, htot]
      simp only [List.length_cons, Nat.cast_add, Nat.cast_one]
      omega

/-- Claim C29: the counters of the classifier stay consistent under training.
For at least two priors, `New` builds a classifier, and every sequence of
`Train` calls with class indices from 0 to below the number of classes
completes.  In the classifier it leaves, `Total` is the sum of the `Count`
fields of the classes (and the number of calls), `Words` is the sum of all
vocabulary counts of all classes, and no vocabulary holds a word twice.  A
further `Train(words, cls)` with a valid index completes, raises the
vocabulary count of every word in class `cls` by the number of its
occurrences in `words`, raises `Count` of that class, `Total` by 1 and
`Words` by the length of `words`, and leaves every other class as it was. -/
theorem counters_consistent_under_training {F : Type} (fl : Floats F) (priors : List F)
    (calls : List (List String × Int)) (hp : 2 ≤ priors.length)
    (hv : ∀ p ∈ calls, 0 ≤ p.2 ∧ p.2 < priors.length) :
    ∃ c0 c, New fl priors = some c0 ∧ trainAll c0 calls = some c ∧
      c.Classes.length = priors.length ∧
      c.Total = (c.Classes.map Class.Count).sum ∧ c.Total = calls.length ∧
      c.Words = (c.Classes.map (fun cl => (cl.Vocabulary.map Prod.snd).sum)).sum ∧
      (∀ cl ∈ c.Classes, (cl.Vocabulary.map Prod.fst).Nodup) ∧
      ∀ (words : List String) (cls : Int), 0 ≤ cls → cls < priors.length →
        ∃ tc tc1 c1, c.Classes[cls.toNat]? = some tc ∧ Train c words cls = some c1 ∧
          c1.Classes[cls.toNat]? = some tc1 ∧
          (∀ w, vocabGet tc1.Vocabulary w = vocabGet tc.Vocabulary w + words.count w) ∧
          tc1.Count = tc.Count + 1 ∧ tc1.Prior = tc.Prior ∧
          (∀ j, j ≠ cls.toNat → c1.Classes[j]? = c.Classes[j]?) ∧
          c1.Total = c.Total + 1 ∧ c1.Words = c.Words + words.length ∧
          c1.Total = (c1.Classes.map Class.Count).sum ∧
          c1.Words = (c1.Classes.map (fun cl => (cl.Vocabulary.map Prod.snd).sum)).sum := by
  have hnew : New fl priors = some { Classes := priors.map (fun p =>
      { Count := 0, Prior := fl.log2 p, Vocabulary := [] }), Total := 0, Words := 0 } := by
    unfold New
    rw [if_neg (by omega)]
  have hc0 : Counted ({ Classes := priors.map (fun p =>
      { Count := 0, Prior := fl.log2 p, Vocabulary := [] }), Total := 0, Words := 0 } :
      Classifier F) := by
    refine ⟨?_, ?_, ?_⟩
    · simp only [List.map_map]
      induction priors with
      | nil => rfl
      | cons p rest ih => simp [Function.comp_def]
    · simp only [List.map_map]
      induction priors with
      | nil => rfl
      | cons p rest ih => simp [Function.comp_def]
    · intro cl hcl
      simp only [List.mem_map] at hcl
      obtain ⟨p, _, hp⟩ := hcl
      rw [← hp]
      exact List.nodup_nil
  obtain ⟨c, hrun, hc, hlen, htot⟩ := trainAll_spec calls _ hc0 (by
    intro p hp
    simp only [List.length_map]
    exact hv p hp)
  simp only [List.length_map] at hlen
  refine ⟨_, c, hnew, hrun, hlen, hc.total, by simpa using htot, hc.words, hc.keys, ?_⟩
  intro words cls h0 h1
  obtain ⟨tc, c1, hget, hrun1, hcl, htot1, hw1, hc1⟩ :=
    Train_spec hc words cls h0 (by rw [hlen]; exact h1)
  have hlt : cls.toNat < c.Classes.length := by omega
  obtain ⟨_, _, k3⟩ := updateVocabulary_spec words tc.Vocabulary
    (hc.keys tc (List.getElem?_mem hget))
  refine ⟨tc,
    { tc with
      Count := tc.Count + 1,
      Vocabulary := updateVocabulary tc.Vocabulary words },
    c1, hget, hrun1, ?_, k3, rfl, rfl, ?_, htot1, hw1, hc1.total, hc1.words⟩
  · rw [hcl, List.getElem?_set_self hlt]
  · intro j hj
    rw [hcl, List.getElem?_set_ne (Ne.symm hj)]

/-- Witness of C29: the priors 1/4 and 1/2 and the training of the session
test. -/
theorem counters_consistent_under_training_witness :
    ∃ c0 c, New fracFloats [{ num := 1, den := 4 }, { num := 1, den := 2 }] = some c0 ∧
      trainAll c0 trainingExample = some c ∧
      c.Classes.length = 2 ∧
      c.Total = (c.Classes.map Class.Count).sum ∧ c.Total = (2 : Nat) ∧
      c.Words = (c.Classes.map (fun cl => (cl.Vocabulary.map Prod.snd).sum)).sum ∧
      (∀ cl ∈ c.Classes, (cl.Vocabulary.map Prod.fst).Nodup) ∧
      ∀ (words : List String) (cls : Int), 0 ≤ cls → cls < (2 : Nat) →
        ∃ tc tc1 c1, c.Classes[cls.toNat]? = some tc ∧ Train c words cls = some c1 ∧
          c1.Classes[cls.toNat]? = some tc1 ∧
          (∀ w, vocabGet tc1.Vocabulary w = vocabGet tc.Vocabulary w + words.count w) ∧
          tc1.Count = tc.Count + 1 ∧ tc1.Prior = tc.Prior ∧
          (∀ j, j ≠ cls.toNat → c1.Classes[j]? = c.Classes[j]?) ∧
          c1.Total = c.Total + 1 ∧ c1.Words = c.Words + words.length ∧
          c1.Total = (c1.Classes.map Class.Count).sum ∧
          c1.Words = (c1.Classes.map (fun cl => (cl.Vocabulary.map Prod.snd).sum)).sum :=
  counters_consistent_under_training fracFloats
    [{ num := 1, den := 4 }, { num := 1, den := 2 }] trainingExample (by decide)
    (by decide)

/-! ## Claim C27 -/

theorem ambiguityLoop_unknown {F : Type} (word : String) : ∀ (classes : List (Class F))
    (max total : Int), (∀ cl ∈ classes, vocabGet cl.Vocabulary word = 0) → 0 ≤ max →
    ambiguityLoop word classes max total = (max, total) := by
  intro classes
  induction classes with
  | nil => intro max total _ _; rfl
  | cons cl rest ih =>
    intro max total h hmax
    have h0 := h cl (List.mem_cons_self _ _)
    simp only [ambiguityLoop, h0, gt_iff_lt, if_neg (not_lt.mpr hmax), add_zero]
    exact ih max total (fun x hx => h x (List.mem_cons_of_mem _ hx)) hmax

theorem Prefilter_unknown {F : Type} (fl : Floats F) (c : Classifier F) (words : List String)
    (hcut : fl.lt (cutoff fl c) (fl.ofInt 0) = false)
    (hunk : ∀ w ∈ words, ∀ cl ∈ c.Classes, w ∉ cl.Vocabulary.map Prod.fst) :
    Prefilter fl c words = [] := by
  unfold Prefilter
  rw [List.filter_eq_nil_iff]
  intro w hw
  have h0 : ambiguityLoop w c.Classes 0 0 = (0, 0) :=
    ambiguityLoop_unknown w c.Classes 0 0
      (fun cl hcl => vocabGet_of_not_mem (hunk w hw cl hcl)) (le_refl 0)
  simp only [ambiguityMeasure, h0, gt_iff_lt, lt_self_iff_false, if_false, hcut,
    Bool.false_eq_true, not_false_eq_true]

/-- Claim C27, refuted as stated: after `New` with the priors 1/4 and 1/2 and
the training of the session test, one story for each class, no class holds
"man" or "shoots" in its vocabulary, and `Classify` returns class 1 for
that word list: `Prefilter` drops both words, and the weights are the
`Prior` fields -2 and -1. -/
theorem unknown_title_is_interesting_counterexample :
    (New fracFloats [{ num := 1, den := 4 }, { num := 1, den := 2 }]).bind
        (fun c => trainAll c trainingExample) = some trainedExample ∧
      (∀ w ∈ ["man", "shoots"], ∀ cl ∈ trainedExample.Classes,
        w ∉ cl.Vocabulary.map Prod.fst) ∧
      Prefilter fracFloats trainedExample ["man", "shoots"] = [] ∧
      trainedExample.Classes.map (fun cl => weight fracFloats trainedExample cl [])
        = [{ num := -2, den := 1 }, { num := -1, den := 1 }] ∧
      Classify fracFloats trainedExample ["man", "shoots"] = some 1 := by
  decide

/-- Claim C27, amended: wholly unknown titles are classified by the prior
weights alone.  For every classifier with at least one class, for every
arithmetic in which 0 is not greater than the cutoff, and every word list
none of whose words occurs in the vocabulary of any class, `Prefilter` drops
every word; the weight of a class is then 0 if the classifier has not been
trained, -500 if the class has not been trained and the `Prior` of the class
otherwise; `Classify` returns what it returns for the empty word list.  This
is class 0 (Interesting) when the classifier has not been trained, and for a
classifier of two classes it is class 1 exactly when the weight of class 0 is
less than the weight of class 1. -/
theorem unknown_title_classified_by_prior_weights {F : Type} (fl : Floats F)
    (c : Classifier F) (words : List String) (hne : c.Classes ≠ [])
    (hcut : fl.lt (cutoff fl c) (fl.ofInt 0) = false)
    (hunk : ∀ w ∈ words, ∀ cl ∈ c.Classes, w ∉ cl.Vocabulary.map Prod.fst) :
    Prefilter fl c words = [] ∧
    (∀ cl, weight fl c cl (Prefilter fl c words) =
      if c.Total = 0 then fl.ofInt 0
      else if cl.Count = 0 then fl.ofInt (-500) else cl.Prior) ∧
    (∃ h, Classify fl c words = some h ∧ Classify fl c [] = some h) ∧
    (c.Total = 0 → fl.lt (fl.ofInt 0) (fl.ofInt 0) = false → Classify fl c words = some 0) ∧
    (∀ a b, c.Classes = [a, b] →
      Classify fl c words
        = some (if fl.lt (weight fl c a []) (weight fl c b []) then 1 else 0)) := by
  have hp := Prefilter_unknown fl c words hcut hunk
  have hp0 : Prefilter fl c [] = [] := rfl
  have hcl : Classify fl c words = Classify fl c [] := by
    unfold Classify
    rw [hp, hp0]
  refine ⟨hp, ?_, ?_, ?_, ?_⟩
  · intro cl
    rw [hp]
    rfl
  · rw [hcl]
    cases hcs : c.Classes with
    | nil => exact absurd hcs hne
    | cons a rest =>
      have hx : Classify fl c [] = some (heaviestLoop fl
          (weight fl c a (Prefilter fl c []) ::
            rest.map (fun cl => weight fl c cl (Prefilter fl c []))) 0 0
          (weight fl c a (Prefilter fl c []))) := by
        simp only [Classify, hcs, List.map_cons]
      exact ⟨_, hx, hx⟩
  · intro ht hz
    rw [hcl]
    have hloop : ∀ (l : List (Class F)) (j : Nat),
        heaviestLoop fl (l.map (fun cl => weight fl c cl (Prefilter fl c []))) j 0 (fl.ofInt 0)
          = 0 := by
      intro l
      induction l with
      | nil => intro j; rfl
      | cons a rest ih =>
        intro j
        have hw : weight fl c a (Prefilter fl c []) = fl.ofInt 0 := by
          simp only [weight, ht, if_true]
        simp only [List.map_cons, heaviestLoop, hw, hz, Bool.false_eq_true, if_false]
        exact ih (j + 1)
    cases hcs : c.Classes with
    | nil => exact absurd hcs hne
    | cons a rest =>
      have hw : weight fl c a (Prefilter fl c []) = fl.ofInt 0 := by
        simp only [weight, ht, if_true]
      have := hloop (a :: rest) 0
      simp only [List.map_cons, hw] at this
      simp only [Classify, hcs, List.map_cons, hw]
      rw [this]
  · intro a b hab
    rw [hcl]
    simp only [Classify, hab, List.map_cons, List.map_nil, hp0, heaviestLoop]
    by_cases h1 : fl.lt (weight fl c a []) (weight fl c a []) = true
    · simp only [h1, if_true]
    · simp only [h1, if_false, Bool.false_eq_true]

/-- Witness of C27 amended: the classifier `trainedExample` and the word list
"man", "shoots". -/
theorem unknown_title_classified_by_prior_weights_witness :
    Prefilter fracFloats trainedExample ["man", "shoots"] = [] ∧
    (∀ cl, weight fracFloats trainedExample cl
        (Prefilter fracFloats trainedExample ["man", "shoots"]) =
      if trainedExample.Total = 0 then fracFloats.ofInt 0
      else if cl.Count = 0 then fracFloats.ofInt (-500) else cl.Prior) ∧
    (∃ h, Classify fracFloats trainedExample ["man", "shoots"] = some h ∧
      Classify fracFloats trainedExample [] = some h) ∧
    (trainedExample.Total = 0 → fracFloats.lt (fracFloats.ofInt 0) (fracFloats.ofInt 0) = false →
      Classify fracFloats trainedExample ["man", "shoots"] = some 0) ∧
    (∀ a b, trainedExample.Classes = [a, b] →
      Classify fracFloats trainedExample ["man", "shoots"]
        = some (if fracFloats.lt (weight fracFloats trainedExample a [])
                  (weight fracFloats trainedExample b []) then 1 else 0)) :=
  unknown_title_classified_by_prior_weights fracFloats trainedExample ["man", "shoots"]
    (by decide) (by decide) (by decide)

end BreadNbc

namespace BreadSession

/-! ## Claim C14 -/

theorem set_middle (A B : List Story) (x s : Story) :
    (A ++ x :: B).set A.length s = A ++ s :: B := by
  rw [List.set_append_right _ _ (Nat.le_refl _)]
  simp

theorem ring_step (A B : List Story) (x s : Story) :
    ((A ++ x :: B).set A.length s).drop ((A.length + 1) % (A ++ x :: B).length) ++
        ((A ++ x :: B).set A.length s).take ((A.length + 1) % (A ++ x :: B).length)
      = B ++ A ++ [s] ∧
    ((A ++ x :: B).set A.length s)[(A.length + 1) % (A ++ x :: B).length]?
      = (B ++ A ++ [s]).head? := by
  rw [set_middle]
  cases B with
  | nil =>
    have hmod : (A.length + 1) % (A ++ [x]).length = 0 := by simp
    rw [hmod]
    constructor
    · simp
    · cases A <;> simp
  | cons b B2 =>
    have hlt : A.length + 1 < (A ++ x :: b :: B2).length := by simp
    rw [Nat.mod_eq_of_lt hlt]
    have e1 : A ++ s :: b :: B2 = (A ++ [s]) ++ b :: B2 := by simp
    have hl : (A ++ [s]).length = A.length + 1 := by simp
    constructor
    · rw [e1, List.drop_left' hl, List.take_left' hl]
      simp
    · rw [e1, List.getElem?_append_right (by rw [hl]), hl]
      simp

theorem add_first {c : Nat} (hc : 1 ≤ c) (s : Story) (hs : 0 ≤ s.Id) :
    ∃ f, add (newFifo c) s = some f ∧ Filled c f [s] := by
  refine ⟨{ index := [s], capacity := max c 1, start := s.Id, end_ := s.Id, head := 0 }, ?_, ?_⟩
  · simp [add, newFifo, not_lt.mpr hs]
  · refine ⟨by simp; omega, by simp; omega, by simp; omega, fun _ => rfl, ?_, rfl, rfl⟩
    simp only [held, List.length_singleton]
    rw [show 1 - c = 0 by omega]
    rfl

theorem add_filled {c : Nat} (hc : 1 ≤ c) {f : Fifo} {seen : List Story}
    (hne : seen ≠ []) (hf : Filled c f seen) (s : Story) (hs : f.end_ ≤ s.Id) :
    ∃ f1, add f s = some f1 ∧ Filled c f1 (seen ++ [s]) := by
  have hpos : 0 < seen.length := List.length_pos.mpr hne
  have hlen0 : f.index.length ≠ 0 := by
    rw [hf.len]
    omega
  by_cases hfull : f.index.length = f.capacity
  · -- the ring is full: the oldest story is overwritten
    have hlenc : f.index.length = c := by rw [hfull, hf.cap]
    have hge : c ≤ seen.length := by
      have := hf.len
      rw [hlenc] at this
      omega
    have hhead : f.head < f.index.length := by rw [hlenc]; exact hf.headLt
    have hsplit : f.index = f.index.take f.head ++ f.index[f.head] :: f.index.drop (f.head + 1) := by
      rw [← List.drop_eq_getElem_cons hhead, List.take_append_drop]
    have hA : (f.index.take f.head).length = f.head := by
      rw [List.length_take]
      omega
    obtain ⟨hring, hget⟩ := ring_step (f.index.take f.head) (f.index.drop (f.head + 1))
      f.index[f.head] s
    rw [← hsplit, hA, hlenc] at hring hget
    have hheld : held f = f.index[f.head] :: (f.index.drop (f.head + 1) ++ f.index.take f.head) := by
      unfold held
      rw [List.drop_eq_getElem_cons hhead]
      rfl
    have hnew : f.index.drop (f.head + 1) ++ f.index.take f.head ++ [s]
        = (seen ++ [s]).drop ((seen ++ [s]).length - c) := by
      have h1 : f.index.drop (f.head + 1) ++ f.index.take f.head
          = seen.drop (seen.length - c + 1) := by
        have := hf.holds
        rw [hheld] at this
        have h2 := congrArg List.tail this
        simp only [List.tail_cons, List.tail_drop] at h2
        exact h2
      rw [h1, List.length_append, List.length_singleton,
        show seen.length + 1 - c = seen.length - c + 1 by omega,
        List.drop_append_of_le_length (by omega)]
    cases hg : (f.index.set f.head s)[(f.head + 1) % c]? with
    | none =>
      rw [hg] at hget
      rw [hnew] at hget
      have hne2 : (seen ++ [s]).drop ((seen ++ [s]).length - c) ≠ [] := by
        rw [← hnew]
        simp
      cases hd : (seen ++ [s]).drop ((seen ++ [s]).length - c) with
      | nil => exact absurd hd hne2
      | cons a rest =>
        rw [hd] at hget
        simp at hget
    | some oldest =>
      refine ⟨{ f with index := f.index.set f.head s, head := (f.head + 1) % f.capacity,
                       start := oldest.Id, end_ := s.Id }, ?_, ?_⟩
      · unfold add
        rw [if_neg (not_lt.mpr hs), if_neg hlen0, if_pos hfull, if_pos hhead, hf.cap, hg]
      · have hheld1 : held ({ f with index := f.index.set f.head s,
                                     head := (f.head + 1) % f.capacity,
                                     start := oldest.Id, end_ := s.Id } : Fifo)
            = (seen ++ [s]).drop ((seen ++ [s]).length - c) := by
          unfold held
          simp only
          rw [hf.cap, hring, hnew]
        refine ⟨hf.cap, ?_, ?_, ?_, hheld1, ?_, ?_⟩
        · simp only [List.length_set, hlenc, List.length_append, List.length_singleton]
          omega
        · simp only
          rw [hf.cap]
          exact Nat.mod_lt _ hc
        · intro hlt
          simp only [List.length_set, hlenc] at hlt
          omega
        · simp
        · rw [hheld1, ← hnew, ← hget, hg]
          rfl
  · -- the ring is not full: the story is appended
    have hlt : f.index.length < c := by
      have h1 := hf.len
      have h2 := hf.cap
      omega
    have hn : seen.length < c := by
      have := hf.len
      omega
    have hh0 : f.head = 0 := hf.headZero hlt
    have hidx : f.index = seen := by
      have := hf.holds
      unfold held at this
      rw [hh0] at this
      simpa [show seen.length - c = 0 by omega] using this
    refine ⟨{ f with index := f.index ++ [s], end_ := s.Id }, ?_, ?_⟩
    · unfold add
      rw [if_neg (not_lt.mpr hs), if_neg hlen0, if_neg hfull]
    · have hheld1 : held ({ f with index := f.index ++ [s], end_ := s.Id } : Fifo)
          = seen ++ [s] := by
        unfold held
        simp only
        rw [hh0, hidx]
        simp
      refine ⟨hf.cap, ?_, hf.headLt, fun _ => hh0, ?_, ?_, ?_⟩
      · simp only [List.length_append, List.length_singleton, hidx]
        omega
      · rw [hheld1]
        simp only [List.length_append, List.length_singleton]
        rw [show seen.length + 1 - c = 0 by omega]
        rfl
      · simp
      · rw [hheld1]
        have := hf.startId
        unfold held at this
        rw [hh0, hidx] at this
        simp only [List.drop_zero, List.take_zero, List.append_nil] at this
        simp only
        rw [this]
        cases seen with
        | nil => exact absurd rfl hne
        | cons a rest => rfl

theorem addAll_filled {c : Nat} (hc : 1 ≤ c) : ∀ (rest : List Story) (f : Fifo)
    (seen : List Story), seen ≠ [] → Filled c f seen → idsFrom f.end_ rest = true →
    ∃ f1, addAll f rest = some f1 ∧ Filled c f1 (seen ++ rest) := by
  intro rest
  induction rest with
  | nil =>
    intro f seen _ hf _
    exact ⟨f, rfl, by simpa using hf⟩
  | cons s rest ih =>
    intro f seen hne hf hids
    simp only [idsFrom, Bool.and_eq_true, decide_eq_true_eq] at hids
    obtain ⟨f1, hadd, hf1⟩ := add_filled hc hne hf s hids.1
    have hend : f1.end_ = s.Id := by
      have := hf1.endId
      simp only [List.getLast?_concat, Option.map_some', Option.some.injEq] at this
      exact this
    obtain ⟨f2, hall, hf2⟩ := ih f1 (seen ++ [s]) (by simp) hf1 (by rw [hend]; exact hids.2)
    refine ⟨f2, ?_, by simpa using hf2⟩
    simp only [addAll, hadd]
    exact hall

/-- Claim C14, refuted as stated: a single story is in non-decreasing id
order, but `add` of a story with the id -1 to a new fifo of capacity 3 panics,
since the id is below the `end` of the empty fifo, which is 0. -/
theorem fifo_bounds_counterexample :
    nonDecreasing [storyOf (-1)] = true ∧ addAll (newFifo 3) [storyOf (-1)] = none := by
  decide

/-- Claim C14, amended: for every fifo of capacity `c` at least 1 and every
sequence of at least one story, with ids that are not negative, added in
non-decreasing id order, the adds complete and afterwards the fifo holds the
last `min n c` stories, oldest first from `head`; `end` is the id of the last
story added and `start` the id of the oldest story still held.  With capacity
3 and the ids 1, 2, 3, 4 this gives `start` 2 and `end` 4. -/
theorem fifo_bounds (c : Nat) (hc : 1 ≤ c) (ss : List Story) (hne : ss ≠ [])
    (hids : idsFrom 0 ss = true) :
    (∃ f, addAll (newFifo c) ss = some f ∧
      held f = ss.drop (ss.length - min ss.length c) ∧
      (held f).length = min ss.length c ∧
      some f.end_ = ss.getLast?.map Story.Id ∧
      some f.start = (held f).head?.map Story.Id) ∧
    (addAll (newFifo 3) [storyOf 1, storyOf 2, storyOf 3, storyOf 4]).map
        (fun f => (f.start, f.end_)) = some (2, 4) := by
  refine ⟨?_, rfl⟩
  cases ss with
  | nil => exact absurd rfl hne
  | cons s rest =>
    simp only [idsFrom, Bool.and_eq_true, decide_eq_true_eq] at hids
    obtain ⟨f0, hadd, hf0⟩ := add_first hc s hids.1
    have hend : f0.end_ = s.Id := by
      have := hf0.endId
      simpa using this
    obtain ⟨f1, hall, hf1⟩ := addAll_filled hc rest f0 [s] (by simp) hf0
      (by rw [hend]; exact hids.2)
    have hdrop : (s :: rest).length - min (s :: rest).length c = (s :: rest).length - c := by
      omega
    refine ⟨f1, ?_, ?_, ?_, hf1.endId, hf1.startId⟩
    · simp only [addAll, hadd]
      exact hall
    · rw [hdrop]
      exact hf1.holds
    · rw [hf1.holds]
      simp only [List.singleton_append, List.length_drop, List.length_cons]
      omega

/-- Witness of C14 amended: the four stories of `TestFifoAdd` and a fifo of
capacity 3. -/
theorem fifo_bounds_witness :
    (∃ f, addAll (newFifo 3) [storyOf 1, storyOf 2, storyOf 3, storyOf 4] = some f ∧
      held f = [storyOf 1, storyOf 2, storyOf 3, storyOf 4].drop
        ([storyOf 1, storyOf 2, storyOf 3, storyOf 4].length
          - min [storyOf 1, storyOf 2, storyOf 3, storyOf 4].length 3) ∧
      (held f).length = min [storyOf 1, storyOf 2, storyOf 3, storyOf 4].length 3 ∧
      some f.end_ = [storyOf 1, storyOf 2, storyOf 3, storyOf 4].getLast?.map Story.Id ∧
      some f.start = (held f).head?.map Story.Id) ∧
    (addAll (newFifo 3) [storyOf 1, storyOf 2, storyOf 3, storyOf 4]).map
        (fun f => (f.start, f.end_)) = some (2, 4) :=
  fifo_bounds 3 (by decide) [storyOf 1, storyOf 2, storyOf 3, storyOf 4] (by simp)
    (by decide)

/-! ## Claim C25 -/

theorem ring_getElem (l : List Story) (h k : Nat) (hh : h < l.length) (hk : k < l.length) :
    (l.drop h ++ l.take h)[k]? = l[(h + k) % l.length]? := by
  by_cases hlt : k < l.length - h
  · rw [List.getElem?_append_left (by rw [List.length_drop]; exact hlt), List.getElem?_drop,
      Nat.mod_eq_of_lt (by omega)]
  · have hge : (l.drop h).length ≤ k := by rw [List.length_drop]; omega
    rw [List.getElem?_append_right hge, List.length_drop,
      List.getElem?_take_of_lt (by omega), Nat.mod_eq_sub_mod (by omega),
      Nat.mod_eq_of_lt (by omega)]
    congr 1
    omega

theorem consecutiveFrom_getElem : ∀ (l : List Story) (i : Int), consecutiveFrom i l = true →
    ∀ (k : Nat) (s : Story), l[k]? = some s → s.Id = i + k := by
  intro l
  induction l with
  | nil => intro i _ k s h; simp at h
  | cons a rest ih =>
    intro i hc k s h
    simp only [consecutiveFrom, Bool.and_eq_true, decide_eq_true_eq] at hc
    cases k with
    | zero =>
      simp only [List.getElem?_cons_zero, Option.some.injEq] at h
      rw [← h, hc.1]
      simp
    | succ n =>
      simp only [List.getElem?_cons_succ] at h
      rw [ih (i + 1) hc.2 n s h]
      push_cast
      omega

theorem consecutive_getElem {s0 : Story} {rest : List Story}
    (hc : consecutive (s0 :: rest) = true) (k : Nat) (s : Story)
    (h : (s0 :: rest)[k]? = some s) : s.Id = s0.Id + k := by
  cases k with
  | zero =>
    simp only [List.getElem?_cons_zero, Option.some.injEq] at h
    rw [← h]
    simp
  | succ n =>
    simp only [List.getElem?_cons_succ] at h
    rw [consecutiveFrom_getElem rest (s0.Id + 1) hc n s h]
    push_cast
    omega

theorem idsFrom_of_consecutiveFrom : ∀ (l : List Story) (i : Int),
    consecutiveFrom (i + 1) l = true → idsFrom i l = true := by
  intro l
  induction l with
  | nil => intro i _; rfl
  | cons a rest ih =>
    intro i hc
    simp only [consecutiveFrom, Bool.and_eq_true, decide_eq_true_eq] at hc
    simp only [idsFrom, Bool.and_eq_true, decide_eq_true_eq]
    refine ⟨by omega, ?_⟩
    rw [hc.1]
    exact ih (i + 1) hc.2

/-- A fifo that was filled with stories of consecutive ids holds the last
of them, and the first id is not negative. -/
theorem filled_of_addAll {c : Nat} (hc : 1 ≤ c) {s0 : Story} {rest : List Story} {f : Fifo}
    (hcons : consecutive (s0 :: rest) = true)
    (hf : addAll (newFifo c) (s0 :: rest) = some f) : Filled c f (s0 :: rest) := by
  by_cases hs : s0.Id < 0
  · have : add (newFifo c) s0 = none := by simp [add, newFifo, hs]
    simp [addAll, this] at hf
  · obtain ⟨f0, hadd, hf0⟩ := add_first hc s0 (not_lt.mp hs)
    have hend : f0.end_ = s0.Id := by
      have := hf0.endId
      simpa using this
    obtain ⟨f1, hall, hf1⟩ := addAll_filled hc rest f0 [s0] (by simp) hf0
      (by rw [hend]; exact idsFrom_of_consecutiveFrom rest s0.Id hcons)
    simp only [addAll, hadd, hall, Option.some.injEq] at hf
    rw [← hf]
    exact hf1

/-- Claim C25: ring buffer lookup with consecutive ids.  For every fifo of
capacity `c` at least 1 that was filled by adding stories whose ids are
consecutive integers in increasing order, and for every id: when stories were
added and `start <= id <= end`, `get(id)` returns `(s, true)` for one of the
stories added, with `s.Id = id`; when no story was added, or the id is below
`start` or above `end`, `get(id)` returns `(nil, false)`.  The new fifo
returns `(nil, false)` for every id.  The capacity is at most `2 ^ 62`, as
that of every slice of pointers on a 64-bit machine, so that the index
arithmetic of `get` does not wrap around. -/
theorem get_finds_consecutive_ids (c : Nat) (hc : 1 ≤ c) (hcap : c ≤ 2 ^ 62)
    (ss : List Story) (hcons : consecutive ss = true) (f : Fifo) (hf : addAll (newFifo c) ss = some f)
    (id : Int) :
    (ss ≠ [] → f.start ≤ id → id ≤ f.end_ →
      ∃ s, get f id = some (some s, true) ∧ s.Id = id ∧ s ∈ ss) ∧
    (ss = [] ∨ id < f.start ∨ f.end_ < id → get f id = some (none, false)) ∧
    get (newFifo c) id = some (none, false) := by
  refine ⟨?_, ?_, by simp [get, newFifo]⟩
  · intro hne h1 h2
    cases ss with
    | nil => exact absurd rfl hne
    | cons s0 rest =>
      have hfl := filled_of_addAll hc hcons hf
      have hlen := hfl.len
      have hholds := hfl.holds
      have hend := hfl.endId
      have hstart := hfl.startId
      have hn : (s0 :: rest).length = rest.length + 1 := rfl
      rw [hn] at hlen hholds
      -- the id of `end`
      have hlast : ∃ sl, (s0 :: rest)[rest.length]? = some sl :=
        ⟨_, List.getElem?_eq_getElem (by simp)⟩
      obtain ⟨sl, hsl⟩ := hlast
      rw [List.getLast?_eq_getElem?, hn, Nat.add_sub_cancel, hsl] at hend
      simp only [Option.map_some', Option.some.injEq] at hend
      have hslId := consecutive_getElem hcons _ _ hsl
      -- the id of `start`
      have hd : rest.length + 1 - c < rest.length + 1 := by omega
      obtain ⟨sd, hsd⟩ : ∃ sd, (s0 :: rest)[rest.length + 1 - c]? = some sd :=
        ⟨_, List.getElem?_eq_getElem (by simpa using hd)⟩
      rw [hholds, List.head?_drop, hsd] at hstart
      simp only [Option.map_some', Option.some.injEq] at hstart
      have hsdId := consecutive_getElem hcons _ _ hsd
      -- the story asked for
      have hk : (id - f.start).toNat < min (rest.length + 1) c := by omega
      have hk2 : rest.length + 1 - c + (id - f.start).toNat < rest.length + 1 := by omega
      obtain ⟨s, hs⟩ : ∃ s, (s0 :: rest)[rest.length + 1 - c + (id - f.start).toNat]? = some s :=
        ⟨_, List.getElem?_eq_getElem (by simpa using hk2)⟩
      have hsId := consecutive_getElem hcons _ _ hs
      have hhead : f.head < f.index.length := by
        by_cases hfull : f.index.length < c
        · rw [hfl.headZero hfull]
          omega
        · have := hfl.headLt
          omega
      have hring := ring_getElem f.index f.head (id - f.start).toNat hhead (by omega)
      have hheld : (held f)[(id - f.start).toNat]? = some s := by
        rw [hholds, List.getElem?_drop]
        exact hs
      simp only [held] at hheld
      rw [hring] at hheld
      refine ⟨s, ?_, by omega, List.getElem?_mem hs⟩
      unfold get
      have hcond : ¬ (f.index.length = 0 ∨ id < f.start ∨ id > f.end_) := by omega
      rw [if_neg hcond]
      by_cases heq : id = f.start
      · rw [if_pos heq]
        have h0 : (id - f.start).toNat = 0 := by omega
        rw [h0, Nat.add_zero, Nat.mod_eq_of_lt hhead] at hheld
        rw [hheld]
      · rw [if_neg heq]
        have hkc : ((id - f.start).toNat : Int) = id - f.start :=
          Int.toNat_of_nonneg (by omega)
        have hw1 : wrap64 (id - f.start) = id - f.start := by
          unfold wrap64
          omega
        have hw2 : wrap64 ((f.head : Int) + (id - f.start)) = (f.head : Int) + (id - f.start) := by
          unfold wrap64
          omega
        have hsum : (f.head : Int) + (id - f.start)
            = ((f.head + (id - f.start).toNat : Nat) : Int) := by
          push_cast
          omega
        have hidx : Int.tmod (wrap64 ((f.head : Int) + wrap64 (id - f.start))) f.index.length
            = (((f.head + (id - f.start).toNat) % f.index.length : Nat) : Int) := by
          rw [hw1, hw2, hsum, Int.tmod_eq_emod (Int.natCast_nonneg _) (Int.natCast_nonneg _),
            Int.natCast_mod]
        rw [hidx, if_neg (by omega), Int.toNat_natCast, hheld]
  · intro h
    unfold get
    have hcond : f.index.length = 0 ∨ id < f.start ∨ id > f.end_ := by
      rcases h with h | h | h
      · left
        rw [h] at hf
        simp only [addAll, Option.some.injEq] at hf
        rw [← hf]
        rfl
      · exact Or.inr (Or.inl h)
      · exact Or.inr (Or.inr h)
    rw [if_pos hcond]

/-- Witness of C25: the fifo of `TestFifoAdd` and the id 3. -/
theorem get_finds_consecutive_ids_witness :
    ([storyOf 1, storyOf 2, storyOf 3, storyOf 4] ≠ [] → testFifo.start ≤ 3 →
      3 ≤ testFifo.end_ →
      ∃ s, get testFifo 3 = some (some s, true) ∧ s.Id = 3 ∧
        s ∈ [storyOf 1, storyOf 2, storyOf 3, storyOf 4]) ∧
    ([storyOf 1, storyOf 2, storyOf 3, storyOf 4] = [] ∨ 3 < testFifo.start ∨
      testFifo.end_ < 3 → get testFifo 3 = some (none, false)) ∧
    get (newFifo 3) 3 = some (none, false) :=
  get_finds_consecutive_ids 3 (by decide) (by decide) [storyOf 1, storyOf 2, storyOf 3, storyOf 4]
    (by decide) testFifo (by decide) 3

/-- The index arithmetic of `get` wraps around as that of the Go code does.
After the ids 0, 0, 0, 0 and `2 ^ 63 - 1` were added to a fifo of capacity 3,
`head` is 2 and `start` is 0, and `get` of the last id adds `2 ^ 63 - 1` to
`head`: the sum wraps to a negative index, and the Go code panics. -/
theorem get_wraps_around :
    (addAll (newFifo 3) [storyOf 0, storyOf 0, storyOf 0, storyOf 0, storyOf (2 ^ 63 - 1)]).map
        (fun f => (f.head, f.start, f.end_)) = some (2, 0, 2 ^ 63 - 1) ∧
      (addAll (newFifo 3)
          [storyOf 0, storyOf 0, storyOf 0, storyOf 0, storyOf (2 ^ 63 - 1)]).bind
        (fun f => get f (2 ^ 63 - 1)) = none := by
  decide

/-! ## Claim C30 -/

/-- Claim C30, as the code behaves: `get` can return a story that was not
asked for.  The ids 1 and 3 are strictly increasing; after the two stories
were added to a fifo of capacity 3, `get(2)` returns the story 3 and true.
After the stories 1, 5 and 10 were added to a fifo of capacity 2, which then
holds 5 and 10, `get(7)` returns the story 5 and true. -/
theorem get_returns_another_story :
    increasing [storyOf 1, storyOf 3] = true ∧
      (addAll (newFifo 3) [storyOf 1, storyOf 3]).map (fun f => get f 2)
        = some (some (some (storyOf 3), true)) ∧
      increasing [storyOf 1, storyOf 5, storyOf 10] = true ∧
      (addAll (newFifo 2) [storyOf 1, storyOf 5, storyOf 10]).map
          (fun f => (f.start, f.end_, get f 7))
        = some (5, 10, some (some (storyOf 5), true)) := by
  decide

/-! ## Claim C26 -/

/-- Claim C26, as the code behaves: `addIfHigh` can leave the list unsorted.
`insertScore` puts the new score after the back element without comparing the
two.  The list that holds the score 3 is sorted; after `addIfHigh` with the
length 2 and the score 4 it holds 3 and then 4.  The sorted list of the scores
5 and 3 is left as it is by `addIfHigh` with the length 2 and the score 4,
which is higher than 3. -/
theorem addIfHigh_breaks_the_order :
    descending intLt [({ storyid := 1, score := 3 } : score Int)] = true ∧
      addIfHigh intLt [{ storyid := 1, score := 3 }] 2 2 4
        = some [{ storyid := 1, score := 3 }, { storyid := 2, score := 4 }] ∧
      descending intLt
        [({ storyid := 1, score := 3 } : score Int), { storyid := 2, score := 4 }] = false ∧
      addIfHigh intLt [{ storyid := 1, score := 5 }, { storyid := 2, score := 3 }] 2 3 4
        = some [{ storyid := 1, score := 5 }, { storyid := 2, score := 3 }] := by
  decide

end BreadSession

namespace BreadRss

/-! ## Claim C15 -/

theorem takeWhile_ne_nil_iff (l : List Char) :
    l.takeWhile Char.isDigit ≠ [] ↔
      (match l with
        | d :: _ => d.isDigit
        | [] => false) = true := by
  cases l with
  | nil => simp
  | cons d rest =>
    by_cases h : d.isDigit = true <;> simp [List.takeWhile_cons, h]

theorem matchHere_eq (s : List Char) :
    matchHere s = if occursAt s 0 = true then some (digitRun (s.drop 3)) else none := by
  unfold matchHere occursAt digitRun
  simp only [List.drop_zero, Nat.zero_add, Bool.and_eq_true, decide_eq_true_eq,
    takeWhile_ne_nil_iff]

theorem occursAt_succ (r : Char) (rest : List Char) (i : Nat) :
    occursAt (r :: rest) (i + 1) = occursAt rest i := by
  simp [occursAt, Nat.add_right_comm]

theorem findGroup_leftmost : ∀ (i : Nat) (s : List Char), occursAt s i = true →
    (∀ j, j < i → occursAt s j = false) → findGroup s = some (digitRun (s.drop (i + 3))) := by
  intro i
  induction i with
  | zero =>
    intro s h0 _
    cases s with
    | nil => simp [occursAt] at h0
    | cons r rest =>
      simp only [findGroup, matchHere_eq, h0, if_true]
  | succ i ih =>
    intro s hi hlt
    cases s with
    | nil => simp [occursAt] at hi
    | cons r rest =>
      have h0 : occursAt (r :: rest) 0 = false := hlt 0 (Nat.succ_pos i)
      rw [occursAt_succ] at hi
      have hlt2 : ∀ j, j < i → occursAt rest j = false := by
        intro j hj
        rw [← occursAt_succ r rest j]
        exact hlt (j + 1) (Nat.succ_lt_succ hj)
      simp only [findGroup, matchHere_eq, h0, Bool.false_eq_true, if_false]
      rw [ih rest hi hlt2]
      simp [Nat.add_right_comm]

theorem findGroup_none : ∀ (s : List Char), (∀ j, j < s.length → occursAt s j = false) →
    findGroup s = none := by
  intro s
  induction s with
  | nil => intro _; rfl
  | cons r rest ih =>
    intro h
    have h0 : occursAt (r :: rest) 0 = false := h 0 (by simp)
    have h2 : ∀ j, j < rest.length → occursAt rest j = false := by
      intro j hj
      rw [← occursAt_succ r rest j]
      exact h (j + 1) (by simpa using hj)
    simp only [findGroup, matchHere_eq, h0, Bool.false_eq_true, if_false]
    exact ih h2

/-- Claim C15: for a link in which "id=" followed by at least one decimal
digit stands at position `i` and at no position before `i`, `extractId`
returns the maximal run of digits after that leftmost occurrence with "HN"
appended; for a link in which it stands at no position, `extractId` returns
"unknownHN". -/
theorem extractId_leftmost_digits (link : String) :
    (∀ i, occursAt link.data i = true → (∀ j, j < i → occursAt link.data j = false) →
      extractId link = String.mk (digitRun (link.data.drop (i + 3))) ++ "HN") ∧
    ((∀ j, j < link.data.length → occursAt link.data j = false) →
      extractId link = "unknownHN") := by
  constructor
  · intro i hi hlt
    unfold extractId FindStringSubmatch
    rw [findGroup_leftmost i link.data hi hlt]
    rfl
  · intro h
    unfold extractId FindStringSubmatch
    rw [findGroup_none link.data h]
    rfl

/-- Witness of C15: the link of `TestExtractId`, whose id stands at position
33, and a link without an id. -/
theorem extractId_leftmost_digits_witness :
    extractId "http://news.ycombinator.com/item?id=3725302" = "3725302HN" ∧
      extractId "http://news.ycombinator.com/" = "unknownHN" :=
  ⟨(extractId_leftmost_digits "http://news.ycombinator.com/item?id=3725302").1 33
      (by decide) (by decide),
   (extractId_leftmost_digits "http://news.ycombinator.com/").2 (by decide)⟩

end BreadRss
